import Mathlib

/-!
# stylelint rule `hue-degree-notation`

A shallow embedding of `lib/rules/hue-degree-notation/index.mjs` and theorems about it.

JavaScript strings are modelled as lists of characters.  Every character the rule inspects
(digits, sign, dot, `e`, the letters of `deg` and of the function names) is ASCII, so the
difference between UTF-16 code units and code points never shows.

The value tree is the tree of `postcss-value-parser`: every node has a `type`, a `value`, a
source range, and function nodes have children.  The callback of `parsedValue.walk` mutates
the tree in place; here it returns the new tree together with the walk's state (`needsFix`
and the diagnostics passed to `report`).
-/

namespace HueDegreeNotation

/-- A JavaScript string. -/
abbrev Str := List Char

/-! ## String helpers -/

/-- One character of `String.prototype.toLowerCase`: `A`..`Z` go to `a`..`z` and the Kelvin
sign U+212A goes to `k`.  Every other character is left alone: JavaScript maps no other
character to a string containing an ASCII letter, so comparing a lower-cased string with one of
the ASCII constants of the rule (`deg`, `hsl`, ...) gives the same answer as in JavaScript. -/
def lowerChar (c : Char) : Char :=
  if 65 ≤ c.toNat ∧ c.toNat ≤ 90 then Char.ofNat (c.toNat + 32)
  else if c.toNat = 0x212A then 'k'
  else c

/-- `String.prototype.toLowerCase`, as far as comparisons with ASCII constants go. -/
def toLowerCase (s : Str) : Str := s.map lowerChar

/-- A decimal digit: `code >= 48 && code <= 57`. -/
def isDigit (c : Char) : Bool := decide (48 ≤ c.toNat ∧ c.toNat ≤ 57)

/-- A sign character: `code === plus || code === minus` (char codes 43 and 45). -/
def isSign (c : Char) : Bool := decide (c.toNat = 43 ∨ c.toNat = 45)

/-- A dot: `code === dot` (char code 46). -/
def isDot (c : Char) : Bool := decide (c.toNat = 46)

/-- An exponent marker: `code === exp || code === EXP` (char codes 101 and 69). -/
def isExp (c : Char) : Bool := decide (c.toNat = 101 ∨ c.toNat = 69)

/-! ## `valueParser.unit` -/

/-- The result of `valueParser.unit`: an object with the fields `number` and `unit`. -/
structure Dimension where
  number : Str
  unit : Str
  deriving DecidableEq, Repr

/-- Modelled from the spec: `likeNumber` of `postcss-value-parser/lib/unit.js` (a dependency,
not under `src/`): whether the first three characters of the text start a CSS number:
a digit; a dot and a digit; or a sign followed by a digit or by a dot and a digit. -/
def likeNumber (value : Str) : Bool :=
  match value with
  | [] => false
  | code :: rest =>
    if isSign code then
      match rest with
      | [] => false
      | nextCode :: rest2 =>
        if isDigit nextCode then true
        else
          match rest2 with
          | [] => false
          | nextNextCode :: _ => isDot nextCode && isDigit nextNextCode
    else if isDot code then
      match rest with
      | [] => false
      | nextCode :: _ => isDigit nextCode
    else isDigit code

/-- Modelled from the spec: the first step of `valueParser.unit`: the optional leading sign
is consumed (`if (code === plus || code === minus) pos++`).  The scan position of the
library is kept here as the text that is left. -/
def skipSign (s : Str) : Str :=
  match s with
  | [] => []
  | code :: rest => if isSign code then rest else s

/-- Modelled from the spec: the digit loop of `valueParser.unit`, which moves the position
past a run of digits. -/
def skipDigits (s : Str) : Str := s.dropWhile isDigit

/-- Modelled from the spec: the fraction step of `valueParser.unit`: a dot followed by a
digit starts the fraction; both are consumed (`pos += 2`), then the digits. -/
def skipFraction (s : Str) : Str :=
  match s with
  | code :: nextCode :: rest =>
    if isDot code && isDigit nextCode then skipDigits rest else s
  | _ => s

/-- Modelled from the spec: the exponent step of `valueParser.unit`: an `e` or `E` followed
by a digit, or by a sign and a digit, starts the exponent; these two or three characters
are consumed, then the digits. -/
def skipExponent (s : Str) : Str :=
  match s with
  | code :: nextCode :: rest =>
    if isExp code then
      if isDigit nextCode then skipDigits rest
      else if isSign nextCode then
        match rest with
        | nextNextCode :: rest2 => if isDigit nextNextCode then skipDigits rest2 else s
        | [] => s
      else s
    else s
  | _ => s

/-- Modelled from the spec: what `valueParser.unit` leaves of the text once the numeric
prefix is consumed (`value.slice(pos)`): sign, digits, fraction, exponent, in this order. -/
def unitSuffix (value : Str) : Str :=
  skipExponent (skipFraction (skipDigits (skipSign value)))

/-- Modelled from the spec: `valueParser.unit` of `postcss-value-parser` (a dependency, not
under `src/`), the Unit Classifier of the spec: it splits a text into its numeric prefix and
the unit suffix that follows, and finds nothing (`false`) when the text is empty or does not
start a number.  The numeric prefix is a CSS number: optional sign, digits, optional
fraction, optional exponent.  The specification describes the suffix as letters; the
library returns whatever follows the number, and so does this definition.  The rule only
compares the suffix with the empty string and with `deg`, where the two readings agree. -/
def unit (value : Str) : Option Dimension :=
  if value.length = 0 || !likeNumber value then none
  else
    let rest := unitSuffix value
    some { number := value.take (value.length - rest.length), unit := rest }

/-- A character that no step of the number scan reacts to: not a digit, a sign, a dot or an
exponent marker. -/
def inert (c : Char) : Bool := !(isDigit c || isSign c || isDot c || isExp c)

/-- A text that is empty or starts with an inert character. -/
def inertHead (w : Str) : Prop := ∀ c ∈ w.head?, inert c = true

/-! ## The helpers of the rule -/

/-- The error thrown by `asNumber`: `new TypeError(...)` with its message. -/
inductive JsError where
  | typeError (message : Str)
  deriving DecidableEq, Repr

/-- The function `asDegree`. -/
def asDegree (value : Str) : Str := value ++ "deg".toList

/-- The function `asNumber`. -/
def asNumber (value : Str) : Except JsError Str :=
  match unit value with
  | some dimension => .ok dimension.number
  | none => .error (.typeError ("The \"".toList ++ value ++ "\" value must have a unit".toList))

/-- The function `isDegree`. -/
def isDegree (value : Str) : Bool :=
  match unit value with
  | some dimension => toLowerCase dimension.unit == "deg".toList
  | none => false

/-- The function `isNumber`. -/
def isNumber (value : Str) : Bool :=
  match unit value with
  | some dimension => dimension.unit == []
  | none => false

/-! ## The value tree of `postcss-value-parser` -/

/-- The `type` of a node. -/
inductive NodeType where
  | word
  | string
  | div
  | space
  | comment
  | unicodeRange
  | function
  deriving DecidableEq, Repr

/-- A node of the parsed value.  `nodes` holds the children of a function node (other nodes
have none); `before`, `after`, `quote` and `unclosed` are what `toString` needs besides
`value`; `sourceIndex` and `sourceEndIndex` are offsets into the parsed text. -/
inductive Node where
  | mk (type : NodeType) (value : Str) (sourceIndex sourceEndIndex : Nat)
      (before after quote : Str) (unclosed : Bool) (nodes : List Node)

namespace Node

/-- The field `type`. -/
def type : Node → NodeType
  | mk t _ _ _ _ _ _ _ _ => t

/-- The field `value`. -/
def value : Node → Str
  | mk _ v _ _ _ _ _ _ _ => v

/-- The field `sourceIndex`. -/
def sourceIndex : Node → Nat
  | mk _ _ i _ _ _ _ _ _ => i

/-- The field `sourceEndIndex`. -/
def sourceEndIndex : Node → Nat
  | mk _ _ _ e _ _ _ _ _ => e

/-- The field `before`. -/
def before : Node → Str
  | mk _ _ _ _ b _ _ _ _ => b

/-- The field `after`. -/
def after : Node → Str
  | mk _ _ _ _ _ a _ _ _ => a

/-- The field `quote`. -/
def quote : Node → Str
  | mk _ _ _ _ _ _ q _ _ => q

/-- The field `unclosed`. -/
def unclosed : Node → Bool
  | mk _ _ _ _ _ _ _ u _ => u

/-- The field `nodes`. -/
def nodes : Node → List Node
  | mk _ _ _ _ _ _ _ _ ns => ns

/-- The assignment `node.value = v`. -/
def setValue (v : Str) : Node → Node
  | mk t _ i e b a q u ns => mk t v i e b a q u ns

/-- The node with its children replaced (the children were mutated in place). -/
def setNodes (ns : List Node) : Node → Node
  | mk t v i e b a q u _ => mk t v i e b a q u ns

end Node

mutual
/-- The number of nodes of a tree. -/
def Node.count : Node → Nat
  | .mk _ _ _ _ _ _ _ _ ns => 1 + countNodes ns
/-- The number of nodes of a list of trees. -/
def countNodes : List Node → Nat
  | [] => 0
  | n :: ns => n.count + countNodes ns
end

mutual
/-- Modelled from the spec: `stringifyNode` of `postcss-value-parser` (a dependency, not
under `src/`), without a custom callback: the text of one node. -/
def stringifyNode : Node → Str
  | .mk type value _ _ before after quote unclosed nodes =>
    match type with
    | .word => value
    | .space => value
    | .string => quote ++ value ++ (if unclosed then [] else quote)
    | .comment => "/*".toList ++ value ++ (if unclosed then [] else "*/".toList)
    | .div => before ++ value ++ after
    | .function =>
      value ++ "(".toList ++ before ++ stringify nodes ++ after ++
        (if unclosed then [] else ")".toList)
    | .unicodeRange => value
/-- Modelled from the spec: `stringify` of `postcss-value-parser` (`parsedValue.toString()`),
the re-serialization of the Value Parser: the texts of the nodes, joined. -/
def stringify : List Node → Str
  | [] => []
  | n :: ns => stringifyNode n ++ stringify ns
end

/-! ## The rule -/

/-- The table `HUE_FIRST_ARG_FUNCS`. -/
def HUE_FIRST_ARG_FUNCS : List Str := ["hsl".toList, "hsla".toList, "hwb".toList]

/-- The table `HUE_THIRD_ARG_FUNCS`. -/
def HUE_THIRD_ARG_FUNCS : List Str := ["lch".toList, "oklch".toList]

/-- The set `HUE_FUNCS`. -/
def HUE_FUNCS : List Str := HUE_FIRST_ARG_FUNCS ++ HUE_THIRD_ARG_FUNCS

/-- The filter of `findHue`: `type === 'word' || type === 'function'`. -/
def isArg (n : Node) : Bool := n.type == .word || n.type == .function

/-- The function `findHue`.  The node it returns is an object of the tree, which the rule
later mutates; it is returned here together with its position in `node.nodes`. -/
def findHue (node : Node) : Option (Nat × Node) :=
  let args := node.nodes.enum.filter (fun p => isArg p.2)
  let value := toLowerCase node.value
  if HUE_FIRST_ARG_FUNCS.contains value then args[0]?
  else if HUE_THIRD_ARG_FUNCS.contains value then args[2]?
  else none

/-- The message `messages.expected`. -/
def expected (unfixed fixed : Str) : Str :=
  "Expected \"".toList ++ unfixed ++ "\" to be \"".toList ++ fixed ++ "\"".toList

/-- The arguments of one call of `report`: `messageArgs`, `index` and `endIndex`. -/
structure Report where
  messageArgs : Str × Str
  index : Nat
  endIndex : Nat
  deriving DecidableEq, Repr

/-- What the walk of one declaration changes besides the tree: the flag `needsFix` and the
diagnostics reported so far. -/
structure WalkState where
  needsFix : Bool
  reports : List Report
  deriving DecidableEq, Repr

/-- What the callback reads from its surroundings: the predicate `isStandardSyntaxValue`
(a utility that is not under `src/`), the option `primary`, the flag `context.fix` and
`declarationValueIndex(decl)`. -/
structure Config where
  isStandardSyntaxValue : Str → Bool
  primary : Str
  fix : Bool
  valueIndex : Nat

/-- The assignment `hue.value = fixed`, for the hue at position `i` of `node.nodes`. -/
def setHueValue (node : Node) (i : Nat) (fixed : Str) : Node :=
  node.setNodes (node.nodes.modify (Node.setValue fixed) i)

/-- The callback passed to `parsedValue.walk`. -/
def callback (cfg : Config) (node : Node) (st : WalkState) : Except JsError (Node × WalkState) :=
  if node.type ≠ .function then .ok (node, st)
  else if !HUE_FUNCS.contains (toLowerCase node.value) then .ok (node, st)
  else
    match findHue node with
    | none => .ok (node, st)
    | some (i, hue) =>
      let value := hue.value
      if !cfg.isStandardSyntaxValue value then .ok (node, st)
      else if !isDegree value && !isNumber value then .ok (node, st)
      else if cfg.primary = "angle".toList && isDegree value then .ok (node, st)
      else if cfg.primary = "number".toList && isNumber value then .ok (node, st)
      else
        match (if cfg.primary = "angle".toList then .ok (asDegree value) else asNumber value) with
        | .error err => .error err
        | .ok fixed =>
          let unfixed := value
          if cfg.fix then
            .ok (setHueValue node i fixed, { st with needsFix := true })
          else
            .ok (node, { st with reports := st.reports ++
              [{ messageArgs := (unfixed, fixed),
                 index := cfg.valueIndex + hue.sourceIndex,
                 endIndex := cfg.valueIndex + hue.sourceEndIndex }] })

/-- Modelled from the spec: `walk` of `postcss-value-parser` (a dependency, not under
`src/`), the depth-first traversal of the Value Parser, here with the callback of the rule
(`parsedValue.walk(callback)`): for each node of the list in turn, the callback is called on
the node, then the children of a function node are walked, as the callback left them.  An
error thrown by the callback ends the walk. -/
def walkNodes (cfg : Config) : List Node → WalkState → Except JsError (List Node × WalkState)
  | [], st => .ok ([], st)
  | node :: rest, st =>
    match h : callback cfg node st with
    | .error err => .error err
    | .ok (node1, st1) =>
      match (if node1.type = .function then walkNodes cfg node1.nodes st1
             else .ok (node1.nodes, st1)) with
      | .error err => .error err
      | .ok (nodes1, st2) =>
        match walkNodes cfg rest st2 with
        | .error err => .error err
        | .ok (rest1, st3) => .ok (node1.setNodes nodes1 :: rest1, st3)
termination_by nodes => countNodes nodes
decreasing_by
  all_goals simp_wf
  · have hmod : ∀ (f : Str) (l : List Node) (i : Nat),
        countNodes (l.modify (Node.setValue f) i) = countNodes l := by
      intro f l
      induction l with
      | nil => intro i; simp
      | cons a l ih =>
        intro i
        cases i with
        | zero => cases a; simp [countNodes, Node.setValue, Node.count]
        | succ i => rw [List.modify_succ_cons]; simp [countNodes, ih i]
    have hn : ∀ n : Node, countNodes n.nodes < n.count := by
      intro n; cases n; simp [Node.nodes, Node.count]
    have hset : ∀ (i : Nat) (f : Str), countNodes (setHueValue node i f).nodes < node.count := by
      intro i f
      cases node
      simp [setHueValue, Node.setNodes, Node.nodes, Node.count, hmod]
    have hcount : countNodes node1.nodes < node.count := by
      unfold callback at h
      split at h
      · cases h; exact hn _
      split at h
      · cases h; exact hn _
      split at h
      · cases h; exact hn _
      dsimp only at h
      split at h
      · cases h; exact hn _
      split at h
      · cases h; exact hn _
      split at h
      · cases h; exact hn _
      split at h
      · cases h; exact hn _
      split at h
      · cases h
      split at h
      · cases h; exact hset _ _
      · cases h; exact hn _
    simp only [countNodes]
    omega
  · simp only [countNodes]
    have : 0 < node.count := by cases node; simp [Node.count]
    omega

/-! ## Auxiliary definitions used in the statements and proofs -/

/-- The name test of the callback: `HUE_FUNCS.has(node.value.toLowerCase())`. -/
def recognized (node : Node) : Bool := HUE_FUNCS.contains (toLowerCase node.value)

/-- The numeric prefix of a text (`valueParser.unit(value).number`), the text itself when it
is no dimension. -/
def numberPart (value : Str) : Str :=
  match unit value with
  | some dimension => dimension.number
  | none => value

/-- The converted text of a hue: `asDegree` under `angle`, the numeric prefix otherwise. -/
def convertText (primary value : Str) : Str :=
  if primary = "angle".toList then asDegree value else numberPart value

/-- The guards of the callback on the text of the located hue, once all together: standard
syntax, a degree value or a bare number, and not what the policy asks for. -/
def nonConforming (cfg : Config) (value : Str) : Bool :=
  cfg.isStandardSyntaxValue value && (isDegree value || isNumber value) &&
    !(decide (cfg.primary = "angle".toList) && isDegree value) &&
    !(decide (cfg.primary = "number".toList) && isNumber value)

/-- The hue the callback acts on at a node, with its position among the children, and
nothing when the callback returns early. -/
def hueChange (cfg : Config) (node : Node) : Option (Nat × Node) :=
  if node.type = .function ∧ recognized node = true then
    match findHue node with
    | some (i, hue) => if nonConforming cfg hue.value = true then some (i, hue) else none
    | none => none
  else none

/-- The diagnostic for a hue the callback acts on. -/
def hueReport (cfg : Config) (hue : Node) : Report :=
  { messageArgs := (hue.value, convertText cfg.primary hue.value),
    index := cfg.valueIndex + hue.sourceIndex,
    endIndex := cfg.valueIndex + hue.sourceEndIndex }

/-- The hue slot of a lower-cased function name as the specification gives it: the first
positional argument for `hsl`, `hsla` and `hwb`, the third for `lch` and `oklch`. -/
def hueSlot (name : Str) : Option Nat :=
  if name = "hsl".toList ∨ name = "hsla".toList ∨ name = "hwb".toList then some 0
  else if name = "lch".toList ∨ name = "oklch".toList then some 2
  else none

/-- The positional argument number `k` (from 0) of a list of children, as the specification
counts them: a child of type `word` or `function` is an argument, every other child
(separator, whitespace, comment, ...) is skipped.  `j` is the position of the head of the list
among the children of the call. -/
def nthArg : Nat → Nat → List Node → Option (Nat × Node)
  | _, _, [] => none
  | k, j, n :: ns =>
    if n.type = .word ∨ n.type = .function then
      match k with
      | 0 => some (j, n)
      | k + 1 => nthArg k (j + 1) ns
    else nthArg k (j + 1) ns

/-- The Hue Locator as the specification words it. -/
def specFindHue (node : Node) : Option (Nat × Node) :=
  match hueSlot (toLowerCase node.value) with
  | some k => nthArg k 0 node.nodes
  | none => none

/-- A node without its children: its type, text, source range and delimiters. -/
def Node.head (n : Node) : Node := n.setNodes []

/-- The node reached from a list of nodes by a path of child positions: `[i]` is the node
at position `i` of the list, `i :: path` is reached by `path` from the children of that
node. -/
def nodeAt : List Node → List Nat → Option Node
  | _, [] => none
  | nodes, i :: path =>
    match nodes[i]? with
    | none => none
    | some n =>
      match path with
      | [] => some n
      | _ :: _ => nodeAt n.nodes path

/-- A node without its text and its children: its type, source range and delimiters. -/
def Node.frame (n : Node) : Node := (n.setValue []).setNodes []

/-- The path leads to the node that `findHue` locates as the hue of a recognized call: its
parent is a function node with a recognized name, and `findHue` returns the child at the
last position of the path. -/
def LocatedHue (nodes : List Node) (path : List Nat) : Prop :=
  ∃ parentPath i parent hue, path = parentPath ++ [i] ∧ nodeAt nodes parentPath = some parent ∧
    parent.type = .function ∧ HUE_FUNCS.contains (toLowerCase parent.value) = true ∧
    findHue parent = some (i, hue)

/-- What the walk may do to the node at a path: the node is still there with the same
frame, and its text has changed only in fix mode and only if it is a located hue. -/
def PathRel (cfg : Config) (l l1 : List Node) (path : List Nat) : Prop :=
  (nodeAt l1 path).map Node.frame = (nodeAt l path).map Node.frame ∧
    ∀ n n1, nodeAt l path = some n → nodeAt l1 path = some n1 → n1.value ≠ n.value →
      cfg.fix = true ∧ LocatedHue l path

/-- The position of the located hue among the children of a node, when the node is a
function with a recognized name and `findHue` returns a hue. -/
def hueIndex (node : Node) : Option Nat :=
  if node.type = .function ∧ recognized node = true then (findHue node).map Prod.fst else none

mutual
/-- The node with the text of every located hue below it blanked. -/
def blankHuesNode : Node → Node
  | .mk t v i e b a q u ns =>
    .mk t v i e b a q u (blankHuesList (hueIndex (.mk t v i e b a q u ns)) 0 ns)
/-- The list of nodes with the text of every located hue below them blanked, and also the
text of the node at position `hue` (counted from `j` for the head of the list). -/
def blankHuesList (hue : Option Nat) (j : Nat) : List Node → List Node
  | [] => []
  | n :: ns =>
    (if hue = some j then (blankHuesNode n).setValue [] else blankHuesNode n) ::
      blankHuesList hue (j + 1) ns
end

/-- The tree with the text of every located hue of a recognized call replaced by the empty
text; every other text, and every type, source range and delimiter, is kept. -/
def blankHues (nodes : List Node) : List Node := blankHuesList none 0 nodes

/-- The node as the callback leaves it. -/
def stepNode (cfg : Config) (node : Node) : Node :=
  match hueChange cfg node with
  | none => node
  | some (i, hue) =>
    if cfg.fix = true then setHueValue node i (convertText cfg.primary hue.value) else node

/-- The state of the walk as the callback leaves it. -/
def stepState (cfg : Config) (node : Node) (st : WalkState) : WalkState :=
  match hueChange cfg node with
  | none => st
  | some (_, hue) =>
    if cfg.fix = true then { st with needsFix := true }
    else { st with reports := st.reports ++ [hueReport cfg hue] }

/-! ## Example trees -/

/-- A word node with the given text, starting at offset `start`. -/
def wordNode (value : Str) (start : Nat) : Node :=
  .mk .word value start (start + value.length) [] [] [] false []

/-- A space node holding one blank, at offset `start`. -/
def spaceNode (start : Nat) : Node :=
  .mk .space " ".toList start (start + 1) [] [] [] false []

/-- The tree the parser builds for `name(a b c)`: a function node with three words separated
by single blanks. -/
def call3 (name a b c : Str) : Node :=
  .mk .function name 0 (name.length + a.length + b.length + c.length + 4) [] [] [] false
    [wordNode a (name.length + 1),
     spaceNode (name.length + 1 + a.length),
     wordNode b (name.length + a.length + 2),
     spaceNode (name.length + a.length + b.length + 2),
     wordNode c (name.length + a.length + b.length + 3)]

/-- A configuration that takes every text for standard syntax. -/
def plainConfig (primary : Str) (fix : Bool) : Config :=
  { isStandardSyntaxValue := fun _ => true, primary := primary, fix := fix, valueIndex := 7 }

/-- A configuration whose syntax classifier rejects the texts that start with `$`, as
`isStandardSyntaxValue` does for SCSS variables, and takes every other text. -/
def scssConfig (primary : Str) (fix : Bool) : Config :=
  { isStandardSyntaxValue := fun v => !(v.head? == some '$'),
    primary := primary, fix := fix, valueIndex := 7 }

/-- The tree the parser builds for `name()`. -/
def call0 (name : Str) : Node :=
  .mk .function name 0 (name.length + 2) [] [] [] false []

/-- The tree the parser builds for `name(a b)`. -/
def call2 (name a b : Str) : Node :=
  .mk .function name 0 (name.length + a.length + b.length + 3) [] [] [] false
    [wordNode a (name.length + 1),
     spaceNode (name.length + 1 + a.length),
     wordNode b (name.length + a.length + 2)]

/-! ## The declaration level -/

/-- The test `\w` of a regular expression: a letter `A`..`Z` or `a`..`z`, a digit or `_`. -/
def isWordChar (c : Char) : Bool :=
  decide ((65 ≤ c.toNat ∧ c.toNat ≤ 90) ∨ (97 ≤ c.toNat ∧ c.toNat ≤ 122) ∨
    (48 ≤ c.toNat ∧ c.toNat ≤ 57) ∨ c.toNat = 95)

/-- The case folding of a regular expression with the flag `i` and without the flag `u`, as
far as the pattern of the rule goes: `a`..`z` go to `A`..`Z`.  Every other character is left
alone: JavaScript folds no character outside ASCII to an ASCII letter, so a character of the
text matches a letter of the pattern exactly when it is that letter in either case. -/
def canonicalize (c : Char) : Char :=
  if 97 ≤ c.toNat ∧ c.toNat ≤ 122 then Char.ofNat (c.toNat - 32) else c

/-- The text that is left when `pattern` matches, ignoring case, at the start of a text; and
nothing when it does not match there. -/
def matchIgnoreCase : Str → Str → Option Str
  | [], s => some s
  | _ :: _, [] => none
  | p :: pattern, c :: s =>
    if canonicalize p = canonicalize c then matchIgnoreCase pattern s else none

/-- The assertion `\b` between two neighbouring positions: exactly one of the characters
before and after is a word character; the outside of the text counts as no word
character. -/
def wordBoundary (before after : Option Char) : Bool :=
  (match before with
    | some c => isWordChar c
    | none => false) !=
  (match after with
    | some c => isWordChar c
    | none => false)

/-- Whether `(?:hsl|hsla|hwb|lch|oklch)\(` matches, ignoring case, at the start of a text:
one of the names of `HUE_FUNCS`, then an opening parenthesis. -/
def matchesCallAt (s : Str) : Bool :=
  HUE_FUNCS.any (fun name =>
    match matchIgnoreCase name s with
    | some rest => rest.head? == some '('
    | none => false)

/-- Whether the regular expression matches at some position of the text `s`, which comes
after the character `before`. -/
def testFrom (before : Option Char) : Str → Bool
  | [] => false
  | c :: s => (wordBoundary before (some c) && matchesCallAt (c :: s)) || testFrom (some c) s

/-- The test `HAS_HUE_COLOR_FUNC.test(value)`, for the regular expression
`/\b(?:hsl|hsla|hwb|lch|oklch)\(/i`. -/
def HAS_HUE_COLOR_FUNC (value : Str) : Bool := testFrom none value

/-- What the rule uses of its host and is not under `src/`, for declarations of a type `D`:
the field `decl.value`, the utilities `getDeclarationValue`, `setDeclarationValue`,
`declarationValueIndex`, `isStandardSyntaxValue` and `validateOptions` (called with the
option and the list of possible values), and the parser `valueParser`. -/
structure Host (D : Type) where
  declValue : D → Str
  getDeclarationValue : D → Str
  setDeclarationValue : D → Str → D
  declarationValueIndex : D → Nat
  isStandardSyntaxValue : Str → Bool
  validateOptions : Str → List Str → Bool
  valueParser : Str → List Node

/-- The configuration of the walk of one declaration. -/
def Host.config {D : Type} (host : Host D) (primary : Str) (fix : Bool) (decl : D) : Config :=
  { isStandardSyntaxValue := host.isStandardSyntaxValue, primary := primary, fix := fix,
    valueIndex := host.declarationValueIndex decl }

/-- What the callback of `root.walkDecls` did for one declaration: the declaration as it is
left, the texts handed to `valueParser`, the texts handed to `setDeclarationValue`, and the
diagnostics reported. -/
structure DeclOutcome (D : Type) where
  decl : D
  parsed : List Str
  setCalls : List Str
  reports : List Report

/-- The callback passed to `root.walkDecls`. -/
def visitDecl {D : Type} (host : Host D) (primary : Str) (fix : Bool) (decl : D) :
    Except JsError (DeclOutcome D) :=
  if !HAS_HUE_COLOR_FUNC (host.declValue decl) then
    .ok { decl := decl, parsed := [], setCalls := [], reports := [] }
  else
    let text := host.getDeclarationValue decl
    let parsedValue := host.valueParser text
    match walkNodes (host.config primary fix decl) parsedValue { needsFix := false, reports := [] } with
    | .error err => .error err
    | .ok (nodes, st) =>
      if st.needsFix then
        .ok { decl := host.setDeclarationValue decl (stringify nodes), parsed := [text],
              setCalls := [stringify nodes], reports := st.reports }
      else
        .ok { decl := decl, parsed := [text], setCalls := [], reports := st.reports }

/-- What the rule did for a stylesheet: the declarations as they are left, and, over all
declarations in turn, the texts handed to `valueParser`, the texts handed to
`setDeclarationValue` and the diagnostics reported. -/
structure RuleOutcome (D : Type) where
  root : List D
  parsed : List Str
  setCalls : List Str
  reports : List Report

/-- The call `root.walkDecls(callback)`, the stylesheet being the list of its
declarations. -/
def walkDecls {D : Type} (host : Host D) (primary : Str) (fix : Bool) :
    List D → Except JsError (RuleOutcome D)
  | [] => .ok { root := [], parsed := [], setCalls := [], reports := [] }
  | decl :: rest =>
    match visitDecl host primary fix decl with
    | .error err => .error err
    | .ok out =>
      match walkDecls host primary fix rest with
      | .error err => .error err
      | .ok more =>
        .ok { root := out.decl :: more.root, parsed := out.parsed ++ more.parsed,
              setCalls := out.setCalls ++ more.setCalls, reports := out.reports ++ more.reports }

/-- The function `rule(primary, _, context)(root, result)`. -/
def rule {D : Type} (host : Host D) (primary : Str) (fix : Bool) (root : List D) :
    Except JsError (RuleOutcome D) :=
  let validOptions := host.validateOptions primary ["angle".toList, "number".toList]
  if !validOptions then .ok { root := root, parsed := [], setCalls := [], reports := [] }
  else walkDecls host primary fix root

/-- Modelled from the spec: `validateOptions` (a utility that is not under `src/`) for one
required option with a list of possible values: the option is valid when it is one of
them. -/
def specValidateOptions (actual : Str) (possible : List Str) : Bool := possible.contains actual

/-- The message of the rule applied to the arguments of a diagnostic:
`expected(...messageArgs)`, with `expected` as the rule defines it.  What `ruleMessages` and
`report`, which are not under `src/`, make of it is not modelled. -/
def Report.message (r : Report) : Str := expected r.messageArgs.1 r.messageArgs.2

/-- The method `String.prototype.slice(start, end)` for offsets inside the text. -/
def slice (s : Str) (start stop : Nat) : Str := (s.drop start).take (stop - start)

mutual
/-- The nodes the walk visits from a node, in the order of the walk: the node, then, for a
function node, what it visits from the children. -/
def visitedNode : Node → List Node
  | .mk t v i e b a q u ns =>
    .mk t v i e b a q u ns :: (if t = .function then visitedList ns else [])
/-- The nodes the walk visits from a list of nodes, in the order of the walk. -/
def visitedList : List Node → List Node
  | [] => []
  | n :: ns => visitedNode n ++ visitedList ns
end

/-- The hues of the calls the callback acts on, in the order of the walk. -/
def huesToChange (cfg : Config) (nodes : List Node) : List Node :=
  (visitedList nodes).filterMap (fun n => (hueChange cfg n).map Prod.snd)

/-- A declaration with its value and the offset of the value in the declaration. -/
structure SimpleDecl where
  value : Str
  valueIndex : Nat
  deriving DecidableEq, Repr

/-- Modelled from the spec: a host whose declarations expose a raw value string and the
offset of the value (`getDeclarationValue`, `setDeclarationValue` and
`declarationValueIndex` are not under `src/`), with the given parser, a syntax classifier
that takes every text, and `specValidateOptions`. -/
def simpleHost (parser : Str → List Node) : Host SimpleDecl :=
  { declValue := fun d => d.value,
    getDeclarationValue := fun d => d.value,
    setDeclarationValue := fun d v => { d with value := v },
    declarationValueIndex := fun d => d.valueIndex,
    isStandardSyntaxValue := fun _ => true,
    validateOptions := specValidateOptions,
    valueParser := parser }

/-- A parser that knows one text: it returns the given tree for it and nothing for any other
text. -/
def parserOf (text : Str) (tree : List Node) : Str → List Node :=
  fun v => if v = text then tree else []

/-- The node the walk reaches from a list of nodes by a path of child positions: as
`nodeAt`, but only the children of function nodes are entered, as in the walk. -/
def walkedAt : List Node → List Nat → Option Node
  | _, [] => none
  | nodes, i :: path =>
    match nodes[i]? with
    | none => none
    | some n =>
      match path with
      | [] => some n
      | _ :: _ => if n.type = .function then walkedAt n.nodes path else none

/-- The tree the parser builds for `name(a, b)` with two nested calls `a` and `b` as
arguments, separated by a comma and a blank. -/
def callOfCalls (name : Str) (a b : Node) : Node :=
  .mk .function name 0 0 [] [] [] false
    [a, .mk .div ",".toList 0 0 [] " ".toList [] false [], b]

/-! ## Lemmas about `unit` -/

theorem inert_digit {c : Char} (h : inert c = true) : isDigit c = false := by
  simp [inert] at h; exact h.1.1.1

theorem inert_sign {c : Char} (h : inert c = true) : isSign c = false := by
  simp [inert] at h; exact h.1.1.2

theorem inert_dot {c : Char} (h : inert c = true) : isDot c = false := by
  simp [inert] at h; exact h.1.2

theorem inert_exp {c : Char} (h : inert c = true) : isExp c = false := by
  simp [inert] at h; exact h.2

theorem inertHead_cons {c : Char} {w : Str} (h : inertHead (c :: w)) : inert c = true :=
  h c (by simp)

theorem skipDigits_append (s w : Str) (hw : inertHead w) :
    skipDigits (s ++ w) = skipDigits s ++ w := by
  induction s with
  | nil =>
    cases w with
    | nil => rfl
    | cons d w => simp [skipDigits, inert_digit (inertHead_cons hw)]
  | cons a s ih =>
    by_cases ha : isDigit a = true
    · simpa [skipDigits, ha] using ih
    · simp [skipDigits, ha]

theorem skipSign_append (s w : Str) (hw : inertHead w) :
    skipSign (s ++ w) = skipSign s ++ w := by
  cases s with
  | nil =>
    cases w with
    | nil => rfl
    | cons d w => simp [skipSign, inert_sign (inertHead_cons hw)]
  | cons a s => by_cases ha : isSign a = true <;> simp [skipSign, ha]

theorem skipFraction_append (s w : Str) (hw : inertHead w) :
    skipFraction (s ++ w) = skipFraction s ++ w := by
  match s, w with
  | [], [] => rfl
  | [], [d] => rfl
  | [], d :: e :: w => simp [skipFraction, inert_dot (inertHead_cons hw)]
  | [a], [] => rfl
  | [a], d :: w => simp [skipFraction, inert_digit (inertHead_cons hw)]
  | a :: b :: s, w =>
    by_cases h : (isDot a && isDigit b) = true
    · simp only [skipFraction, List.cons_append, h, if_true]
      exact skipDigits_append s w hw
    · simp only [skipFraction, List.cons_append, h]
      rfl

theorem skipExponent_append (s w : Str) (hw : inertHead w) :
    skipExponent (s ++ w) = skipExponent s ++ w := by
  match s, w with
  | [], [] => rfl
  | [], [d] => rfl
  | [], d :: e :: w => simp [skipExponent, inert_exp (inertHead_cons hw)]
  | [a], [] => rfl
  | [a], d :: w =>
    simp [skipExponent, inert_digit (inertHead_cons hw), inert_sign (inertHead_cons hw)]
  | [a, b], [] => simp
  | [a, b], d :: w =>
    by_cases h1 : isExp a = true <;> by_cases h2 : isDigit b = true <;>
      by_cases h3 : isSign b = true <;>
      simp [skipExponent, h1, h2, h3, inert_digit (inertHead_cons hw), skipDigits]
  | a :: b :: c :: s, w =>
    by_cases h1 : isExp a = true <;> by_cases h2 : isDigit b = true <;>
      by_cases h3 : isSign b = true <;> by_cases h4 : isDigit c = true <;>
      simp [skipExponent, h1, h2, h3, h4, skipDigits_append _ w hw] <;>
      (rw [← List.cons_append, skipDigits_append _ w hw])

theorem unitSuffix_append (v w : Str) (hw : inertHead w) :
    unitSuffix (v ++ w) = unitSuffix v ++ w := by
  simp only [unitSuffix, skipSign_append v w hw, skipDigits_append _ w hw,
    skipFraction_append _ w hw, skipExponent_append _ w hw]

theorem likeNumber_append (v w : Str) (hw : inertHead w) :
    likeNumber (v ++ w) = likeNumber v := by
  match v, w with
  | [], [] => rfl
  | [], d :: w =>
    simp [likeNumber, inert_sign (inertHead_cons hw), inert_dot (inertHead_cons hw),
      inert_digit (inertHead_cons hw)]
  | [a], [] => rfl
  | [a], d :: w =>
    by_cases h1 : isSign a = true <;> by_cases h2 : isDot a = true <;> cases w <;>
      simp [likeNumber, h1, h2, inert_digit (inertHead_cons hw), inert_dot (inertHead_cons hw)]
  | [a, b], [] => simp
  | [a, b], d :: w =>
    by_cases h1 : isSign a = true <;> by_cases h2 : isDot a = true <;>
      by_cases h3 : isDigit b = true <;>
      simp [likeNumber, h1, h2, h3, inert_digit (inertHead_cons hw)]
  | a :: b :: c :: v, w => simp [likeNumber]

theorem skipSign_suffix (s : Str) : skipSign s <:+ s := by
  cases s with
  | nil => exact List.suffix_refl _
  | cons a s =>
    by_cases ha : isSign a = true
    · simp [skipSign, ha]
    · simp [skipSign, ha]

theorem skipDigits_suffix (s : Str) : skipDigits s <:+ s :=
  List.dropWhile_suffix _

theorem skipFraction_suffix (s : Str) : skipFraction s <:+ s := by
  match s with
  | [] => exact List.suffix_refl _
  | [a] => exact List.suffix_refl _
  | a :: b :: s =>
    by_cases h : (isDot a && isDigit b) = true
    · simp only [skipFraction, h, if_true]
      exact (skipDigits_suffix s).trans
        ((List.suffix_cons b s).trans (List.suffix_cons a (b :: s)))
    · simp only [skipFraction, h]
      exact List.suffix_refl _

theorem skipExponent_suffix (s : Str) : skipExponent s <:+ s := by
  have h2 : ∀ (a b : Char) (t : Str), skipDigits t <:+ a :: b :: t := fun a b t =>
    (skipDigits_suffix t).trans ((List.suffix_cons b t).trans (List.suffix_cons a (b :: t)))
  match s with
  | [] => exact List.suffix_refl _
  | [a] => exact List.suffix_refl _
  | [a, b] =>
    simp only [skipExponent]
    split
    · split
      · exact h2 a b []
      · split <;> exact List.suffix_refl _
    · exact List.suffix_refl _
  | a :: b :: c :: s =>
    simp only [skipExponent]
    split
    · split
      · exact h2 a b (c :: s)
      · split
        · split
          · exact (h2 b c s).trans (List.suffix_cons a _)
          · exact List.suffix_refl _
        · exact List.suffix_refl _
    · exact List.suffix_refl _

theorem unitSuffix_suffix (v : Str) : unitSuffix v <:+ v :=
  (skipExponent_suffix _).trans ((skipFraction_suffix _).trans
    ((skipDigits_suffix _).trans (skipSign_suffix v)))

theorem take_sub_length {t r v : Str} (h : t ++ r = v) :
    v.take (v.length - r.length) = t := by
  subst h
  simp

/-- The two parts returned by `unit` are a split of the text. -/
theorem unit_split {v : Str} {d : Dimension} (h : unit v = some d) :
    d.number ++ d.unit = v := by
  unfold unit at h
  split at h
  · cases h
  · cases h
    obtain ⟨t, ht⟩ := unitSuffix_suffix v
    simp only [take_sub_length ht]
    exact ht

/-- Appending a text that starts with an inert character only lengthens the unit. -/
theorem unit_append (v w : Str) (hw : inertHead w) :
    unit (v ++ w) = (unit v).map (fun d => { number := d.number, unit := d.unit ++ w }) := by
  cases v with
  | nil =>
    have hl : likeNumber w = false := by
      have := likeNumber_append [] w hw
      simpa [likeNumber] using this
    cases w <;> simp [unit, hl]
  | cons a v =>
    have hl := likeNumber_append (a :: v) w hw
    have hs := unitSuffix_append (a :: v) w hw
    obtain ⟨t, ht⟩ := unitSuffix_suffix (a :: v)
    have e3 : t ++ (unitSuffix (a :: v) ++ w) = a :: v ++ w := by
      rw [← List.append_assoc, ht]
    have k1 := take_sub_length e3
    have k2 := take_sub_length ht
    by_cases hn : likeNumber (a :: v) = true
    · simp only [unit, hl, hs, hn, k1, k2]
      simp
    · rw [Bool.not_eq_true] at hn
      rw [hn] at hl
      simp only [unit, hl, hn]
      simp

/-! ## Lemmas about `isDegree`, `isNumber` and the two conversions -/

theorem lowerChar_eq_d {c : Char} (h : lowerChar c = 'd') : c.toNat = 100 ∨ c.toNat = 68 := by
  unfold lowerChar at h
  split at h
  · next hc =>
    obtain ⟨h1, h2⟩ := hc
    have hc : c = Char.ofNat c.toNat := (Char.ofNat_toNat c).symm
    generalize c.toNat = n at h h1 h2 hc
    interval_cases n <;> first | (right; rfl) | (exact absurd h (by decide))
  · split at h
    · exact absurd h (by decide)
    · left; rw [h]; rfl

theorem inertHead_of_lower_deg {u : Str} (h : toLowerCase u = "deg".toList) : inertHead u := by
  intro c hc
  cases u with
  | nil => simp at hc
  | cons a u =>
    simp only [List.head?_cons, Option.mem_def, Option.some.injEq] at hc
    subst hc
    have ha : lowerChar a = 'd' := by
      simp only [toLowerCase, List.map_cons] at h
      exact (List.cons.inj h).1
    have := lowerChar_eq_d ha
    simp only [inert, isDigit, isSign, isDot, isExp]
    rcases this with h | h <;> simp [h]

theorem isNumber_iff (v : Str) : isNumber v = true ↔ unit v = some { number := v, unit := [] } := by
  unfold isNumber
  constructor
  · intro h
    split at h
    · next d hd =>
      have hu : d.unit = [] := by simpa using h
      have hs := unit_split hd
      rw [hu, List.append_nil] at hs
      rw [hd]
      cases d
      simp_all
    · cases h
  · intro h
    rw [h]
    rfl

theorem isDegree_iff (v : Str) :
    isDegree v = true ↔
      ∃ n u, unit v = some { number := n, unit := u } ∧ toLowerCase u = "deg".toList := by
  unfold isDegree
  constructor
  · intro h
    split at h
    · next d hd => exact ⟨d.number, d.unit, hd, by simpa using h⟩
    · cases h
  · rintro ⟨n, u, h, hu⟩
    rw [h]
    simpa using hu

theorem isDegree_asDegree {v : Str} (h : isNumber v = true) : isDegree (asDegree v) = true := by
  rw [isNumber_iff] at h
  rw [isDegree_iff]
  refine ⟨v, "deg".toList, ?_, by decide⟩
  have hw : inertHead "deg".toList := inertHead_of_lower_deg (by decide)
  rw [asDegree, unit_append v _ hw, h]
  rfl

theorem isNumber_asNumber {v : Str} (h : isDegree v = true) :
    ∃ n u, v = n ++ u ∧ toLowerCase u = "deg".toList ∧ asNumber v = .ok n ∧
      isNumber n = true := by
  rw [isDegree_iff] at h
  obtain ⟨n, u, hd, hu⟩ := h
  have hs : n ++ u = v := unit_split hd
  refine ⟨n, u, hs.symm, hu, by simp [asNumber, hd], ?_⟩
  have hw := inertHead_of_lower_deg hu
  have ha := unit_append n u hw
  rw [hs, hd] at ha
  rw [isNumber_iff]
  cases hn : unit n with
  | none => rw [hn] at ha; cases ha
  | some d =>
    rw [hn] at ha
    simp only [Option.map_some', Option.some.injEq, Dimension.mk.injEq] at ha
    obtain ⟨h1, h2⟩ := ha
    have h3 : d.unit = [] := by
      have := congrArg List.length h2
      simp only [List.length_append] at this
      exact List.length_eq_zero.mp (by omega)
    obtain ⟨dn, du⟩ := d
    simp only at h1 h3
    rw [h1, h3]

theorem isDegree_isNumber_exclusive {v : Str} (h1 : isDegree v = true) (h2 : isNumber v = true) :
    False := by
  rw [isNumber_iff] at h2
  rw [isDegree_iff] at h1
  obtain ⟨n, u, hd, hu⟩ := h1
  rw [h2] at hd
  simp only [Option.some.injEq, Dimension.mk.injEq] at hd
  rw [← hd.2] at hu
  exact absurd hu (by decide)

/-! ## The callback -/

theorem asNumber_of_eligible {v : Str} (h : (isDegree v || isNumber v) = true) :
    asNumber v = .ok (numberPart v) := by
  unfold asNumber numberPart
  cases hu : unit v with
  | some d => rfl
  | none => simp [isDegree, isNumber, hu] at h

theorem hueChange_eq_some_iff (cfg : Config) (node : Node) (i : Nat) (hue : Node) :
    hueChange cfg node = some (i, hue) ↔
      node.type = .function ∧ recognized node = true ∧ findHue node = some (i, hue) ∧
        nonConforming cfg hue.value = true := by
  unfold hueChange
  constructor
  · intro h
    split at h
    · next hc =>
      split at h
      · next j hue2 hf =>
        split at h
        · next hn =>
          cases h
          exact ⟨hc.1, hc.2, hf, hn⟩
        · cases h
      · cases h
    · cases h
  · rintro ⟨h1, h2, h3, h4⟩
    simp [h1, h2, h3, h4]

theorem hueChange_eq_none (cfg : Config) (node : Node)
    (h : ∀ i hue, findHue node = some (i, hue) →
      ¬(node.type = .function ∧ recognized node = true ∧ nonConforming cfg hue.value = true)) :
    hueChange cfg node = none := by
  cases hc : hueChange cfg node with
  | none => rfl
  | some p =>
    obtain ⟨i, hue⟩ := p
    rw [hueChange_eq_some_iff] at hc
    exact absurd ⟨hc.1, hc.2.1, hc.2.2.2⟩ (h i hue hc.2.2.1)

/-- What the callback does, in one equation: nothing unless `hueChange` finds a hue to act
on; then the hue text is replaced (fix mode) or a diagnostic is added (check mode). -/
theorem callback_eq (cfg : Config) (node : Node) (st : WalkState) :
    callback cfg node st = .ok
      (match hueChange cfg node with
       | none => (node, st)
       | some (i, hue) =>
         if cfg.fix = true then
           (setHueValue node i (convertText cfg.primary hue.value), { st with needsFix := true })
         else (node, { st with reports := st.reports ++ [hueReport cfg hue] })) := by
  unfold callback
  split
  · next ht =>
    rw [hueChange_eq_none cfg node (fun i hue _ hc => ht hc.1)]
  split
  · next ht hr =>
    rw [hueChange_eq_none cfg node (fun i hue _ hc => by
      have : recognized node = false := by simpa [recognized] using hr
      rw [this] at hc
      exact absurd hc.2.1 (by decide))]
  split
  · next ht hr p hf =>
    rw [hueChange_eq_none cfg node (fun i hue hf2 _ => by rw [hf] at hf2; cases hf2)]
  next ht hr p i hue hf =>
  have hnone : nonConforming cfg hue.value = false → hueChange cfg node = none := fun hn =>
    hueChange_eq_none cfg node (fun i2 hue2 hf2 hc => by
      rw [hf] at hf2
      cases hf2
      rw [hn] at hc
      exact absurd hc.2.2 (by decide))
  dsimp only
  split
  · next h1 =>
    rw [hnone (by
      have : cfg.isStandardSyntaxValue hue.value = false := by simpa using h1
      simp [nonConforming, this])]
  split
  · next h1 h2 =>
    rw [hnone (by
      have h2a : (isDegree hue.value || isNumber hue.value) = false := by
        cases hd : isDegree hue.value <;> cases hn : isNumber hue.value <;> simp_all
      simp only [nonConforming, h2a, Bool.and_false, Bool.false_and])]
  split
  · next h1 h2 h3 =>
    rw [hnone (by simp only [nonConforming, h3, Bool.not_true, Bool.and_false, Bool.false_and])]
  split
  · next h1 h2 h3 h4 =>
    rw [hnone (by simp only [nonConforming, h4, Bool.not_true, Bool.and_false])]
  next h1 h2 h3 h4 =>
  have e1 : cfg.isStandardSyntaxValue hue.value = true := by simpa using h1
  have e2 : (isDegree hue.value || isNumber hue.value) = true := by
    cases hd : isDegree hue.value <;> cases hn : isNumber hue.value <;> simp_all
  have e3 : (decide (cfg.primary = "angle".toList) && isDegree hue.value) = false := by
    simpa using h3
  have e4 : (decide (cfg.primary = "number".toList) && isNumber hue.value) = false := by
    simpa using h4
  have hnc : nonConforming cfg hue.value = true := by
    simp only [nonConforming, e1, e2, e3, e4, Bool.not_false, Bool.and_self]
  have hsome : hueChange cfg node = some (i, hue) := by
    rw [hueChange_eq_some_iff]
    refine ⟨by simpa using ht, ?_, hf, hnc⟩
    simpa [recognized] using hr
  rw [hsome]
  by_cases hp : cfg.primary = "angle".toList
  · simp only [hp, if_true, convertText, hueReport]
    split <;> rfl
  · simp only [hp, if_false, convertText, hueReport, asNumber_of_eligible e2]
    split <;> rfl

/-! ## The walk -/

theorem walkNodes_nil (cfg : Config) (st : WalkState) : walkNodes cfg [] st = .ok ([], st) := by
  rw [walkNodes]

/-- One step of the walk, with the callback's result `(node1, st1)` at hand. -/
theorem walkNodes_cons (cfg : Config) (node : Node) (rest : List Node) (st : WalkState)
    (node1 : Node) (st1 : WalkState) (h : callback cfg node st = .ok (node1, st1)) :
    walkNodes cfg (node :: rest) st =
      match (if node1.type = .function then walkNodes cfg node1.nodes st1
             else .ok (node1.nodes, st1)) with
      | .error err => .error err
      | .ok (nodes1, st2) =>
        match walkNodes cfg rest st2 with
        | .error err => .error err
        | .ok (rest1, st3) => .ok (node1.setNodes nodes1 :: rest1, st3) := by
  rw [walkNodes]
  split
  · next err h2 => rw [h] at h2; cases h2
  · next n1 s1 h2 =>
    rw [h] at h2
    cases h2
    rfl

theorem callback_eq_step (cfg : Config) (node : Node) (st : WalkState) :
    callback cfg node st = .ok (stepNode cfg node, stepState cfg node st) := by
  rw [callback_eq, stepNode, stepState]
  cases hueChange cfg node with
  | none => rfl
  | some p =>
    obtain ⟨i, hue⟩ := p
    by_cases hf : cfg.fix = true <;> simp [hf]

@[simp] theorem setValue_type (v : Str) (n : Node) : (n.setValue v).type = n.type := by
  cases n; rfl

@[simp] theorem setValue_value (v : Str) (n : Node) : (n.setValue v).value = v := by
  cases n; rfl

@[simp] theorem setValue_nodes (v : Str) (n : Node) : (n.setValue v).nodes = n.nodes := by
  cases n; rfl

@[simp] theorem setValue_sourceIndex (v : Str) (n : Node) :
    (n.setValue v).sourceIndex = n.sourceIndex := by
  cases n; rfl

@[simp] theorem setValue_sourceEndIndex (v : Str) (n : Node) :
    (n.setValue v).sourceEndIndex = n.sourceEndIndex := by
  cases n; rfl

@[simp] theorem setNodes_type (ns : List Node) (n : Node) : (n.setNodes ns).type = n.type := by
  cases n; rfl

@[simp] theorem setNodes_value (ns : List Node) (n : Node) : (n.setNodes ns).value = n.value := by
  cases n; rfl

@[simp] theorem setNodes_nodes (ns : List Node) (n : Node) : (n.setNodes ns).nodes = ns := by
  cases n; rfl

@[simp] theorem setNodes_self (n : Node) : n.setNodes n.nodes = n := by
  cases n; rfl

@[simp] theorem setNodes_setNodes (a b : List Node) (n : Node) :
    (n.setNodes a).setNodes b = n.setNodes b := by
  cases n; rfl

@[simp] theorem setHueValue_type (n : Node) (i : Nat) (f : Str) :
    (setHueValue n i f).type = n.type := by
  simp [setHueValue]

@[simp] theorem setHueValue_value (n : Node) (i : Nat) (f : Str) :
    (setHueValue n i f).value = n.value := by
  simp [setHueValue]

@[simp] theorem setHueValue_nodes (n : Node) (i : Nat) (f : Str) :
    (setHueValue n i f).nodes = n.nodes.modify (Node.setValue f) i := by
  simp [setHueValue]

@[simp] theorem stepNode_type (cfg : Config) (node : Node) :
    (stepNode cfg node).type = node.type := by
  unfold stepNode
  split
  · rfl
  · split <;> simp

@[simp] theorem stepNode_value (cfg : Config) (node : Node) :
    (stepNode cfg node).value = node.value := by
  unfold stepNode
  split
  · rfl
  · split <;> simp

theorem count_setValue (f : Str) (n : Node) : (n.setValue f).count = n.count := by
  cases n; simp [Node.setValue, Node.count]

theorem countNodes_modify (f : Str) (l : List Node) (i : Nat) :
    countNodes (l.modify (Node.setValue f) i) = countNodes l := by
  induction l generalizing i with
  | nil => simp
  | cons a l ih =>
    cases i with
    | zero => simp [countNodes, count_setValue]
    | succ i => rw [List.modify_succ_cons]; simp [countNodes, ih i]

theorem count_eq (n : Node) : n.count = 1 + countNodes n.nodes := by
  cases n; simp [Node.count, Node.nodes]

theorem countNodes_stepNode (cfg : Config) (node : Node) :
    countNodes (stepNode cfg node).nodes = countNodes node.nodes := by
  unfold stepNode
  split
  · rfl
  · split
    · simp [countNodes_modify]
    · rfl

/-- The walk always returns, and what it returns can be analysed node by node: a property
`P` of (input list, input state, output list, output state) holds for every walk as soon as
it holds for the empty list and is passed on by one step of the walk. -/
theorem walkNodes_rel (cfg : Config)
    (P : List Node → WalkState → List Node → WalkState → Prop)
    (hnil : ∀ st, P [] st [] st)
    (hcons : ∀ node rest st kids st2 rest1 st3,
      (node.type = .function →
        walkNodes cfg (stepNode cfg node).nodes (stepState cfg node st) = .ok (kids, st2) ∧
        P (stepNode cfg node).nodes (stepState cfg node st) kids st2) →
      (node.type ≠ .function → kids = (stepNode cfg node).nodes ∧ st2 = stepState cfg node st) →
      walkNodes cfg rest st2 = .ok (rest1, st3) → P rest st2 rest1 st3 →
      P (node :: rest) st ((stepNode cfg node).setNodes kids :: rest1) st3) :
    ∀ nodes st, ∃ nodes1 st1, walkNodes cfg nodes st = .ok (nodes1, st1) ∧ P nodes st nodes1 st1 := by
  suffices hk : ∀ k nodes, countNodes nodes = k → ∀ st, ∃ nodes1 st1,
      walkNodes cfg nodes st = .ok (nodes1, st1) ∧ P nodes st nodes1 st1 from
    fun nodes st => hk _ nodes rfl st
  intro k
  induction k using Nat.strong_induction_on with
  | _ k ih =>
    intro nodes h st
    cases nodes with
    | nil => exact ⟨[], st, walkNodes_nil cfg st, hnil st⟩
    | cons node rest =>
      have hk : countNodes (node :: rest) = 1 + countNodes node.nodes + countNodes rest := by
        simp [countNodes, count_eq]
      rw [walkNodes_cons cfg node rest st _ _ (callback_eq_step cfg node st)]
      by_cases ht : node.type = .function
      · obtain ⟨kids, st2, hw, hp⟩ := ih (countNodes (stepNode cfg node).nodes)
          (by rw [countNodes_stepNode]; omega) (stepNode cfg node).nodes rfl
          (stepState cfg node st)
        obtain ⟨rest1, st3, hw2, hp2⟩ := ih (countNodes rest) (by omega) rest rfl st2
        refine ⟨(stepNode cfg node).setNodes kids :: rest1, st3, ?_, ?_⟩
        · simp only [stepNode_type, ht, if_true, hw, hw2]
        · exact hcons node rest st kids st2 rest1 st3 (fun _ => ⟨hw, hp⟩)
            (fun hne => absurd ht hne) hw2 hp2
      · obtain ⟨rest1, st3, hw2, hp2⟩ := ih (countNodes rest) (by omega) rest rfl
          (stepState cfg node st)
        refine ⟨(stepNode cfg node).setNodes (stepNode cfg node).nodes :: rest1, st3, ?_, ?_⟩
        · simp only [stepNode_type, ht, if_false, hw2]
        · exact hcons node rest st _ _ rest1 st3 (fun h => absurd h ht)
            (fun _ => ⟨rfl, rfl⟩) hw2 hp2

/-! ## The Hue Locator -/

theorem args_getElem? (l : List Node) (k j : Nat) :
    ((l.enumFrom j).filter (fun p => isArg p.2))[k]? = nthArg k j l := by
  induction l generalizing k j with
  | nil => simp [nthArg]
  | cons n ns ih =>
    simp only [List.enumFrom_cons, nthArg]
    by_cases hn : n.type = .word ∨ n.type = .function
    · have ha : isArg n = true := by simpa [isArg] using hn
      rw [List.filter_cons_of_pos (by simpa using ha)]
      simp only [hn, if_true]
      cases k with
      | zero => simp
      | succ k => simpa using ih k (j + 1)
    · have ha : isArg n = false := by simpa [isArg] using hn
      rw [List.filter_cons_of_neg (by simp [ha])]
      simp only [hn, if_false]
      exact ih k (j + 1)

theorem findHue_eq_spec (node : Node) : findHue node = specFindHue node := by
  unfold findHue specFindHue hueSlot
  simp only [HUE_FIRST_ARG_FUNCS, HUE_THIRD_ARG_FUNCS, List.enum]
  by_cases h1 : toLowerCase node.value = "hsl".toList ∨ toLowerCase node.value = "hsla".toList ∨
      toLowerCase node.value = "hwb".toList
  · have : (["hsl".toList, "hsla".toList, "hwb".toList].contains (toLowerCase node.value)) = true := by
      simpa using h1
    simp only [this, if_true, h1]
    exact args_getElem? _ _ _
  · have e1 : (["hsl".toList, "hsla".toList, "hwb".toList].contains (toLowerCase node.value)) = false := by
      simpa using h1
    simp only [e1, h1, if_false, Bool.false_eq_true]
    by_cases h2 : toLowerCase node.value = "lch".toList ∨ toLowerCase node.value = "oklch".toList
    · have : (["lch".toList, "oklch".toList].contains (toLowerCase node.value)) = true := by
        simpa using h2
      simp only [this, if_true, h2]
      exact args_getElem? _ _ _
    · have e2 : (["lch".toList, "oklch".toList].contains (toLowerCase node.value)) = false := by
        simpa using h2
      simp only [e2, h2, if_false, Bool.false_eq_true]

@[simp] theorem head_type (n : Node) : n.head.type = n.type := by
  cases n; rfl

@[simp] theorem head_value (n : Node) : n.head.value = n.value := by
  cases n; rfl

@[simp] theorem head_sourceIndex (n : Node) : n.head.sourceIndex = n.sourceIndex := by
  cases n; rfl

@[simp] theorem head_sourceEndIndex (n : Node) : n.head.sourceEndIndex = n.sourceEndIndex := by
  cases n; rfl

@[simp] theorem head_setNodes (ns : List Node) (n : Node) : (n.setNodes ns).head = n.head := by
  cases n; rfl

theorem head_setValue (f : Str) (n : Node) : (n.setValue f).head = n.head.setValue f := by
  cases n; rfl

theorem type_eq_of_head {a b : Node} (h : a.head = b.head) : a.type = b.type := by
  have := congrArg Node.type h
  simpa using this

theorem value_eq_of_head {a b : Node} (h : a.head = b.head) : a.value = b.value := by
  have := congrArg Node.value h
  simpa using this

theorem nthArg_head (l l2 : List Node) (h : l2.map Node.head = l.map Node.head) (k j : Nat) :
    (nthArg k j l2).map (fun p => (p.1, p.2.head)) =
      (nthArg k j l).map (fun p => (p.1, p.2.head)) := by
  induction l generalizing l2 k j with
  | nil =>
    have : l2 = [] := by simpa using h
    subst this
    rfl
  | cons n ns ih =>
    cases l2 with
    | nil => simp at h
    | cons n2 ns2 =>
      simp only [List.map_cons, List.cons.injEq] at h
      obtain ⟨hn, hns⟩ := h
      have ht := type_eq_of_head hn
      simp only [nthArg, ht]
      split
      · cases k with
        | zero => simp [hn]
        | succ k => exact ih ns2 hns k (j + 1)
      · exact ih ns2 hns k (j + 1)

theorem nthArg_index (l : List Node) (k j i : Nat) (hue : Node)
    (h : nthArg k j l = some (i, hue)) : j ≤ i ∧ l[i - j]? = some hue := by
  induction l generalizing k j with
  | nil => simp [nthArg] at h
  | cons n ns ih =>
    simp only [nthArg] at h
    have hrec : ∀ k, nthArg k (j + 1) ns = some (i, hue) →
        j ≤ i ∧ (n :: ns)[i - j]? = some hue := by
      intro k hk
      obtain ⟨h1, h2⟩ := ih k (j + 1) hk
      refine ⟨by omega, ?_⟩
      have : i - j = (i - (j + 1)) + 1 := by omega
      rw [this, List.getElem?_cons_succ]
      exact h2
    split at h
    · cases k with
      | zero =>
        simp only [Option.some.injEq, Prod.mk.injEq] at h
        obtain ⟨rfl, rfl⟩ := h
        simp
      | succ k => exact hrec k h
    · exact hrec k h

theorem nthArg_modify (f : Str) (l : List Node) (k j i : Nat) (hue : Node)
    (h : nthArg k j l = some (i, hue)) :
    nthArg k j (l.modify (Node.setValue f) (i - j)) = some (i, hue.setValue f) := by
  induction l generalizing k j with
  | nil => simp [nthArg] at h
  | cons n ns ih =>
    simp only [nthArg] at h
    have hrec : ∀ k, nthArg k (j + 1) ns = some (i, hue) →
        (n :: ns).modify (Node.setValue f) (i - j) =
          n :: ns.modify (Node.setValue f) (i - (j + 1)) := by
      intro k hk
      obtain ⟨h1, _⟩ := nthArg_index ns k (j + 1) i hue hk
      have : i - j = (i - (j + 1)) + 1 := by omega
      rw [this, List.modify_succ_cons]
    split at h
    · next hn =>
      cases k with
      | zero =>
        simp only [Option.some.injEq, Prod.mk.injEq] at h
        obtain ⟨rfl, rfl⟩ := h
        simp [nthArg, hn]
      | succ k =>
        rw [hrec k h]
        simp only [nthArg, hn, if_true]
        exact ih k (j + 1) h
    · next hn =>
      rw [hrec k h]
      simp only [nthArg, hn, if_false]
      exact ih k (j + 1) h

theorem nthArg_eq_none_iff (l : List Node) (k j : Nat) :
    nthArg k j l = none ↔ (l.filter isArg).length ≤ k := by
  induction l generalizing k j with
  | nil => simp [nthArg]
  | cons n ns ih =>
    simp only [nthArg]
    by_cases hn : n.type = .word ∨ n.type = .function
    · have ha : isArg n = true := by simpa [isArg] using hn
      simp only [hn, if_true, List.filter_cons_of_pos ha, List.length_cons]
      cases k with
      | zero => simp
      | succ k => simpa using ih k (j + 1)
    · have ha : ¬ isArg n = true := by simpa [isArg] using hn
      simp only [hn, if_false, List.filter_cons_of_neg ha]
      exact ih k (j + 1)

theorem findHue_head (n n2 : Node) (hv : n2.value = n.value)
    (hl : n2.nodes.map Node.head = n.nodes.map Node.head) :
    (findHue n2).map (fun p => (p.1, p.2.head)) = (findHue n).map (fun p => (p.1, p.2.head)) := by
  simp only [findHue_eq_spec, specFindHue, hv]
  split
  · exact nthArg_head _ _ hl _ _
  · rfl

theorem findHue_index {n : Node} {i : Nat} {hue : Node} (h : findHue n = some (i, hue)) :
    n.nodes[i]? = some hue := by
  simp only [findHue_eq_spec, specFindHue] at h
  split at h
  · exact (nthArg_index _ _ _ _ _ h).2
  · cases h

theorem findHue_setHueValue {n : Node} {i : Nat} {hue : Node} (f : Str)
    (h : findHue n = some (i, hue)) :
    findHue (setHueValue n i f) = some (i, hue.setValue f) := by
  simp only [findHue_eq_spec, specFindHue, setHueValue_value, setHueValue_nodes] at h ⊢
  split at h
  · next k hk =>
    have := nthArg_modify f _ _ _ _ _ h
    simpa using this
  · cases h

/-! ## Consequences for the walk -/

/-- The walk returns, and the nodes of the list it returns are the nodes it was given up to
their children. -/
theorem walkNodes_heads (cfg : Config) (nodes : List Node) (st : WalkState) :
    ∃ nodes1 st1, walkNodes cfg nodes st = .ok (nodes1, st1) ∧
      nodes1.map Node.head = nodes.map Node.head := by
  refine walkNodes_rel cfg (fun l _ l1 _ => l1.map Node.head = l.map Node.head)
    (fun _ => rfl) ?_ nodes st
  intro node rest st kids st2 rest1 st3 _ _ _ hrest
  simp only [List.map_cons, head_setNodes, hrest, List.cons.injEq, and_true]
  unfold stepNode
  split
  · rfl
  · split
    · cases node; rfl
    · rfl

theorem stepNode_head (cfg : Config) (node : Node) : (stepNode cfg node).head = node.head := by
  unfold stepNode
  split
  · rfl
  · split
    · cases node; rfl
    · rfl

/-- The walk of a single node: the callback, then the walk of the children. -/
theorem walkNodes_singleton (cfg : Config) (node : Node) (st : WalkState) :
    ∃ kids st1, walkNodes cfg [node] st = .ok ([(stepNode cfg node).setNodes kids], st1) ∧
      kids.map Node.head = (stepNode cfg node).nodes.map Node.head := by
  rw [walkNodes_cons cfg node [] st _ _ (callback_eq_step cfg node st)]
  by_cases ht : node.type = .function
  · obtain ⟨kids, st2, hw, hh⟩ := walkNodes_heads cfg (stepNode cfg node).nodes
      (stepState cfg node st)
    refine ⟨kids, st2, ?_, hh⟩
    simp only [stepNode_type, ht, if_true, hw, walkNodes_nil]
  · refine ⟨(stepNode cfg node).nodes, stepState cfg node st, ?_, rfl⟩
    simp only [stepNode_type, ht, if_false, walkNodes_nil]

/-- A list without function nodes is walked without any effect. -/
theorem walkNodes_leaves (cfg : Config) (l : List Node) (st : WalkState)
    (h : ∀ n ∈ l, n.type ≠ .function) : walkNodes cfg l st = .ok (l, st) := by
  induction l with
  | nil => exact walkNodes_nil cfg st
  | cons n ns ih =>
    have hn : n.type ≠ .function := h n (by simp)
    have hc : callback cfg n st = .ok (n, st) := by
      rw [callback_eq, hueChange_eq_none cfg n (fun i hue _ hc => hn hc.1)]
    rw [walkNodes_cons cfg n ns st _ _ hc]
    simp only [hn, if_false, ih (fun m hm => h m (by simp [hm])), setNodes_self]

/-- The walk of a single call whose arguments are no function nodes. -/
theorem walkNodes_flat_call (cfg : Config) (node : Node) (st : WalkState)
    (h : ∀ n ∈ (stepNode cfg node).nodes, n.type ≠ .function) :
    walkNodes cfg [node] st = .ok ([stepNode cfg node], stepState cfg node st) := by
  rw [walkNodes_cons cfg node [] st _ _ (callback_eq_step cfg node st)]
  by_cases ht : (stepNode cfg node).type = .function
  · simp only [ht, if_true, walkNodes_leaves cfg _ _ h, walkNodes_nil, setNodes_self]
  · simp only [ht, if_false, walkNodes_nil, setNodes_self]

theorem stepNode_fix {cfg : Config} {node : Node} {i : Nat} {hue : Node}
    (hfix : cfg.fix = true) (h : hueChange cfg node = some (i, hue)) :
    stepNode cfg node = setHueValue node i (convertText cfg.primary hue.value) ∧
      ∀ st, stepState cfg node st = { st with needsFix := true } := by
  simp [stepNode, stepState, h, hfix]

theorem stepNode_none {cfg : Config} {node : Node} (h : hueChange cfg node = none) :
    stepNode cfg node = node ∧ ∀ st, stepState cfg node st = st := by
  simp [stepNode, stepState, h]

theorem nonConforming_angle {cfg : Config} {v : Str} (hp : cfg.primary = "angle".toList)
    (hs : cfg.isStandardSyntaxValue v = true) (hn : isNumber v = true) :
    nonConforming cfg v = true := by
  have hd : isDegree v = false := by
    cases h : isDegree v with
    | false => rfl
    | true => exact (isDegree_isNumber_exclusive h hn).elim
  unfold nonConforming
  rw [hs, hn, hd, hp]
  decide

theorem nonConforming_number {cfg : Config} {v : Str} (hp : cfg.primary = "number".toList)
    (hs : cfg.isStandardSyntaxValue v = true) (hd : isDegree v = true) :
    nonConforming cfg v = true := by
  have hn : isNumber v = false := by
    cases h : isNumber v with
    | false => rfl
    | true => exact (isDegree_isNumber_exclusive hd h).elim
  unfold nonConforming
  rw [hs, hn, hd, hp]
  decide

theorem map_type_modify (f : Str) (l : List Node) (i : Nat) :
    (l.modify (Node.setValue f) i).map Node.type = l.map Node.type := by
  induction l generalizing i with
  | nil => simp
  | cons a l ih =>
    cases i with
    | zero => simp
    | succ i => rw [List.modify_succ_cons]; simp [ih i]

theorem leaves_modify (f : Str) (l : List Node) (i : Nat)
    (h : ∀ n ∈ l, n.type ≠ .function) :
    ∀ n ∈ l.modify (Node.setValue f) i, n.type ≠ .function := by
  intro n hn ht
  have h1 : n.type ∈ (l.modify (Node.setValue f) i).map Node.type := List.mem_map_of_mem _ hn
  rw [map_type_modify] at h1
  obtain ⟨m, hm, hmt⟩ := List.mem_map.1 h1
  exact h m hm (hmt.trans ht)

theorem nthArg_isArg (l : List Node) (k j i : Nat) (hue : Node)
    (h : nthArg k j l = some (i, hue)) : hue.type = .word ∨ hue.type = .function := by
  induction l generalizing k j with
  | nil => simp [nthArg] at h
  | cons n ns ih =>
    simp only [nthArg] at h
    split at h
    · next hn =>
      cases k with
      | zero =>
        simp only [Option.some.injEq, Prod.mk.injEq] at h
        rw [← h.2]
        exact hn
      | succ k => exact ih k (j + 1) h
    · exact ih k (j + 1) h

theorem nonConforming_iff (cfg : Config) (v : Str)
    (hp : cfg.primary = "angle".toList ∨ cfg.primary = "number".toList) :
    nonConforming cfg v = true ↔
      cfg.isStandardSyntaxValue v = true ∧ (isDegree v = true ∨ isNumber v = true) ∧
        ((cfg.primary = "angle".toList ∧ isNumber v = true) ∨
          (cfg.primary = "number".toList ∧ isDegree v = true)) := by
  constructor
  · intro h
    simp only [nonConforming, Bool.and_eq_true, Bool.or_eq_true, Bool.not_eq_true',
      Bool.and_eq_false_imp, decide_eq_true_eq] at h
    obtain ⟨⟨⟨h1, h2⟩, h3⟩, h4⟩ := h
    refine ⟨h1, h2, ?_⟩
    rcases hp with hp | hp
    · left
      refine ⟨hp, ?_⟩
      rcases h2 with h2 | h2
      · rw [h3 hp] at h2; cases h2
      · exact h2
    · right
      refine ⟨hp, ?_⟩
      rcases h2 with h2 | h2
      · exact h2
      · rw [h4 hp] at h2; cases h2
  · rintro ⟨h1, _, h3⟩
    rcases h3 with ⟨hp, hn⟩ | ⟨hp, hd⟩
    · exact nonConforming_angle hp h1 hn
    · exact nonConforming_number hp h1 hd

theorem hueChange_head (cfg : Config) (n n2 : Node) (hh : n2.head = n.head)
    (hl : n2.nodes.map Node.head = n.nodes.map Node.head) :
    (hueChange cfg n2).map (fun p => (p.1, p.2.head)) =
      (hueChange cfg n).map (fun p => (p.1, p.2.head)) := by
  have ht := type_eq_of_head hh
  have hv := value_eq_of_head hh
  have hf := findHue_head n n2 hv hl
  unfold hueChange
  simp only [ht, recognized, hv]
  split
  · cases h1 : findHue n with
    | none =>
      rw [h1] at hf
      cases h2 : findHue n2 with
      | none => rfl
      | some p => rw [h2] at hf; cases hf
    | some p =>
      rw [h1] at hf
      cases h2 : findHue n2 with
      | none => rw [h2] at hf; cases hf
      | some p2 =>
        rw [h2] at hf
        simp only [Option.map_some', Option.some.injEq, Prod.mk.injEq] at hf
        have hval := value_eq_of_head hf.2
        simp only [hval]
        split
        · simp [hf.1, hf.2]
        · rfl
  · rfl

theorem nonConforming_convert (cfg : Config) (v : Str)
    (hp : cfg.primary = "angle".toList ∨ cfg.primary = "number".toList)
    (h : nonConforming cfg v = true) :
    nonConforming cfg (convertText cfg.primary v) = false := by
  obtain ⟨_, _, h3⟩ := (nonConforming_iff cfg v hp).1 h
  rcases h3 with ⟨hp, hn⟩ | ⟨hp, hd⟩
  · have hd := isDegree_asDegree hn
    simp only [nonConforming, convertText, hp, if_true, hd]
    simp
  · have hne : cfg.primary ≠ "angle".toList := by rw [hp]; decide
    obtain ⟨n, u, _, _, h3, h4⟩ := isNumber_asNumber hd
    have h1 := asNumber_of_eligible (v := v) (by simp [hd])
    rw [h3] at h1
    simp only [nonConforming, convertText, hne, if_false, ← Except.ok.inj h1, h4, hp]
    simp [h4]

/-- In fix mode, a node the callback has seen gives the callback nothing more to do. -/
theorem hueChange_stepNode (cfg : Config) (hfix : cfg.fix = true)
    (hp : cfg.primary = "angle".toList ∨ cfg.primary = "number".toList) (node : Node) :
    hueChange cfg (stepNode cfg node) = none := by
  cases hc : hueChange cfg node with
  | none => rw [(stepNode_none hc).1, hc]
  | some p =>
    obtain ⟨i, hue⟩ := p
    obtain ⟨_, _, hf, hn⟩ := (hueChange_eq_some_iff cfg node i hue).1 hc
    rw [(stepNode_fix hfix hc).1]
    apply hueChange_eq_none
    intro i2 hue2 hf2 hcon
    rw [findHue_setHueValue _ hf] at hf2
    simp only [Option.some.injEq, Prod.mk.injEq] at hf2
    have hv : hue2.value = convertText cfg.primary hue.value := by
      rw [← hf2.2]; simp
    rw [hv, nonConforming_convert cfg _ hp hn] at hcon
    exact absurd hcon.2.2 (by decide)

theorem hueChange_none_of_head (cfg : Config) (n n2 : Node) (hh : n2.head = n.head)
    (hl : n2.nodes.map Node.head = n.nodes.map Node.head) (h : hueChange cfg n = none) :
    hueChange cfg n2 = none := by
  have := hueChange_head cfg n n2 hh hl
  rw [h] at this
  cases h2 : hueChange cfg n2 with
  | none => rfl
  | some p => rw [h2] at this; cases this

/-! ## Paths -/

theorem nodeAt_nil (l : List Node) : nodeAt l [] = none := by
  cases l <;> rfl

theorem nodeAt_single (l : List Node) (i : Nat) : nodeAt l [i] = l[i]? := by
  simp only [nodeAt]
  cases l[i]? <;> rfl

theorem nodeAt_cons_cons (l : List Node) (i j : Nat) (q : List Nat) :
    nodeAt l (i :: j :: q) = (l[i]?).bind (fun n => nodeAt n.nodes (j :: q)) := by
  simp only [nodeAt]
  cases l[i]? <;> rfl

theorem nodeAt_succ (a : Node) (l : List Node) (k : Nat) (q : List Nat) :
    nodeAt (a :: l) ((k + 1) :: q) = nodeAt l (k :: q) := by
  cases q with
  | nil => simp [nodeAt_single]
  | cons j q => simp [nodeAt_cons_cons]

theorem nodeAt_zero (a : Node) (l : List Node) (j : Nat) (q : List Nat) :
    nodeAt (a :: l) (0 :: j :: q) = nodeAt a.nodes (j :: q) := by
  simp [nodeAt_cons_cons]

@[simp] theorem frame_setValue (f : Str) (n : Node) : (n.setValue f).frame = n.frame := by
  cases n; rfl

@[simp] theorem frame_setNodes (ns : List Node) (n : Node) : (n.setNodes ns).frame = n.frame := by
  cases n; rfl

theorem frame_eq_of_head {a b : Node} (h : a.head = b.head) : a.frame = b.frame := by
  have := congrArg (Node.setValue []) h
  cases a; cases b
  simpa [Node.head, Node.setNodes, Node.setValue, Node.frame] using this

theorem nodeAt_modify (f : Str) (l : List Node) (i0 : Nat) (path : List Nat) :
    nodeAt (l.modify (Node.setValue f) i0) path =
      if path = [i0] then (nodeAt l path).map (Node.setValue f) else nodeAt l path := by
  cases path with
  | nil => simp [nodeAt_nil]
  | cons k q =>
    cases q with
    | nil =>
      simp only [nodeAt_single, List.getElem?_modify, List.cons.injEq, and_true]
      by_cases hk : i0 = k
      · subst hk; simp
      · have hk2 : ¬ k = i0 := fun h => hk h.symm
        simp [hk, hk2]
    | cons j q =>
      simp only [nodeAt_cons_cons, List.getElem?_modify, List.cons.injEq, and_false,
        if_false, reduceCtorEq]
      cases l[k]? with
      | none => rfl
      | some m =>
        by_cases hk : i0 = k <;> simp [hk]

theorem locatedHue_succ {a : Node} {l : List Node} {k : Nat} {q : List Nat}
    (h : LocatedHue l (k :: q)) : LocatedHue (a :: l) ((k + 1) :: q) := by
  obtain ⟨pp, i, parent, hue, hpath, hpar, h1, h2, h3⟩ := h
  cases pp with
  | nil => rw [nodeAt_nil] at hpar; cases hpar
  | cons k2 pp =>
    simp only [List.cons_append, List.cons.injEq] at hpath
    obtain ⟨rfl, rfl⟩ := hpath
    exact ⟨(k + 1) :: pp, i, parent, hue, rfl, by rw [nodeAt_succ]; exact hpar, h1, h2, h3⟩

theorem locatedHue_zero {a : Node} {l : List Node} {j : Nat} {q : List Nat}
    (h : LocatedHue a.nodes (j :: q)) : LocatedHue (a :: l) (0 :: j :: q) := by
  obtain ⟨pp, i, parent, hue, hpath, hpar, h1, h2, h3⟩ := h
  cases pp with
  | nil => rw [nodeAt_nil] at hpar; cases hpar
  | cons k2 pp =>
    refine ⟨0 :: k2 :: pp, i, parent, hue, ?_, by rw [nodeAt_zero]; exact hpar, h1, h2, h3⟩
    rw [hpath]
    rfl

/-! ## A converted text is never the name of a hue function -/

theorem likeNumber_of_unit {v : Str} {d : Dimension} (h : unit v = some d) :
    likeNumber v = true := by
  unfold unit at h
  split at h
  · cases h
  · next hc =>
    cases hl : likeNumber v with
    | true => rfl
    | false => simp [hl] at hc

theorem likeNumber_head {c : Char} {r : Str} (h : likeNumber (c :: r) = true) :
    c.toNat ≤ 57 := by
  unfold likeNumber at h
  simp only at h
  split at h
  · next hs =>
    simp only [isSign, decide_eq_true_eq] at hs
    omega
  · split at h
    · next hd =>
      simp only [isDot, decide_eq_true_eq] at hd
      omega
    · simp only [isDigit, decide_eq_true_eq] at h
      omega

theorem not_recognized_of_likeNumber {t : Str} (h : likeNumber t = true) :
    HUE_FUNCS.contains (toLowerCase t) = false := by
  cases t with
  | nil => simp [likeNumber] at h
  | cons c r =>
    have hc := likeNumber_head h
    have hl : lowerChar c = c := by
      unfold lowerChar
      rw [if_neg (by omega), if_neg (by omega)]
    have hne : ∀ x : Char, 58 ≤ x.toNat → c ≠ x := by
      intro x hx hcx
      rw [hcx] at hc
      omega
    have h1 := hne 'h' (by decide)
    have h2 := hne 'l' (by decide)
    have h3 := hne 'o' (by decide)
    simp [HUE_FUNCS, HUE_FIRST_ARG_FUNCS, HUE_THIRD_ARG_FUNCS, toLowerCase, hl, h1, h2, h3]

theorem likeNumber_convert {cfg : Config} {v : Str} (h : nonConforming cfg v = true) :
    likeNumber (convertText cfg.primary v) = true := by
  simp only [nonConforming, Bool.and_eq_true, Bool.or_eq_true, Bool.not_eq_true',
    Bool.and_eq_false_imp, decide_eq_true_eq] at h
  obtain ⟨⟨⟨_, h2⟩, h3⟩, _⟩ := h
  have hnum : ∀ w, isNumber w = true → likeNumber w = true ∧ numberPart w = w := by
    intro w hn
    rw [isNumber_iff] at hn
    exact ⟨likeNumber_of_unit hn, by simp [numberPart, hn]⟩
  unfold convertText
  by_cases hp : cfg.primary = "angle".toList
  · rw [if_pos hp]
    have hn : isNumber v = true := by
      rcases h2 with h2 | h2
      · rw [h3 hp] at h2; cases h2
      · exact h2
    rw [asDegree, likeNumber_append v _ (inertHead_of_lower_deg (by decide))]
    exact (hnum v hn).1
  · rw [if_neg hp]
    rcases h2 with h2 | h2
    · obtain ⟨n, u, _, _, ha, hn⟩ := isNumber_asNumber h2
      have h1 := asNumber_of_eligible (v := v) (by simp [h2])
      rw [ha] at h1
      rw [← Except.ok.inj h1]
      exact (hnum n hn).1
    · rw [(hnum v h2).2]
      exact (hnum v h2).1

/-! ## Locality -/

theorem stepNode_nodes_cases (cfg : Config) (node : Node) :
    (stepNode cfg node).nodes = node.nodes ∨
      ∃ i0 hue, cfg.fix = true ∧ hueChange cfg node = some (i0, hue) ∧
        (stepNode cfg node).nodes =
          node.nodes.modify (Node.setValue (convertText cfg.primary hue.value)) i0 := by
  cases hc : hueChange cfg node with
  | none => left; rw [(stepNode_none hc).1]
  | some p =>
    obtain ⟨i0, hue⟩ := p
    by_cases hfix : cfg.fix = true
    · right
      exact ⟨i0, hue, hfix, rfl, by rw [(stepNode_fix hfix hc).1]; simp⟩
    · left
      simp [stepNode, hc, hfix]

theorem pathRel_refl (cfg : Config) (l : List Node) (path : List Nat) : PathRel cfg l l path :=
  ⟨rfl, fun n n1 h h1 hne => by rw [h] at h1; cases h1; exact absurd rfl hne⟩

/-- Locality for the paths below a node, from locality for the walk of its children. -/
theorem pathRel_children (cfg : Config) (node : Node) (rest kids rest1 : List Node)
    (hk : ∀ path, PathRel cfg (stepNode cfg node).nodes kids path) (j : Nat) (q : List Nat) :
    PathRel cfg (node :: rest) ((stepNode cfg node).setNodes kids :: rest1) (0 :: j :: q) := by
  unfold PathRel
  rw [nodeAt_zero, nodeAt_zero, setNodes_nodes]
  obtain ⟨hframe, hval⟩ := hk (j :: q)
  rcases stepNode_nodes_cases cfg node with h | ⟨i0, hue, hfix, hc, h⟩
  · rw [h] at hframe hval
    exact ⟨hframe, fun n n1 hn hn1 hne =>
      ⟨(hval n n1 hn hn1 hne).1, locatedHue_zero (hval n n1 hn hn1 hne).2⟩⟩
  · obtain ⟨ht, hr, hf, hnc⟩ := (hueChange_eq_some_iff cfg node i0 hue).1 hc
    rw [h] at hframe hval
    rw [nodeAt_modify] at hframe hval
    constructor
    · rw [hframe]
      split
      · cases nodeAt node.nodes (j :: q) <;> simp
      · rfl
    · intro n n1 hn hn1 hne
      refine ⟨hfix, ?_⟩
      by_cases hp : j :: q = [i0]
      · rw [hp]
        exact ⟨[0], i0, node, hue, rfl, by simp [nodeAt_single], ht, hr, hf⟩
      · rw [if_neg hp] at hval
        obtain ⟨pp, i, parent, hue2, hpath, hpar, h1, h2, h3⟩ := (hval n n1 hn hn1 hne).2
        rw [nodeAt_modify] at hpar
        apply locatedHue_zero
        by_cases hpp : pp = [i0]
        · rw [if_pos hpp] at hpar
          cases hm : nodeAt node.nodes pp with
          | none => rw [hm] at hpar; cases hpar
          | some m =>
            rw [hm] at hpar
            simp only [Option.map_some', Option.some.injEq] at hpar
            rw [← hpar, setValue_value,
              not_recognized_of_likeNumber (likeNumber_convert hnc)] at h2
            cases h2
        · rw [if_neg hpp] at hpar
          exact ⟨pp, i, parent, hue2, hpath, hpar, h1, h2, h3⟩

/-- The walk returns, and it leaves every node where it was, with the same frame; the text
of a node changes only in fix mode and only if `findHue` located it as the hue of a
recognized call. -/
theorem walkNodes_local (cfg : Config) (nodes : List Node) (st : WalkState) :
    ∃ nodes1 st1, walkNodes cfg nodes st = .ok (nodes1, st1) ∧
      (nodes1.map Node.head = nodes.map Node.head ∧ ∀ path, PathRel cfg nodes nodes1 path) := by
  refine walkNodes_rel cfg
    (fun l _ l1 _ => l1.map Node.head = l.map Node.head ∧ ∀ path, PathRel cfg l l1 path)
    (fun _ => ⟨rfl, fun path => pathRel_refl cfg [] path⟩) ?_ nodes st
  intro node rest st kids st2 rest1 st3 hfun hleaf _ hrest
  have hk : ∀ path, PathRel cfg (stepNode cfg node).nodes kids path := by
    by_cases ht : node.type = .function
    · exact (hfun ht).2.2
    · rw [(hleaf ht).1]
      exact fun path => pathRel_refl cfg _ path
  refine ⟨by simp [hrest.1, stepNode_head], ?_⟩
  intro path
  match path with
  | [] => exact ⟨by simp [nodeAt_nil], fun n n1 hn => by rw [nodeAt_nil] at hn; cases hn⟩
  | [0] =>
    refine ⟨by simp [nodeAt_single, frame_eq_of_head (stepNode_head cfg node)], ?_⟩
    intro n n1 hn hn1 hne
    simp only [nodeAt_single, List.getElem?_cons_zero, Option.some.injEq] at hn hn1
    rw [← hn, ← hn1] at hne
    simp at hne
  | 0 :: j :: q => exact pathRel_children cfg node rest kids rest1 hk j q
  | (k + 1) :: q =>
    unfold PathRel
    rw [nodeAt_succ, nodeAt_succ]
    obtain ⟨hframe, hval⟩ := hrest.2 (k :: q)
    exact ⟨hframe, fun n n1 hn hn1 hne =>
      ⟨(hval n n1 hn hn1 hne).1, locatedHue_succ (hval n n1 hn hn1 hne).2⟩⟩

theorem stepState_needsFix_false {cfg : Config} {node : Node} {st : WalkState}
    (h : (stepState cfg node st).needsFix = false) :
    stepNode cfg node = node ∧ st.needsFix = false := by
  unfold stepState at h
  unfold stepNode
  cases hc : hueChange cfg node with
  | none => rw [hc] at h; exact ⟨rfl, h⟩
  | some p =>
    rw [hc] at h
    by_cases hfix : cfg.fix = true
    · simp [hfix] at h
    · simp only [hfix, if_false] at h ⊢
      exact ⟨rfl, h⟩

/-- A walk that leaves `needsFix` unset, or runs in check mode, returns the tree it was
given. -/
theorem walkNodes_unchanged (cfg : Config) (nodes : List Node) (st : WalkState) :
    ∃ nodes1 st1, walkNodes cfg nodes st = .ok (nodes1, st1) ∧
      ((st1.needsFix = false → nodes1 = nodes ∧ st.needsFix = false) ∧
        (cfg.fix = false → nodes1 = nodes)) := by
  refine walkNodes_rel cfg
    (fun l st l1 st1 => (st1.needsFix = false → l1 = l ∧ st.needsFix = false) ∧
      (cfg.fix = false → l1 = l))
    (fun _ => ⟨fun h => ⟨rfl, h⟩, fun _ => rfl⟩) ?_ nodes st
  intro node rest st kids st2 rest1 st3 hfun hleaf _ hrest
  constructor
  · intro h3
    obtain ⟨hr, h2⟩ := hrest.1 h3
    have hk : kids = (stepNode cfg node).nodes ∧ (stepState cfg node st).needsFix = false := by
      by_cases ht : node.type = .function
      · exact (hfun ht).2.1 h2
      · rw [(hleaf ht).1]
        rw [(hleaf ht).2] at h2
        exact ⟨rfl, h2⟩
    obtain ⟨hs, h0⟩ := stepState_needsFix_false hk.2
    rw [hr, hk.1, hs]
    exact ⟨by simp, h0⟩
  · intro hfix
    have hs : stepNode cfg node = node := by
      unfold stepNode
      split
      · rfl
      · simp [hfix]
    have hk : kids = node.nodes := by
      by_cases ht : node.type = .function
      · rw [(hfun ht).2.2 hfix, hs]
      · rw [(hleaf ht).1, hs]
    rw [hrest.2 hfix, hk, hs]
    simp

/-- The walk, in fix mode, of a call `name(a b c)` whose hue the callback acts on. -/
theorem walkNodes_call3 (cfg : Config) (hfix : cfg.fix = true) (name a b c : Str) (i : Nat)
    (hue : Node) (st : WalkState) (hc : hueChange cfg (call3 name a b c) = some (i, hue)) :
    walkNodes cfg [call3 name a b c] st =
      .ok ([setHueValue (call3 name a b c) i (convertText cfg.primary hue.value)],
        { st with needsFix := true }) := by
  have hs := stepNode_fix hfix hc
  have := walkNodes_flat_call cfg (call3 name a b c) st (by
    rw [hs.1, setHueValue_nodes]
    apply leaves_modify
    intro n hn
    simp only [call3, Node.nodes, List.mem_cons, List.mem_singleton, List.not_mem_nil,
      or_false] at hn
    rcases hn with h | h | h | h | h <;> subst h <;> simp [wordNode, spaceNode, Node.type])
  rw [this, hs.1, hs.2]

/-- The walk of `hsl(200 50% 50%)` under `angle` in fix mode, every text taken for standard
syntax. -/
theorem walkNodes_hsl200 (st : WalkState) :
    walkNodes (plainConfig "angle".toList true)
        [call3 "hsl".toList "200".toList "50%".toList "50%".toList] st =
      .ok ([(call3 "hsl".toList "200".toList "50%".toList "50%".toList).setNodes
          [(wordNode "200".toList 4).setValue "200deg".toList, spaceNode 7,
            wordNode "50%".toList 8, spaceNode 11, wordNode "50%".toList 12]],
        { st with needsFix := true }) := by
  have hc : hueChange (plainConfig "angle".toList true)
      (call3 "hsl".toList "200".toList "50%".toList "50%".toList) =
        some (0, wordNode "200".toList 4) :=
    (hueChange_eq_some_iff _ _ _ _).2 ⟨rfl, by decide, rfl, by decide⟩
  rw [walkNodes_call3 _ rfl _ _ _ _ _ _ st hc]
  rfl

/-! ## The tree with the hue texts blanked -/

theorem blankHuesNode_eq (n : Node) :
    blankHuesNode n = n.setNodes (blankHuesList (hueIndex n) 0 n.nodes) := by
  cases n
  simp [blankHuesNode, Node.setNodes, Node.nodes]

theorem setNodes_eq_of_head {a b : Node} (h : a.head = b.head) (ns : List Node) :
    a.setNodes ns = b.setNodes ns := by
  have := congrArg (Node.setNodes ns) h
  simpa [Node.head] using this

theorem hueIndex_of_head (n n2 : Node) (hh : n2.head = n.head)
    (hl : n2.nodes.map Node.head = n.nodes.map Node.head) : hueIndex n2 = hueIndex n := by
  have ht := type_eq_of_head hh
  have hv := value_eq_of_head hh
  have hf := congrArg (Option.map Prod.fst) (findHue_head n n2 hv hl)
  simp only [Option.map_map] at hf
  unfold hueIndex
  simp only [ht, recognized, hv]
  split
  · exact hf
  · rfl

theorem hueIndex_stepNode (cfg : Config) (node : Node) :
    hueIndex (stepNode cfg node) = hueIndex node := by
  cases hc : hueChange cfg node with
  | none => rw [(stepNode_none hc).1]
  | some p =>
    obtain ⟨i, hue⟩ := p
    by_cases hfix : cfg.fix = true
    · obtain ⟨ht, hr, hf, _⟩ := (hueChange_eq_some_iff cfg node i hue).1 hc
      rw [(stepNode_fix hfix hc).1]
      have hr2 : recognized (setHueValue node i (convertText cfg.primary hue.value)) = true := by
        simpa [recognized] using hr
      simp only [hueIndex, setHueValue_type, ht, hr, hr2, and_self, if_true,
        findHue_setHueValue _ hf, hf, Option.map_some']
    · simp [stepNode, hc, hfix]

theorem hueIndex_of_hueChange {cfg : Config} {node : Node} {i : Nat} {hue : Node}
    (hc : hueChange cfg node = some (i, hue)) : hueIndex node = some i := by
  obtain ⟨ht, hr, hf, _⟩ := (hueChange_eq_some_iff cfg node i hue).1 hc
  simp [hueIndex, ht, hr, hf]

theorem hueIndex_none_of_likeNumber {m : Node} (h : likeNumber m.value = true) :
    hueIndex m = none := by
  have hr : recognized m = false := not_recognized_of_likeNumber h
  unfold hueIndex
  rw [hr, if_neg (by simp)]

theorem likeNumber_of_nonConforming {cfg : Config} {v : Str} (h : nonConforming cfg v = true) :
    likeNumber v = true := by
  simp only [nonConforming, Bool.and_eq_true, Bool.or_eq_true] at h
  obtain ⟨⟨⟨_, h2⟩, _⟩, _⟩ := h
  rcases h2 with h2 | h2
  · rw [isDegree_iff] at h2
    obtain ⟨n, u, hu, _⟩ := h2
    exact likeNumber_of_unit hu
  · rw [isNumber_iff] at h2
    exact likeNumber_of_unit h2

/-- Replacing a number-like text of the node at the blanked position by another number-like
text does not show in the blanked list. -/
theorem blankHuesList_modify (f : Str) (hf : likeNumber f = true) (l : List Node) (j k : Nat)
    (hm : ∀ m, l[k]? = some m → likeNumber m.value = true) :
    blankHuesList (some (j + k)) j (l.modify (Node.setValue f) k) =
      blankHuesList (some (j + k)) j l := by
  induction l generalizing j k with
  | nil => simp
  | cons m ns ih =>
    cases k with
    | zero =>
      have h1 : likeNumber m.value = true := hm m (by simp)
      have e1 : hueIndex (m.setValue f) = none :=
        hueIndex_none_of_likeNumber (by simpa using hf)
      have e2 : hueIndex m = none := hueIndex_none_of_likeNumber h1
      simp only [List.modify_zero_cons, blankHuesList, Nat.add_zero, if_true,
        blankHuesNode_eq, e1, e2, setValue_nodes]
      congr 1
      cases m
      rfl
    | succ k =>
      rw [List.modify_succ_cons]
      have hne : ¬ (some (j + (k + 1)) = some j) := by
        simp only [Option.some.injEq]; omega
      simp only [blankHuesList, hne, if_false]
      congr 1
      have := ih (j + 1) k (fun m h => hm m (by simpa using h))
      have e : j + 1 + k = j + (k + 1) := by omega
      rw [e] at this
      exact this

/-- The walk returns, and with the texts of the located hues blanked the tree it returns is
the tree it was given. -/
theorem walkNodes_blank (cfg : Config) (nodes : List Node) (st : WalkState) :
    ∃ nodes1 st1, walkNodes cfg nodes st = .ok (nodes1, st1) ∧
      (nodes1.map Node.head = nodes.map Node.head ∧
        ∀ h j, blankHuesList h j nodes1 = blankHuesList h j nodes) := by
  refine walkNodes_rel cfg
    (fun l _ l1 _ => l1.map Node.head = l.map Node.head ∧
      ∀ h j, blankHuesList h j l1 = blankHuesList h j l)
    (fun _ => ⟨rfl, fun _ _ => rfl⟩) ?_ nodes st
  intro node rest st kids st2 rest1 st3 hfun hleaf _ hrest
  refine ⟨by simp [hrest.1, stepNode_head], ?_⟩
  have hk : kids.map Node.head = (stepNode cfg node).nodes.map Node.head ∧
      ∀ h j, blankHuesList h j kids = blankHuesList h j (stepNode cfg node).nodes := by
    by_cases ht : node.type = .function
    · exact (hfun ht).2
    · rw [(hleaf ht).1]
      exact ⟨rfl, fun _ _ => rfl⟩
  have hi : hueIndex ((stepNode cfg node).setNodes kids) = hueIndex node := by
    rw [hueIndex_of_head (stepNode cfg node) _ (by simp) (by simpa using hk.1),
      hueIndex_stepNode]
  have hstep : blankHuesList (hueIndex node) 0 (stepNode cfg node).nodes =
      blankHuesList (hueIndex node) 0 node.nodes := by
    rcases stepNode_nodes_cases cfg node with h | ⟨i0, hue, _, hc, h⟩
    · rw [h]
    · obtain ⟨_, _, hf, hnc⟩ := (hueChange_eq_some_iff cfg node i0 hue).1 hc
      rw [h, hueIndex_of_hueChange hc]
      have := blankHuesList_modify (convertText cfg.primary hue.value)
        (likeNumber_convert hnc) node.nodes 0 i0 (fun m hm => by
          rw [findHue_index hf] at hm
          cases hm
          exact likeNumber_of_nonConforming hnc)
      simpa using this
  have hnode : blankHuesNode ((stepNode cfg node).setNodes kids) = blankHuesNode node := by
    rw [blankHuesNode_eq, blankHuesNode_eq, hi, setNodes_nodes, setNodes_setNodes, hk.2,
      hstep]
    exact setNodes_eq_of_head (stepNode_head cfg node) _
  intro h j
  simp only [blankHuesList, hnode, hrest.2]

/-! ## The claims -/

/-- C1: in fix mode, for a recognized call whose located hue has standard syntax, is eligible
and does not conform to the policy, the callback of the walk replaces the text of the hue
node by the converted text: under `angle` a bare number `v` becomes `v` followed by `deg`,
under `number` a degree value becomes its numeric prefix, the unit removed.  The walk of the
call returns the call with that hue text.  On `hsl(200 50% 50%)` under `angle` the value
becomes `hsl(200deg 50% 50%)`, on `hsl(200deg 50% 50%)` and `lch(50% 40 30deg)` under
`number` it becomes `hsl(200 50% 50%)` and `lch(50% 40 30)`. -/
theorem fix_replaces_hue_text (cfg : Config) (hfix : cfg.fix = true) :
    (∀ node st i hue, node.type = .function →
      HUE_FUNCS.contains (toLowerCase node.value) = true →
      findHue node = some (i, hue) → cfg.isStandardSyntaxValue hue.value = true →
      (cfg.primary = "angle".toList → isNumber hue.value = true →
        callback cfg node st =
          .ok (setHueValue node i (hue.value ++ "deg".toList), { st with needsFix := true }) ∧
        findHue (setHueValue node i (hue.value ++ "deg".toList)) =
          some (i, hue.setValue (hue.value ++ "deg".toList)) ∧
        ∃ node1 st1 hue1, walkNodes cfg [node] st = .ok ([node1], st1) ∧
          findHue node1 = some (i, hue1) ∧ hue1.value = hue.value ++ "deg".toList) ∧
      (cfg.primary = "number".toList → isDegree hue.value = true →
        ∃ n u, hue.value = n ++ u ∧ toLowerCase u = "deg".toList ∧
          callback cfg node st = .ok (setHueValue node i n, { st with needsFix := true }) ∧
          findHue (setHueValue node i n) = some (i, hue.setValue n) ∧
          ∃ node1 st1 hue1, walkNodes cfg [node] st = .ok ([node1], st1) ∧
            findHue node1 = some (i, hue1) ∧ hue1.value = n)) ∧
    (cfg.primary = "angle".toList → cfg.isStandardSyntaxValue "200".toList = true →
      ∀ st, (walkNodes cfg [call3 "hsl".toList "200".toList "50%".toList "50%".toList] st).map
          (fun r => (stringify r.1, r.2)) =
        .ok ("hsl(200deg 50% 50%)".toList, { st with needsFix := true })) ∧
    (cfg.primary = "number".toList → cfg.isStandardSyntaxValue "200deg".toList = true →
      ∀ st, (walkNodes cfg [call3 "hsl".toList "200deg".toList "50%".toList "50%".toList] st).map
          (fun r => (stringify r.1, r.2)) =
        .ok ("hsl(200 50% 50%)".toList, { st with needsFix := true })) ∧
    (cfg.primary = "number".toList → cfg.isStandardSyntaxValue "30deg".toList = true →
      ∀ st, (walkNodes cfg [call3 "lch".toList "50%".toList "40".toList "30deg".toList] st).map
          (fun r => (stringify r.1, r.2)) =
        .ok ("lch(50% 40 30)".toList, { st with needsFix := true })) := by
  have hwalk : ∀ node st i hue, hueChange cfg node = some (i, hue) →
      ∃ node1 st1 hue1, walkNodes cfg [node] st = .ok ([node1], st1) ∧
        findHue node1 = some (i, hue1) ∧ hue1.value = convertText cfg.primary hue.value := by
    intro node st i hue hc
    obtain ⟨kids, st1, hw, hk⟩ := walkNodes_singleton cfg node st
    have hf := ((hueChange_eq_some_iff cfg node i hue).1 hc).2.2.1
    have hs := (stepNode_fix hfix hc).1
    have h2 := findHue_setHueValue (convertText cfg.primary hue.value) hf
    rw [← hs] at h2
    have h3 := findHue_head (stepNode cfg node) ((stepNode cfg node).setNodes kids)
      (by simp) (by simpa using hk)
    rw [h2] at h3
    cases h4 : findHue ((stepNode cfg node).setNodes kids) with
    | none => rw [h4] at h3; cases h3
    | some p =>
      rw [h4] at h3
      simp only [Option.map_some', Option.some.injEq, Prod.mk.injEq] at h3
      refine ⟨_, st1, p.2, hw, ?_, ?_⟩
      · rw [h4, ← h3.1]
      · have := value_eq_of_head h3.2
        simpa using this
  have hflat := fun (name a b c : Str) (i : Nat) (hue : Node) (st : WalkState) =>
    walkNodes_call3 cfg hfix name a b c i hue st
  refine ⟨?_, ?_, ?_, ?_⟩
  · intro node st i hue ht hr hf hstd
    constructor
    · intro hp hn
      have hc : hueChange cfg node = some (i, hue) :=
        (hueChange_eq_some_iff cfg node i hue).2 ⟨ht, hr, hf, nonConforming_angle hp hstd hn⟩
      have hconv : convertText cfg.primary hue.value = hue.value ++ "deg".toList := by
        simp [convertText, hp, asDegree]
      refine ⟨?_, findHue_setHueValue _ hf, ?_⟩
      · rw [callback_eq, hc]
        simp only [hfix, if_true, hconv]
      · rw [← hconv]
        exact hwalk node st i hue hc
    · intro hp hd
      have hc : hueChange cfg node = some (i, hue) :=
        (hueChange_eq_some_iff cfg node i hue).2 ⟨ht, hr, hf, nonConforming_number hp hstd hd⟩
      obtain ⟨n, u, hv, hu, ha, _⟩ := isNumber_asNumber hd
      have hconv : convertText cfg.primary hue.value = n := by
        have hne : cfg.primary ≠ "angle".toList := by rw [hp]; decide
        have hnum : numberPart hue.value = n := by
          have h1 := asNumber_of_eligible (v := hue.value) (by simp [hd])
          rw [ha] at h1
          exact (Except.ok.inj h1).symm
        simp only [convertText, hne, if_false, hnum]
      refine ⟨n, u, hv, hu, ?_, findHue_setHueValue _ hf, ?_⟩
      · rw [callback_eq, hc]
        simp only [hfix, if_true, hconv]
      · rw [← hconv]
        exact hwalk node st i hue hc
  · intro hp hstd st
    have hc : hueChange cfg (call3 "hsl".toList "200".toList "50%".toList "50%".toList) =
        some (0, wordNode "200".toList 4) :=
      (hueChange_eq_some_iff cfg _ _ _).2
        ⟨rfl, by decide, rfl, nonConforming_angle hp hstd (by decide)⟩
    rw [hflat _ _ _ _ _ _ st hc, hp]
    rfl
  · intro hp hstd st
    have hc : hueChange cfg (call3 "hsl".toList "200deg".toList "50%".toList "50%".toList) =
        some (0, wordNode "200deg".toList 4) :=
      (hueChange_eq_some_iff cfg _ _ _).2
        ⟨rfl, by decide, rfl, nonConforming_number hp hstd (by decide)⟩
    rw [hflat _ _ _ _ _ _ st hc, hp]
    rfl
  · intro hp hstd st
    have hc : hueChange cfg (call3 "lch".toList "50%".toList "40".toList "30deg".toList) =
        some (4, wordNode "30deg".toList 11) :=
      (hueChange_eq_some_iff cfg _ _ _).2
        ⟨rfl, by decide, rfl, nonConforming_number hp hstd (by decide)⟩
    rw [hflat _ _ _ _ _ _ st hc, hp]
    rfl

/-- C1, at a concrete input: the three scenarios with a configuration in fix mode that takes
every text for standard syntax. -/
theorem fix_replaces_hue_text_witness :
    (plainConfig "angle".toList true).fix = true ∧
    (walkNodes (plainConfig "angle".toList true)
        [call3 "hsl".toList "200".toList "50%".toList "50%".toList] ⟨false, []⟩).map
          (fun r => (stringify r.1, r.2)) =
        .ok ("hsl(200deg 50% 50%)".toList, ⟨true, []⟩) ∧
    (walkNodes (plainConfig "number".toList true)
        [call3 "lch".toList "50%".toList "40".toList "30deg".toList] ⟨false, []⟩).map
          (fun r => (stringify r.1, r.2)) =
        .ok ("lch(50% 40 30)".toList, ⟨true, []⟩) :=
  ⟨rfl,
   (fix_replaces_hue_text (plainConfig "angle".toList true) rfl).2.1 rfl rfl ⟨false, []⟩,
   (fix_replaces_hue_text (plainConfig "number".toList true) rfl).2.2.2 rfl rfl ⟨false, []⟩⟩

/-- C2: `findHue` is the Hue Locator of the specification: with the function name compared
in lower case, it returns the first child that counts as a positional argument for `hsl`,
`hsla` and `hwb`, the third for `lch` and `oklch`, and nothing for any other name, where
only children of type `word` or `function` count and separators, whitespace and comments
are skipped.  The node it returns is a child of the call of type `word` or `function`.  In
`LCH(50%, 40 /*c*/ 30deg)` it finds `30deg`, the seventh child. -/
theorem findHue_counts_positional_arguments (node : Node) :
    findHue node = specFindHue node ∧
    (∀ i hue, findHue node = some (i, hue) →
      node.nodes[i]? = some hue ∧ (hue.type = .word ∨ hue.type = .function)) ∧
    findHue (.mk .function "LCH".toList 0 24 [] [] [] false
        [wordNode "50%".toList 4,
         .mk .div ",".toList 7 9 [] " ".toList [] false [],
         wordNode "40".toList 9,
         spaceNode 11,
         .mk .comment "c".toList 12 17 [] [] [] false [],
         spaceNode 17,
         wordNode "30deg".toList 18]) = some (6, wordNode "30deg".toList 18) ∧
    findHue (.mk .function "Hsl".toList 0 8 " ".toList [] [] false
        [.mk .function "var".toList 5 13 [] [] [] false [wordNode "--h".toList 9],
         spaceNode 13,
         wordNode "50%".toList 14]) =
      some (0, .mk .function "var".toList 5 13 [] [] [] false [wordNode "--h".toList 9]) := by
  refine ⟨findHue_eq_spec node, ?_, rfl, rfl⟩
  intro i hue h
  refine ⟨findHue_index h, ?_⟩
  simp only [findHue_eq_spec, specFindHue] at h
  split at h
  · exact nthArg_isArg _ _ _ _ _ h
  · cases h

/-- C3: in check mode with a valid policy the callback of the walk leaves the node alone and
adds a diagnostic if and only if the node is a function, its lower-cased name is a
recognized hue function, `findHue` returns a hue, the hue text is standard syntax, it is a
degree value or a bare number, and it does not match the policy (a bare number under
`angle`, a degree value under `number`).  Otherwise, so also for a hue that already matches
the policy, the state of the walk is unchanged: no diagnostic. -/
theorem check_mode_diagnostic_iff (cfg : Config) (hfix : cfg.fix = false)
    (hp : cfg.primary = "angle".toList ∨ cfg.primary = "number".toList)
    (node : Node) (st : WalkState) :
    ∃ st1, callback cfg node st = .ok (node, st1) ∧ st1.needsFix = st.needsFix ∧
      ((∃ r, st1.reports = st.reports ++ [r]) ↔
        (node.type = .function ∧ HUE_FUNCS.contains (toLowerCase node.value) = true ∧
          ∃ i hue, findHue node = some (i, hue) ∧
            cfg.isStandardSyntaxValue hue.value = true ∧
            (isDegree hue.value = true ∨ isNumber hue.value = true) ∧
            ((cfg.primary = "angle".toList ∧ isNumber hue.value = true) ∨
              (cfg.primary = "number".toList ∧ isDegree hue.value = true)))) ∧
      ((∀ r, st1.reports ≠ st.reports ++ [r]) → st1 = st) := by
  rw [callback_eq]
  cases hc : hueChange cfg node with
  | none =>
    refine ⟨st, rfl, rfl, ?_, fun _ => rfl⟩
    constructor
    · rintro ⟨r, hr⟩
      have := congrArg List.length hr
      simp at this
    · rintro ⟨ht, hr, i, hue, hf, h1, h2, h3⟩
      have : hueChange cfg node = some (i, hue) :=
        (hueChange_eq_some_iff cfg node i hue).2
          ⟨ht, hr, hf, (nonConforming_iff cfg _ hp).2 ⟨h1, h2, h3⟩⟩
      rw [hc] at this
      cases this
  | some p =>
    obtain ⟨i, hue⟩ := p
    simp only [hfix, Bool.false_eq_true, if_false]
    refine ⟨_, rfl, rfl, ?_, fun h => absurd rfl (h _)⟩
    constructor
    · intro _
      obtain ⟨ht, hr, hf, hn⟩ := (hueChange_eq_some_iff cfg node i hue).1 hc
      obtain ⟨h1, h2, h3⟩ := (nonConforming_iff cfg _ hp).1 hn
      exact ⟨ht, hr, i, hue, hf, h1, h2, h3⟩
    · intro _
      exact ⟨_, rfl⟩

/-- C3, at a concrete input: `hsl(200 50% 50%)` under `angle` in check mode gets one
diagnostic, for the bare number `200`. -/
theorem check_mode_diagnostic_iff_witness :
    ∃ st1, callback (plainConfig "angle".toList false)
        (call3 "hsl".toList "200".toList "50%".toList "50%".toList) ⟨false, []⟩ =
          .ok (call3 "hsl".toList "200".toList "50%".toList "50%".toList, st1) ∧
      ∃ r, st1.reports = [] ++ [r] := by
  obtain ⟨st1, h1, _, h3, _⟩ := check_mode_diagnostic_iff (plainConfig "angle".toList false) rfl
    (Or.inl rfl) (call3 "hsl".toList "200".toList "50%".toList "50%".toList) ⟨false, []⟩
  exact ⟨st1, h1, h3.2 ⟨rfl, by decide, 0, wordNode "200".toList 4, rfl, rfl,
    Or.inr (by decide), Or.inl ⟨rfl, by decide⟩⟩⟩

/-- C4: policy exclusivity.  The converted text of a bare number is a degree value, and the
converted text of a degree value is a bare number.  Hence, after the callback in fix mode,
the hue of a recognized call that was standard syntax and eligible is a degree value under
`angle` and a bare number under `number`. -/
theorem policy_exclusivity :
    (∀ v, isNumber v = true → isDegree (asDegree v) = true) ∧
    (∀ v, isDegree v = true → ∃ n, asNumber v = .ok n ∧ isNumber n = true) ∧
    (∀ (cfg : Config) node st i hue, cfg.fix = true → node.type = .function →
      HUE_FUNCS.contains (toLowerCase node.value) = true → findHue node = some (i, hue) →
      cfg.isStandardSyntaxValue hue.value = true →
      (isDegree hue.value = true ∨ isNumber hue.value = true) →
      ∃ node1 st1 hue1, callback cfg node st = .ok (node1, st1) ∧
        findHue node1 = some (i, hue1) ∧
        (cfg.primary = "angle".toList → isDegree hue1.value = true) ∧
        (cfg.primary = "number".toList → isNumber hue1.value = true)) := by
  refine ⟨fun v h => isDegree_asDegree h, ?_, ?_⟩
  · intro v h
    obtain ⟨n, u, _, _, h3, h4⟩ := isNumber_asNumber h
    exact ⟨n, h3, h4⟩
  · intro cfg node st i hue hfix ht hr hf hstd hel
    rw [callback_eq]
    cases hc : hueChange cfg node with
    | none =>
      refine ⟨node, st, hue, rfl, hf, ?_, ?_⟩
      · intro hp
        cases hd : isDegree hue.value with
        | true => rfl
        | false =>
          have hn : isNumber hue.value = true := by
            rcases hel with h | h
            · rw [hd] at h; cases h
            · exact h
          have := (hueChange_eq_some_iff cfg node i hue).2
            ⟨ht, hr, hf, nonConforming_angle hp hstd hn⟩
          rw [hc] at this
          cases this
      · intro hp
        cases hn : isNumber hue.value with
        | true => rfl
        | false =>
          have hd : isDegree hue.value = true := by
            rcases hel with h | h
            · exact h
            · rw [hn] at h; cases h
          have := (hueChange_eq_some_iff cfg node i hue).2
            ⟨ht, hr, hf, nonConforming_number hp hstd hd⟩
          rw [hc] at this
          cases this
    | some p =>
      obtain ⟨i2, hue2⟩ := p
      obtain ⟨_, _, hf2, hn⟩ := (hueChange_eq_some_iff cfg node i2 hue2).1 hc
      rw [hf] at hf2
      simp only [Option.some.injEq, Prod.mk.injEq] at hf2
      obtain ⟨rfl, rfl⟩ := hf2
      simp only [hfix, if_true]
      refine ⟨_, _, _, rfl, findHue_setHueValue _ hf, ?_, ?_⟩
      · intro hp
        have hnum := ((nonConforming_iff cfg _ (Or.inl hp)).1 hn).2.2
        rcases hnum with ⟨_, h⟩ | ⟨h, _⟩
        · simp only [setValue_value, convertText, hp, if_true]
          exact isDegree_asDegree h
        · rw [hp] at h; exact absurd h (by decide)
      · intro hp
        have hdeg := ((nonConforming_iff cfg _ (Or.inr hp)).1 hn).2.2
        rcases hdeg with ⟨h, _⟩ | ⟨_, h⟩
        · rw [hp] at h; exact absurd h (by decide)
        · have hne : cfg.primary ≠ "angle".toList := by rw [hp]; decide
          obtain ⟨n, u, _, _, h3, h4⟩ := isNumber_asNumber h
          have h1 := asNumber_of_eligible (v := hue.value) (by simp [h])
          rw [h3] at h1
          simp only [setValue_value, convertText, hne, if_false, ← Except.ok.inj h1]
          exact h4

/-- C4, at concrete inputs: `200` becomes the degree value `200deg`, and `200deg` becomes
the bare number `200`. -/
theorem policy_exclusivity_witness :
    (isNumber "200".toList = true ∧ isDegree (asDegree "200".toList) = true) ∧
    (isDegree "200deg".toList = true ∧
      ∃ n, asNumber "200deg".toList = .ok n ∧ isNumber n = true) :=
  ⟨⟨by decide, policy_exclusivity.1 _ (by decide)⟩,
   ⟨by decide, policy_exclusivity.2.1 _ (by decide)⟩⟩

/-- C5: the fixer is idempotent.  For either policy the walk in fix mode returns a tree, and
a second walk in fix mode over that tree changes nothing: it returns the same tree, so the
same node texts and the same serialized value, and leaves the state of the walk (the flag
`needsFix`, the diagnostics) as it found it. -/
theorem fix_idempotent (cfg : Config) (hfix : cfg.fix = true)
    (hp : cfg.primary = "angle".toList ∨ cfg.primary = "number".toList)
    (nodes : List Node) (st : WalkState) :
    ∃ nodes1 st1, walkNodes cfg nodes st = .ok (nodes1, st1) ∧
      (∀ st2, walkNodes cfg nodes1 st2 = .ok (nodes1, st2)) ∧
      (∀ st2, (walkNodes cfg nodes1 st2).map (fun r => stringify r.1) =
        .ok (stringify nodes1)) := by
  have key := walkNodes_rel cfg
    (fun _ _ l1 _ => ∀ st2, walkNodes cfg l1 st2 = .ok (l1, st2))
    (fun _ st2 => walkNodes_nil cfg st2) ?_ nodes st
  · obtain ⟨nodes1, st1, hw, hP⟩ := key
    exact ⟨nodes1, st1, hw, hP, fun st2 => by rw [hP st2]; rfl⟩
  · intro node rest st kids st2 rest1 st3 hfun hleaf _ hrest s
    have hnone : hueChange cfg ((stepNode cfg node).setNodes kids) = none := by
      apply hueChange_none_of_head cfg (stepNode cfg node) _ (by simp) _
        (hueChange_stepNode cfg hfix hp node)
      by_cases ht : node.type = .function
      · obtain ⟨k2, s2, hw2, hh⟩ := walkNodes_heads cfg (stepNode cfg node).nodes
          (stepState cfg node st)
        rw [(hfun ht).1] at hw2
        simp only [Except.ok.injEq, Prod.mk.injEq] at hw2
        rw [hw2.1]
        simpa using hh
      · rw [(hleaf ht).1]
        simp
    have hcb : callback cfg ((stepNode cfg node).setNodes kids) s =
        .ok ((stepNode cfg node).setNodes kids, s) := by
      rw [callback_eq, hnone]
    rw [walkNodes_cons cfg _ rest1 s _ _ hcb]
    by_cases ht : node.type = .function
    · simp only [setNodes_type, stepNode_type, ht, if_true, setNodes_nodes, (hfun ht).2 s,
        hrest s, setNodes_setNodes]
    · simp only [setNodes_type, stepNode_type, ht, if_false, setNodes_nodes, hrest s,
        setNodes_setNodes]

/-- C5, at a concrete input: `hsl(200 50% 50%)` under `angle`. -/
theorem fix_idempotent_witness :
    (plainConfig "angle".toList true).fix = true ∧
    ∃ nodes1 st1, walkNodes (plainConfig "angle".toList true)
        [call3 "hsl".toList "200".toList "50%".toList "50%".toList] ⟨false, []⟩ =
          .ok (nodes1, st1) ∧
      (∀ st2, walkNodes (plainConfig "angle".toList true) nodes1 st2 = .ok (nodes1, st2)) ∧
      (∀ st2, (walkNodes (plainConfig "angle".toList true) nodes1 st2).map
        (fun r => stringify r.1) = .ok (stringify nodes1)) :=
  ⟨rfl, fix_idempotent (plainConfig "angle".toList true) rfl (Or.inl rfl) _ _⟩

/-- C6: the fix is local.  The walk returns a tree of the same shape: at every path there is
a node after the walk exactly when there was one before, with the same type, source range
and delimiters.  The text of a node differs from its text before the walk only in fix mode
and only if the node is the one `findHue` located as the hue of a recognized call, its
parent; every other node (other arguments, separators, whitespace, comments, nested
functions, other calls) keeps its type and its text.  So, once the texts of the located
hues are blanked, the tree after the walk is the tree before it and the two serialize to
the same string: the serialized value differs from the original only inside the hue
arguments.  When the walk fixed nothing (`needsFix` is not set) the tree, and so its
serialization, is the one it was given. -/
theorem fix_is_local (cfg : Config) (nodes : List Node) (st : WalkState) :
    ∃ nodes1 st1, walkNodes cfg nodes st = .ok (nodes1, st1) ∧
      (∀ path,
        (nodeAt nodes1 path).map Node.frame = (nodeAt nodes path).map Node.frame ∧
        ∀ n n1, nodeAt nodes path = some n → nodeAt nodes1 path = some n1 →
          n1.type = n.type ∧
          (n1.value ≠ n.value →
            cfg.fix = true ∧
            ∃ parentPath i parent hue, path = parentPath ++ [i] ∧
              nodeAt nodes parentPath = some parent ∧ parent.type = .function ∧
              HUE_FUNCS.contains (toLowerCase parent.value) = true ∧
              findHue parent = some (i, hue))) ∧
      blankHues nodes1 = blankHues nodes ∧
      stringify (blankHues nodes1) = stringify (blankHues nodes) ∧
      (st1.needsFix = false → nodes1 = nodes ∧ stringify nodes1 = stringify nodes) := by
  obtain ⟨nodes1, st1, hw, _, hp⟩ := walkNodes_local cfg nodes st
  obtain ⟨nodes2, st2, hw2, hu, _⟩ := walkNodes_unchanged cfg nodes st
  obtain ⟨nodes3, st3, hw3, _, hb⟩ := walkNodes_blank cfg nodes st
  rw [hw] at hw2 hw3
  simp only [Except.ok.injEq, Prod.mk.injEq] at hw2 hw3
  obtain ⟨rfl, rfl⟩ := hw2
  obtain ⟨rfl, _⟩ := hw3
  refine ⟨nodes1, st1, hw, ?_, hb none 0, by rw [blankHues, blankHues, hb none 0],
    fun h => ⟨(hu h).1, by rw [(hu h).1]⟩⟩
  intro path
  obtain ⟨hframe, hval⟩ := hp path
  refine ⟨hframe, fun n n1 hn hn1 => ⟨?_, hval n n1 hn hn1⟩⟩
  rw [hn, hn1] at hframe
  simp only [Option.map_some', Option.some.injEq] at hframe
  have := congrArg Node.type hframe
  simpa [Node.frame] using this

/-- C6, at a concrete input: in `hsl(200 50% 50%)` under `angle` the text of the first child
of the call changes, and that child is the located hue of the call. -/
theorem fix_is_local_witness :
    (nodeAt [call3 "hsl".toList "200".toList "50%".toList "50%".toList] [0, 0]).map
      Node.value = some "200".toList ∧
    (plainConfig "angle".toList true).fix = true ∧
    ∃ parentPath i parent hue, [0, 0] = parentPath ++ [i] ∧
      nodeAt [call3 "hsl".toList "200".toList "50%".toList "50%".toList] parentPath =
        some parent ∧ parent.type = .function ∧
      HUE_FUNCS.contains (toLowerCase parent.value) = true ∧
      findHue parent = some (i, hue) := by
  obtain ⟨nodes1, st1, hw, hp, _⟩ := fix_is_local (plainConfig "angle".toList true)
    [call3 "hsl".toList "200".toList "50%".toList "50%".toList] ⟨false, []⟩
  rw [walkNodes_hsl200] at hw
  simp only [Except.ok.injEq, Prod.mk.injEq] at hw
  obtain ⟨rfl, _⟩ := hw
  exact ⟨rfl, ((hp [0, 0]).2 (wordNode "200".toList 4)
    ((wordNode "200".toList 4).setValue "200deg".toList) rfl rfl).2 (by decide)⟩

/-- C7: a hue that is not eligible is never reported and never modified, whatever the
policy and the mode.  When the text of the located hue is not standard syntax, or is not
parsable as a dimension, or carries a unit that is neither empty nor `deg` (in any letter
case), the callback returns the node and the state of the walk as they were, and after the
walk of the call its hue has the same type and the same text. -/
theorem ineligible_hue_untouched (cfg : Config) (node : Node) (st : WalkState) (i : Nat)
    (hue : Node) (hf : findHue node = some (i, hue))
    (h : cfg.isStandardSyntaxValue hue.value = false ∨ unit hue.value = none ∨
      ∃ d, unit hue.value = some d ∧ d.unit ≠ [] ∧ toLowerCase d.unit ≠ "deg".toList) :
    callback cfg node st = .ok (node, st) ∧
    ∃ node1 st1 hue1, walkNodes cfg [node] st = .ok ([node1], st1) ∧
      findHue node1 = some (i, hue1) ∧ hue1.value = hue.value ∧ hue1.type = hue.type := by
  have hn : nonConforming cfg hue.value = false := by
    rcases h with h | h | ⟨d, hd, h1, h2⟩
    · simp [nonConforming, h]
    · simp [nonConforming, isDegree, isNumber, h]
    · have e1 : isDegree hue.value = false := by
        unfold isDegree
        rw [hd]
        simpa using h2
      have e2 : isNumber hue.value = false := by
        unfold isNumber
        rw [hd]
        simpa using h1
      simp [nonConforming, e1, e2]
  have hc : hueChange cfg node = none :=
    hueChange_eq_none cfg node (fun i2 hue2 hf2 hcon => by
      rw [hf] at hf2
      cases hf2
      rw [hn] at hcon
      exact absurd hcon.2.2 (by decide))
  refine ⟨by rw [callback_eq, hc], ?_⟩
  obtain ⟨kids, st1, hw, hk⟩ := walkNodes_singleton cfg node st
  rw [(stepNode_none hc).1] at hw hk
  have h3 := findHue_head node (node.setNodes kids) (by simp) (by simpa using hk)
  rw [hf] at h3
  cases h4 : findHue (node.setNodes kids) with
  | none => rw [h4] at h3; cases h3
  | some p =>
    rw [h4] at h3
    simp only [Option.map_some', Option.some.injEq, Prod.mk.injEq] at h3
    exact ⟨_, st1, p.2, hw, by rw [h4, ← h3.1], value_eq_of_head h3.2, type_eq_of_head h3.2⟩

/-- C7, at concrete inputs: `hwb(200grad 50% 50%)`, and likewise `rad` and `turn`, and
`hsl($hue 50% 50%)` with a classifier that rejects `$hue`, under either policy and in
either mode. -/
theorem ineligible_hue_untouched_witness :
    (∀ st, callback (plainConfig "angle".toList true)
        (call3 "hwb".toList "200grad".toList "50%".toList "50%".toList) st =
      .ok (call3 "hwb".toList "200grad".toList "50%".toList "50%".toList, st)) ∧
    (∀ st, callback (plainConfig "number".toList false)
        (call3 "hwb".toList "200rad".toList "50%".toList "50%".toList) st =
      .ok (call3 "hwb".toList "200rad".toList "50%".toList "50%".toList, st)) ∧
    (∀ st, callback (plainConfig "number".toList true)
        (call3 "hwb".toList "0.5turn".toList "50%".toList "50%".toList) st =
      .ok (call3 "hwb".toList "0.5turn".toList "50%".toList "50%".toList, st)) ∧
    (∀ st, callback (scssConfig "angle".toList true)
        (call3 "hsl".toList "$hue".toList "50%".toList "50%".toList) st =
      .ok (call3 "hsl".toList "$hue".toList "50%".toList "50%".toList, st)) ∧
    (∀ st, callback (plainConfig "angle".toList false)
        (call3 "hsl".toList "$hue".toList "50%".toList "50%".toList) st =
      .ok (call3 "hsl".toList "$hue".toList "50%".toList "50%".toList, st)) :=
  ⟨fun st => (ineligible_hue_untouched (plainConfig "angle".toList true)
      (call3 "hwb".toList "200grad".toList "50%".toList "50%".toList) st 0
      (wordNode "200grad".toList 4) rfl
      (Or.inr (Or.inr ⟨⟨"200".toList, "grad".toList⟩, by decide, by decide, by decide⟩))).1,
   fun st => (ineligible_hue_untouched (plainConfig "number".toList false)
      (call3 "hwb".toList "200rad".toList "50%".toList "50%".toList) st 0
      (wordNode "200rad".toList 4) rfl
      (Or.inr (Or.inr ⟨⟨"200".toList, "rad".toList⟩, by decide, by decide, by decide⟩))).1,
   fun st => (ineligible_hue_untouched (plainConfig "number".toList true)
      (call3 "hwb".toList "0.5turn".toList "50%".toList "50%".toList) st 0
      (wordNode "0.5turn".toList 4) rfl
      (Or.inr (Or.inr ⟨⟨"0.5".toList, "turn".toList⟩, by decide, by decide, by decide⟩))).1,
   fun st => (ineligible_hue_untouched (scssConfig "angle".toList true)
      (call3 "hsl".toList "$hue".toList "50%".toList "50%".toList) st 0
      (wordNode "$hue".toList 4) rfl (Or.inl rfl)).1,
   fun st => (ineligible_hue_untouched (plainConfig "angle".toList false)
      (call3 "hsl".toList "$hue".toList "50%".toList "50%".toList) st 0
      (wordNode "$hue".toList 4) rfl (Or.inr (Or.inl (by decide)))).1⟩

/-- C8: a recognized call with too few arguments is skipped.  For `hsl`, `hsla` and `hwb`
`findHue` finds nothing exactly when the call has no child of type `word` or `function`, for
`lch` and `oklch` exactly when it has fewer than three; and when `findHue` finds nothing the
callback returns the node and the state of the walk as they were: no diagnostic, no
change, no error.  So it is for `hsl()` and for `lch(50% 40)`. -/
theorem missing_hue_skipped (node : Node) :
    (HUE_FIRST_ARG_FUNCS.contains (toLowerCase node.value) = true →
      (findHue node = none ↔ (node.nodes.filter isArg).length = 0)) ∧
    (HUE_THIRD_ARG_FUNCS.contains (toLowerCase node.value) = true →
      (findHue node = none ↔ (node.nodes.filter isArg).length < 3)) ∧
    (findHue node = none → ∀ cfg st, callback cfg node st = .ok (node, st)) ∧
    (∀ cfg st, callback cfg (call0 "hsl".toList) st = .ok (call0 "hsl".toList, st)) ∧
    (∀ cfg st, callback cfg (call2 "lch".toList "50%".toList "40".toList) st =
      .ok (call2 "lch".toList "50%".toList "40".toList, st)) := by
  have hskip : ∀ n : Node, findHue n = none → ∀ cfg st, callback cfg n st = .ok (n, st) := by
    intro n hn cfg st
    rw [callback_eq, hueChange_eq_none cfg n (fun i hue hf _ => by rw [hn] at hf; cases hf)]
  refine ⟨?_, ?_, hskip node, hskip _ rfl, hskip _ rfl⟩
  · intro h1
    unfold findHue
    simp only [h1, if_true, List.enum, args_getElem?, nthArg_eq_none_iff]
    omega
  · intro h3
    have h1 : HUE_FIRST_ARG_FUNCS.contains (toLowerCase node.value) = false := by
      simp only [HUE_THIRD_ARG_FUNCS, List.contains_cons, List.contains_nil, Bool.or_false,
        Bool.or_eq_true, beq_iff_eq] at h3
      rcases h3 with h | h <;> rw [h] <;> decide
    unfold findHue
    simp only [h1, h3, if_true, Bool.false_eq_true, if_false, List.enum, args_getElem?,
      nthArg_eq_none_iff]
    omega

/-- C8, at concrete inputs: `hsl()` has no argument and `lch(50% 40)` has two. -/
theorem missing_hue_skipped_witness :
    findHue (call0 "hsl".toList) = none ∧
    findHue (call2 "lch".toList "50%".toList "40".toList) = none :=
  ⟨((missing_hue_skipped (call0 "hsl".toList)).1 (by decide)).2 (by decide),
   ((missing_hue_skipped (call2 "lch".toList "50%".toList "40".toList)).2.1 (by decide)).2
     (by decide)⟩

/-- C9, as stated, fails: the bare number `200` carries no unit (its unit is the empty
string), and `asNumber` returns it instead of throwing. -/
theorem asNumber_bare_number_returns :
    isNumber "200".toList = true ∧
    unit "200".toList = some { number := "200".toList, unit := [] } ∧
    asNumber "200".toList = .ok "200".toList ∧
    ¬ ∃ err, asNumber "200".toList = .error err := by
  refine ⟨by decide, by decide, rfl, ?_⟩
  rintro ⟨err, h⟩
  have h2 : asNumber "200".toList = .ok "200".toList := rfl
  rw [h2] at h
  cases h

/-- C9, amended: `asNumber` returns the numeric prefix alone for every text that
`valueParser.unit` splits, the unit suffix stripped; for a bare number, whose unit is empty,
that is the whole text.  It throws, a `TypeError`, exactly when the text is no dimension at
all (`valueParser.unit` finds nothing), as for `abc` and for the empty text. -/
theorem asNumber_returns_number_part (v : Str) :
    (∀ d, unit v = some d → asNumber v = .ok d.number ∧ d.number ++ d.unit = v) ∧
    (isNumber v = true → asNumber v = .ok v) ∧
    ((∃ err, asNumber v = .error err) ↔ unit v = none) ∧
    (unit v = none → asNumber v =
      .error (.typeError ("The \"".toList ++ v ++ "\" value must have a unit".toList))) ∧
    asNumber "200deg".toList = .ok "200".toList ∧
    asNumber "-1.5e3DEG".toList = .ok "-1.5e3".toList ∧
    (∃ err, asNumber "abc".toList = .error err) ∧
    (∃ err, asNumber [] = .error err) := by
  refine ⟨?_, ?_, ?_, ?_, rfl, rfl, ⟨_, rfl⟩, ⟨_, rfl⟩⟩
  · intro d hd
    exact ⟨by simp [asNumber, hd], unit_split hd⟩
  · intro hn
    rw [isNumber_iff] at hn
    simp [asNumber, hn]
  · constructor
    · rintro ⟨err, he⟩
      cases hu : unit v with
      | none => rfl
      | some d => simp [asNumber, hu] at he
    · intro hu
      exact ⟨_, by unfold asNumber; rw [hu]⟩
  · intro hu
    simp only [asNumber, hu]

/-- C9 amended, at concrete inputs: the degree value `30deg` and the bare number `200`. -/
theorem asNumber_returns_number_part_witness :
    asNumber "30deg".toList = .ok "30".toList ∧ asNumber "200".toList = .ok "200".toList :=
  ⟨((asNumber_returns_number_part "30deg".toList).1
      ⟨"30".toList, "deg".toList⟩ (by decide)).1,
   (asNumber_returns_number_part "200".toList).2.1 (by decide)⟩

/-- C10: the error branch of `asNumber` is unreachable from the rule.  The callback and the
walk always return a value, on every tree, for every policy and in either mode: no
`TypeError` ends the walk.  With a valid policy, a text that has passed the guards of the
callback and goes to `asNumber` (the policy is not `angle`) is a degree value, and
`asNumber` returns its numeric prefix. -/
theorem asNumber_error_unreachable (cfg : Config) :
    (∀ nodes st, ∃ nodes1 st1, walkNodes cfg nodes st = .ok (nodes1, st1)) ∧
    (∀ node st, ∃ node1 st1, callback cfg node st = .ok (node1, st1)) ∧
    (cfg.primary = "angle".toList ∨ cfg.primary = "number".toList →
      ∀ value, (!isDegree value && !isNumber value) = false →
        ¬ (cfg.primary = "angle".toList ∧ isDegree value = true) →
        ¬ (cfg.primary = "number".toList ∧ isNumber value = true) →
        cfg.primary ≠ "angle".toList →
        isDegree value = true ∧ ∃ n, asNumber value = .ok n ∧ isNumber n = true) := by
  refine ⟨?_, fun node st => ⟨_, _, callback_eq_step cfg node st⟩, ?_⟩
  · intro nodes st
    obtain ⟨nodes1, st1, hw, _⟩ := walkNodes_heads cfg nodes st
    exact ⟨nodes1, st1, hw⟩
  · intro hp value h1 _ h3 h4
    have hnum : cfg.primary = "number".toList := by
      rcases hp with hp | hp
      · exact absurd hp h4
      · exact hp
    have hd : isDegree value = true := by
      cases hd : isDegree value with
      | true => rfl
      | false =>
        cases hn : isNumber value with
        | true => exact absurd ⟨hnum, hn⟩ h3
        | false => simp [hd, hn] at h1
    obtain ⟨n, _, _, _, ha, hn⟩ := isNumber_asNumber hd
    exact ⟨hd, n, ha, hn⟩

/-- C10, at a concrete input: the walk of `hsl(200deg 50% 50%)` under `number` returns, and
`200deg`, which goes to `asNumber`, is a degree value. -/
theorem asNumber_error_unreachable_witness :
    (∃ nodes1 st1, walkNodes (plainConfig "number".toList true)
      [call3 "hsl".toList "200deg".toList "50%".toList "50%".toList] ⟨false, []⟩ =
        .ok (nodes1, st1)) ∧
    isDegree "200deg".toList = true ∧
    ∃ n, asNumber "200deg".toList = .ok n ∧ isNumber n = true :=
  ⟨(asNumber_error_unreachable (plainConfig "number".toList true)).1 _ _,
   (asNumber_error_unreachable (plainConfig "number".toList true)).2.2 (Or.inr rfl)
     "200deg".toList (by decide) (by decide) (by decide) (by decide)⟩

/-! ## The nodes the walk visits -/

theorem visitedNode_eq (n : Node) :
    visitedNode n = n :: (if n.type = .function then visitedList n.nodes else []) := by
  cases n
  simp [visitedNode, Node.type, Node.nodes]

theorem visitedList_cons (n : Node) (ns : List Node) :
    visitedList (n :: ns) = visitedNode n ++ visitedList ns := by
  simp [visitedList]

theorem huesToChange_nil (cfg : Config) : huesToChange cfg [] = [] := by
  simp [huesToChange, visitedList]

theorem huesToChange_cons (cfg : Config) (n : Node) (ns : List Node) :
    huesToChange cfg (n :: ns) =
      ((hueChange cfg n).map Prod.snd).toList ++
        (if n.type = .function then huesToChange cfg n.nodes else []) ++
        huesToChange cfg ns := by
  simp only [huesToChange, visitedList_cons, visitedNode_eq, List.filterMap_append,
    List.filterMap_cons, List.cons_append]
  by_cases ht : n.type = .function <;> cases hc : hueChange cfg n <;> simp [ht]

theorem hueChange_none_of_likeNumber (cfg : Config) {m : Node}
    (h : likeNumber m.value = true) : hueChange cfg m = none := by
  apply hueChange_eq_none
  intro i hue _ hcon
  have hr : recognized m = false := not_recognized_of_likeNumber h
  rw [hr] at hcon
  exact absurd hcon.2.1 (by decide)

/-- Replacing a number-like text of a node by another number-like text does not change the
hues the callback acts on. -/
theorem huesToChange_modify (cfg : Config) (f : Str) (hf : likeNumber f = true)
    (l : List Node) (k : Nat) (hm : ∀ m, l[k]? = some m → likeNumber m.value = true) :
    huesToChange cfg (l.modify (Node.setValue f) k) = huesToChange cfg l := by
  induction l generalizing k with
  | nil => simp
  | cons m ns ih =>
    cases k with
    | zero =>
      have h1 : likeNumber m.value = true := hm m (by simp)
      simp only [List.modify_zero_cons, huesToChange_cons, setValue_type, setValue_nodes,
        hueChange_none_of_likeNumber cfg h1,
        hueChange_none_of_likeNumber cfg (m := m.setValue f) (by simpa using hf)]
    | succ k =>
      rw [List.modify_succ_cons, huesToChange_cons, huesToChange_cons,
        ih k (fun m h => hm m (by simpa using h))]

theorem huesToChange_stepNode (cfg : Config) (node : Node) :
    huesToChange cfg (stepNode cfg node).nodes = huesToChange cfg node.nodes := by
  rcases stepNode_nodes_cases cfg node with h | ⟨i0, hue, _, hc, h⟩
  · rw [h]
  · obtain ⟨_, _, hf, hnc⟩ := (hueChange_eq_some_iff cfg node i0 hue).1 hc
    rw [h]
    exact huesToChange_modify cfg _ (likeNumber_convert hnc) node.nodes i0 (fun m hm => by
      rw [findHue_index hf] at hm
      cases hm
      exact likeNumber_of_nonConforming hnc)

/-- The walk in one equation for its state: in fix mode it sets `needsFix` when there is a
hue to act on and reports nothing; in check mode it returns the tree it was given, leaves
`needsFix` alone and reports one diagnostic for each hue to act on, in the order of the
walk. -/
theorem walkNodes_summary (cfg : Config) (nodes : List Node) (st : WalkState) :
    ∃ nodes1 st1, walkNodes cfg nodes st = .ok (nodes1, st1) ∧
      (st1.needsFix = (st.needsFix || (cfg.fix && !(huesToChange cfg nodes).isEmpty)) ∧
        st1.reports = st.reports ++
          (if cfg.fix = true then [] else (huesToChange cfg nodes).map (hueReport cfg))) := by
  refine walkNodes_rel cfg
    (fun l st l1 st1 =>
      st1.needsFix = (st.needsFix || (cfg.fix && !(huesToChange cfg l).isEmpty)) ∧
      st1.reports = st.reports ++
        (if cfg.fix = true then [] else (huesToChange cfg l).map (hueReport cfg)))
    (fun st => by simp [huesToChange_nil]) ?_ nodes st
  intro node rest st kids st2 rest1 st3 hfun hleaf _ hrest
  have hk : st2.needsFix = ((stepState cfg node st).needsFix ||
        (cfg.fix && !(if node.type = .function then huesToChange cfg node.nodes
          else []).isEmpty)) ∧
      st2.reports = (stepState cfg node st).reports ++
        (if cfg.fix = true then [] else
          (if node.type = .function then huesToChange cfg node.nodes else []).map
            (hueReport cfg)) := by
    by_cases ht : node.type = .function
    · have := (hfun ht).2
      simp only [huesToChange_stepNode] at this
      simpa [ht] using this
    · rw [(hleaf ht).2]
      simp [ht]
  obtain ⟨hk1, hk2⟩ := hk
  obtain ⟨hr1, hr2⟩ := hrest
  rw [huesToChange_cons]
  have hs : (stepState cfg node st).needsFix =
        (st.needsFix || (cfg.fix && !((hueChange cfg node).map Prod.snd).toList.isEmpty)) ∧
      (stepState cfg node st).reports = st.reports ++
        (if cfg.fix = true then [] else
          (((hueChange cfg node).map Prod.snd).toList).map (hueReport cfg)) := by
    unfold stepState
    cases hc : hueChange cfg node with
    | none => simp
    | some p =>
      by_cases hfix : cfg.fix = true
      · simp [hfix]
      · simp [hfix]
  obtain ⟨hs1, hs2⟩ := hs
  constructor
  · rw [hr1, hk1, hs1]
    generalize ((hueChange cfg node).map Prod.snd).toList = l1
    generalize (if node.type = .function then huesToChange cfg node.nodes else []) = l2
    generalize huesToChange cfg rest = l3
    cases l1 <;> cases l2 <;> cases l3 <;> cases st.needsFix <;> cases cfg.fix <;> rfl
  · rw [hr2, hk2, hs2]
    by_cases hfix : cfg.fix = true
    · simp [hfix]
    · simp [hfix]

/-- The walk with all that is known of its result: the state as in `walkNodes_summary`, and
the tree unchanged in check mode and when `needsFix` is left unset. -/
theorem walkNodes_full (cfg : Config) (nodes : List Node) (st : WalkState) :
    ∃ nodes1 st1, walkNodes cfg nodes st = .ok (nodes1, st1) ∧
      st1.needsFix = (st.needsFix || (cfg.fix && !(huesToChange cfg nodes).isEmpty)) ∧
      st1.reports = st.reports ++
        (if cfg.fix = true then [] else (huesToChange cfg nodes).map (hueReport cfg)) ∧
      (cfg.fix = false → nodes1 = nodes) ∧
      (st1.needsFix = false → nodes1 = nodes) := by
  obtain ⟨nodes1, st1, hw, h1, h2⟩ := walkNodes_summary cfg nodes st
  obtain ⟨nodes2, st2, hw2, h3, h4⟩ := walkNodes_unchanged cfg nodes st
  rw [hw] at hw2
  simp only [Except.ok.injEq, Prod.mk.injEq] at hw2
  obtain ⟨rfl, rfl⟩ := hw2
  exact ⟨nodes1, st1, hw, h1, h2, h4, fun h => (h3 h).1⟩

/-! ## The declaration level -/

theorem visitDecl_skip {D : Type} (host : Host D) (primary : Str) (fix : Bool) (decl : D)
    (h : HAS_HUE_COLOR_FUNC (host.declValue decl) = false) :
    visitDecl host primary fix decl =
      .ok { decl := decl, parsed := [], setCalls := [], reports := [] } := by
  simp [visitDecl, h]

theorem visitDecl_walk {D : Type} (host : Host D) (primary : Str) (fix : Bool) (decl : D)
    (h : HAS_HUE_COLOR_FUNC (host.declValue decl) = true) (nodes1 : List Node)
    (st1 : WalkState)
    (hw : walkNodes (host.config primary fix decl)
      (host.valueParser (host.getDeclarationValue decl)) { needsFix := false, reports := [] } =
        .ok (nodes1, st1)) :
    visitDecl host primary fix decl =
      .ok (if st1.needsFix = true then
          { decl := host.setDeclarationValue decl (stringify nodes1),
            parsed := [host.getDeclarationValue decl], setCalls := [stringify nodes1],
            reports := st1.reports }
        else
          { decl := decl, parsed := [host.getDeclarationValue decl], setCalls := [],
            reports := st1.reports }) := by
  simp only [visitDecl, h, Bool.not_true, Bool.false_eq_true, if_false, hw]
  split <;> rfl

/-- The callback of `walkDecls` always returns. -/
theorem visitDecl_ok {D : Type} (host : Host D) (primary : Str) (fix : Bool) (decl : D) :
    ∃ out, visitDecl host primary fix decl = .ok out := by
  cases h : HAS_HUE_COLOR_FUNC (host.declValue decl) with
  | false => exact ⟨_, visitDecl_skip host primary fix decl h⟩
  | true =>
    obtain ⟨nodes1, st1, hw, _⟩ := walkNodes_heads (host.config primary fix decl)
      (host.valueParser (host.getDeclarationValue decl)) { needsFix := false, reports := [] }
    exact ⟨_, visitDecl_walk host primary fix decl h nodes1 st1 hw⟩

theorem walkDecls_nil {D : Type} (host : Host D) (primary : Str) (fix : Bool) :
    walkDecls host primary fix [] =
      .ok { root := [], parsed := [], setCalls := [], reports := [] } := rfl

theorem walkDecls_cons {D : Type} (host : Host D) (primary : Str) (fix : Bool) (decl : D)
    (rest : List D) (out : DeclOutcome D) (more : RuleOutcome D)
    (h1 : visitDecl host primary fix decl = .ok out)
    (h2 : walkDecls host primary fix rest = .ok more) :
    walkDecls host primary fix (decl :: rest) =
      .ok { root := out.decl :: more.root, parsed := out.parsed ++ more.parsed,
            setCalls := out.setCalls ++ more.setCalls,
            reports := out.reports ++ more.reports } := by
  simp only [walkDecls, h1, h2]

/-- What holds of every declaration's outcome holds of the outcome of `walkDecls`, which
always returns: a property `P` of (declarations, outcome) that holds for no declaration and
is passed on by one more declaration. -/
theorem walkDecls_rel {D : Type} (host : Host D) (primary : Str) (fix : Bool)
    (P : List D → RuleOutcome D → Prop)
    (hnil : P [] { root := [], parsed := [], setCalls := [], reports := [] })
    (hcons : ∀ decl rest out more, visitDecl host primary fix decl = .ok out →
      walkDecls host primary fix rest = .ok more → P rest more →
      P (decl :: rest) (RuleOutcome.mk (out.decl :: more.root) (out.parsed ++ more.parsed)
        (out.setCalls ++ more.setCalls) (out.reports ++ more.reports))) :
    ∀ root, ∃ r, walkDecls host primary fix root = .ok r ∧ P root r := by
  intro root
  induction root with
  | nil => exact ⟨_, rfl, hnil⟩
  | cons decl rest ih =>
    obtain ⟨more, hm, hp⟩ := ih
    obtain ⟨out, ho⟩ := visitDecl_ok host primary fix decl
    exact ⟨_, walkDecls_cons host primary fix decl rest out more ho hm,
      hcons decl rest out more ho hm hp⟩

theorem rule_invalid {D : Type} (host : Host D) (primary : Str) (fix : Bool) (root : List D)
    (h : host.validateOptions primary ["angle".toList, "number".toList] = false) :
    rule host primary fix root =
      .ok { root := root, parsed := [], setCalls := [], reports := [] } := by
  unfold rule
  rw [h]
  rfl

theorem rule_valid {D : Type} (host : Host D) (primary : Str) (fix : Bool) (root : List D)
    (h : host.validateOptions primary ["angle".toList, "number".toList] = true) :
    rule host primary fix root = walkDecls host primary fix root := by
  unfold rule
  rw [h]
  rfl

/-- In fix mode the callback of `walkDecls` reports nothing; in check mode it leaves the
declaration alone and never calls `setDeclarationValue`. -/
theorem visitDecl_modes {D : Type} (host : Host D) (primary : Str) (fix : Bool) (decl : D)
    (out : DeclOutcome D) (h : visitDecl host primary fix decl = .ok out) :
    (fix = true → out.reports = []) ∧ (fix = false → out.setCalls = [] ∧ out.decl = decl) := by
  cases hp : HAS_HUE_COLOR_FUNC (host.declValue decl) with
  | false =>
    rw [visitDecl_skip host primary fix decl hp] at h
    cases h
    exact ⟨fun _ => rfl, fun _ => ⟨rfl, rfl⟩⟩
  | true =>
    obtain ⟨nodes1, st1, hw, h1, h2, _, _⟩ := walkNodes_full (host.config primary fix decl)
      (host.valueParser (host.getDeclarationValue decl)) { needsFix := false, reports := [] }
    rw [visitDecl_walk host primary fix decl hp nodes1 st1 hw] at h
    have hfixcfg : (host.config primary fix decl).fix = fix := rfl
    rw [hfixcfg] at h1 h2
    constructor
    · intro hf
      simp only [hf, if_true, List.append_nil] at h2
      split at h <;> cases h <;> exact h2
    · intro hf
      simp only [hf, Bool.false_and, Bool.or_false] at h1
      simp only [h1, Bool.false_eq_true, if_false] at h
      cases h
      exact ⟨rfl, rfl⟩

/-- C11: diagnostic and fix exclude each other.  In fix mode the walk emits no diagnostic at
all: the diagnostics after the walk are those before it; so the callback of `walkDecls` and
the rule report nothing.  In check mode the walk mutates no node, it returns the tree it was
given and leaves `needsFix` as it was; so the callback of `walkDecls` and the rule never
call `setDeclarationValue` and leave every declaration as it was. -/
theorem diagnostic_and_fix_exclusive {D : Type} (host : Host D) (primary : Str) (cfg : Config) :
    (∀ nodes st, ∃ nodes1 st1, walkNodes cfg nodes st = .ok (nodes1, st1) ∧
      (cfg.fix = true → st1.reports = st.reports) ∧
      (cfg.fix = false → nodes1 = nodes ∧ st1.needsFix = st.needsFix)) ∧
    (∀ decl, ∃ out, visitDecl host primary true decl = .ok out ∧ out.reports = []) ∧
    (∀ decl, ∃ out, visitDecl host primary false decl = .ok out ∧ out.setCalls = [] ∧
      out.decl = decl) ∧
    (∀ root, ∃ r, rule host primary true root = .ok r ∧ r.reports = []) ∧
    (∀ root, ∃ r, rule host primary false root = .ok r ∧ r.setCalls = [] ∧ r.root = root) := by
  refine ⟨?_, ?_, ?_, ?_, ?_⟩
  · intro nodes st
    obtain ⟨nodes1, st1, hw, h1, h2, h3, _⟩ := walkNodes_full cfg nodes st
    refine ⟨nodes1, st1, hw, fun hf => ?_, fun hf => ⟨h3 hf, ?_⟩⟩
    · simpa [hf] using h2
    · simpa [hf] using h1
  · intro decl
    obtain ⟨out, ho⟩ := visitDecl_ok host primary true decl
    exact ⟨out, ho, (visitDecl_modes host primary true decl out ho).1 rfl⟩
  · intro decl
    obtain ⟨out, ho⟩ := visitDecl_ok host primary false decl
    exact ⟨out, ho, (visitDecl_modes host primary false decl out ho).2 rfl⟩
  · intro root
    cases hv : host.validateOptions primary ["angle".toList, "number".toList] with
    | false => exact ⟨_, rule_invalid host primary true root hv, rfl⟩
    | true =>
      rw [rule_valid host primary true root hv]
      refine walkDecls_rel host primary true (fun _ r => r.reports = []) rfl ?_ root
      intro decl rest out more ho _ hm
      simp only [hm, List.append_nil]
      exact (visitDecl_modes host primary true decl out ho).1 rfl
  · intro root
    cases hv : host.validateOptions primary ["angle".toList, "number".toList] with
    | false => exact ⟨_, rule_invalid host primary false root hv, rfl, rfl⟩
    | true =>
      rw [rule_valid host primary false root hv]
      refine walkDecls_rel host primary false (fun l r => r.setCalls = [] ∧ r.root = l)
        ⟨rfl, rfl⟩ ?_ root
      intro decl rest out more ho _ hm
      obtain ⟨h1, h2⟩ := (visitDecl_modes host primary false decl out ho).2 rfl
      simp only [hm.1, hm.2, h1, h2, List.append_nil, and_self]

/-- C11, at concrete inputs: the walk of `hsl(200 50% 50%)` under `angle` reports nothing in
fix mode, and returns the tree as it was in check mode. -/
theorem diagnostic_and_fix_exclusive_witness :
    (∃ nodes1 st1, walkNodes (plainConfig "angle".toList true)
        [call3 "hsl".toList "200".toList "50%".toList "50%".toList] ⟨false, []⟩ =
          .ok (nodes1, st1) ∧ st1.reports = []) ∧
    (∃ nodes1 st1, walkNodes (plainConfig "angle".toList false)
        [call3 "hsl".toList "200".toList "50%".toList "50%".toList] ⟨false, []⟩ =
          .ok (nodes1, st1) ∧
        nodes1 = [call3 "hsl".toList "200".toList "50%".toList "50%".toList] ∧
        st1.needsFix = false) := by
  constructor
  · obtain ⟨nodes1, st1, hw, h1, _⟩ := (diagnostic_and_fix_exclusive
      (simpleHost (fun _ => [])) "angle".toList (plainConfig "angle".toList true)).1
      [call3 "hsl".toList "200".toList "50%".toList "50%".toList] ⟨false, []⟩
    exact ⟨nodes1, st1, hw, h1 rfl⟩
  · obtain ⟨nodes1, st1, hw, _, h2⟩ := (diagnostic_and_fix_exclusive
      (simpleHost (fun _ => [])) "angle".toList (plainConfig "angle".toList false)).1
      [call3 "hsl".toList "200".toList "50%".toList "50%".toList] ⟨false, []⟩
    exact ⟨nodes1, st1, hw, h2 rfl⟩

/-! ## Diagnostics -/

theorem slice_append (pre value : Str) (a b : Nat) :
    slice (pre ++ value) (pre.length + a) (pre.length + b) = slice value a b := by
  unfold slice
  have h1 : (pre ++ value).drop (pre.length + a) = value.drop a := by
    rw [List.drop_append]
  have h2 : pre.length + b - (pre.length + a) = b - a := by omega
  rw [h1, h2]

theorem mem_huesToChange {cfg : Config} {nodes : List Node} {hue : Node}
    (h : hue ∈ huesToChange cfg nodes) :
    ∃ call ∈ visitedList nodes, ∃ i, hueChange cfg call = some (i, hue) := by
  simp only [huesToChange, List.mem_filterMap, Option.map_eq_some'] at h
  obtain ⟨call, hc, p, hp, rfl⟩ := h
  exact ⟨call, hc, p.1, hp⟩

/-- The text the callback converts a hue to, as the rule computes it. -/
theorem convertText_eq {cfg : Config} {v : Str} (h : nonConforming cfg v = true) :
    (cfg.primary = "angle".toList → convertText cfg.primary v = asDegree v) ∧
    (cfg.primary ≠ "angle".toList → asNumber v = .ok (convertText cfg.primary v)) := by
  constructor
  · intro hp
    simp [convertText, hp]
  · intro hp
    have he : (isDegree v || isNumber v) = true := by
      simp only [nonConforming, Bool.and_eq_true] at h
      exact h.1.1.2
    rw [asNumber_of_eligible he, convertText, if_neg hp]

/-- The walk, in check mode, of a call `name(a b c)` whose hue the callback acts on. -/
theorem walkNodes_call3_check (cfg : Config) (hfix : cfg.fix = false) (name a b c : Str)
    (i : Nat) (hue : Node) (st : WalkState)
    (hc : hueChange cfg (call3 name a b c) = some (i, hue)) :
    walkNodes cfg [call3 name a b c] st =
      .ok ([call3 name a b c], { st with reports := st.reports ++ [hueReport cfg hue] }) := by
  have hs : stepNode cfg (call3 name a b c) = call3 name a b c := by
    simp [stepNode, hc, hfix]
  have hst : stepState cfg (call3 name a b c) st =
      { st with reports := st.reports ++ [hueReport cfg hue] } := by
    simp [stepState, hc, hfix]
  have := walkNodes_flat_call cfg (call3 name a b c) st (by
    rw [hs]
    intro n hn
    simp only [call3, Node.nodes, List.mem_cons, List.mem_singleton, List.not_mem_nil,
      or_false] at hn
    rcases hn with h | h | h | h | h <;> subst h <;> simp [wordNode, spaceNode, Node.type])
  rw [this, hs, hst]

/-- C12: each diagnostic of the walk in check mode comes from a call the walk visits, a
function node with a recognized name and a located hue.  Its `messageArgs` are `unfixed`,
the text of the hue, and `fixed`, the converted text (`asDegree` of it under `angle`, what
`asNumber` returns otherwise), so its message is `Expected "<unfixed>" to be "<fixed>"`; its
`index` and `endIndex` are the value index of the declaration plus the source start and end
offsets of the hue.  When the source range of the hue delimits its text in the value, and
the value starts at the value index in the declaration, the diagnostic delimits exactly the
text of the hue in the declaration.  For `hsl(200 50% 50%)` under `angle`, the value at
offset 7 as in `color: hsl(200 50% 50%)`, there is one diagnostic, `Expected "200" to be
"200deg"`, from 11 to 14, which spans `200`. -/
theorem diagnostic_message_and_range (cfg : Config) (hfix : cfg.fix = false) :
    (∀ nodes st, ∃ st1 new, walkNodes cfg nodes st = .ok (nodes, st1) ∧
      st1.reports = st.reports ++ new ∧
      ∀ r ∈ new, ∃ call ∈ visitedList nodes, ∃ i hue fixed,
        call.type = .function ∧ HUE_FUNCS.contains (toLowerCase call.value) = true ∧
        findHue call = some (i, hue) ∧
        r.messageArgs = (hue.value, fixed) ∧
        (cfg.primary = "angle".toList → fixed = asDegree hue.value) ∧
        (cfg.primary ≠ "angle".toList → asNumber hue.value = .ok fixed) ∧
        r.message = "Expected \"".toList ++ hue.value ++ "\" to be \"".toList ++ fixed ++
          "\"".toList ∧
        r.index = cfg.valueIndex + hue.sourceIndex ∧
        r.endIndex = cfg.valueIndex + hue.sourceEndIndex ∧
        ∀ before value, cfg.valueIndex = before.length →
          slice value hue.sourceIndex hue.sourceEndIndex = hue.value →
          slice (before ++ value) r.index r.endIndex = hue.value) ∧
    (cfg.primary = "angle".toList → cfg.isStandardSyntaxValue "200".toList = true →
      cfg.valueIndex = 7 →
      ∀ st, ∃ r, walkNodes cfg [call3 "hsl".toList "200".toList "50%".toList "50%".toList] st =
          .ok ([call3 "hsl".toList "200".toList "50%".toList "50%".toList],
            { st with reports := st.reports ++ [r] }) ∧
        r.message = "Expected \"200\" to be \"200deg\"".toList ∧
        r.index = 11 ∧ r.endIndex = 14 ∧
        slice "color: hsl(200 50% 50%)".toList r.index r.endIndex = "200".toList) := by
  constructor
  · intro nodes st
    obtain ⟨nodes1, st1, hw, _, h2, h3, _⟩ := walkNodes_full cfg nodes st
    rw [h3 hfix] at hw
    simp only [hfix, Bool.false_eq_true, if_false] at h2
    refine ⟨st1, _, hw, h2, ?_⟩
    intro r hr
    obtain ⟨hue, hh, rfl⟩ := List.mem_map.1 hr
    obtain ⟨call, hcall, i, hc⟩ := mem_huesToChange hh
    obtain ⟨ht, hrec, hf, hnc⟩ := (hueChange_eq_some_iff cfg call i hue).1 hc
    obtain ⟨e1, e2⟩ := convertText_eq hnc
    refine ⟨call, hcall, i, hue, convertText cfg.primary hue.value, ht, hrec, hf, rfl, e1, e2,
      rfl, rfl, rfl, ?_⟩
    intro before value hv hs
    simp only [hueReport, hv]
    rw [slice_append, hs]
  · intro hp hstd hv st
    have hc : hueChange cfg (call3 "hsl".toList "200".toList "50%".toList "50%".toList) =
        some (0, wordNode "200".toList 4) :=
      (hueChange_eq_some_iff cfg _ _ _).2
        ⟨rfl, by decide, rfl, nonConforming_angle hp hstd (by decide)⟩
    refine ⟨hueReport cfg (wordNode "200".toList 4),
      walkNodes_call3_check cfg hfix _ _ _ _ _ _ st hc, ?_, ?_, ?_, ?_⟩
    · simp only [Report.message, hueReport, convertText, hp, if_true]
      rfl
    · simp only [hueReport, hv]
      rfl
    · simp only [hueReport, hv]
      rfl
    · simp only [hueReport, hv]
      rfl

/-- C12, at a concrete input: the diagnostic for `hsl(200 50% 50%)` under `angle`, the value
at offset 7. -/
theorem diagnostic_message_and_range_witness :
    (plainConfig "angle".toList false).fix = false ∧
    ∃ r, walkNodes (plainConfig "angle".toList false)
        [call3 "hsl".toList "200".toList "50%".toList "50%".toList] ⟨false, []⟩ =
          .ok ([call3 "hsl".toList "200".toList "50%".toList "50%".toList], ⟨false, [r]⟩) ∧
      r.message = "Expected \"200\" to be \"200deg\"".toList ∧
      r.index = 11 ∧ r.endIndex = 14 ∧
      slice "color: hsl(200 50% 50%)".toList r.index r.endIndex = "200".toList :=
  ⟨rfl, (diagnostic_message_and_range (plainConfig "angle".toList false) rfl).2 rfl rfl rfl
    ⟨false, []⟩⟩

/-! ## The tables and the predicates -/

theorem contains_iff_mem {l : List Str} {a : Str} : l.contains a = true ↔ a ∈ l := by
  simp

/-- C13: every function name has at most one hue slot.  The two tables are disjoint,
`HUE_FUNCS` is their union, `findHue` finds nothing for a node whose lower-cased name is
outside `HUE_FUNCS`, whatever its children, and for a name in `HUE_FUNCS` it reads exactly
one of the two tables: the name is in the first table only and the result is the first
argument, or it is in the second table only and the result is the third argument. -/
theorem one_hue_slot_per_name :
    (∀ name, ¬ (name ∈ HUE_FIRST_ARG_FUNCS ∧ name ∈ HUE_THIRD_ARG_FUNCS)) ∧
    (∀ name, name ∈ HUE_FUNCS ↔ (name ∈ HUE_FIRST_ARG_FUNCS ∨ name ∈ HUE_THIRD_ARG_FUNCS)) ∧
    HUE_FUNCS = ["hsl".toList, "hsla".toList, "hwb".toList, "lch".toList, "oklch".toList] ∧
    (∀ node, HUE_FUNCS.contains (toLowerCase node.value) = false → findHue node = none) ∧
    (∀ node, HUE_FUNCS.contains (toLowerCase node.value) = true →
      (HUE_FIRST_ARG_FUNCS.contains (toLowerCase node.value) = true ∧
        HUE_THIRD_ARG_FUNCS.contains (toLowerCase node.value) = false ∧
        findHue node = (node.nodes.enum.filter (fun p => isArg p.2))[0]?) ∨
      (HUE_FIRST_ARG_FUNCS.contains (toLowerCase node.value) = false ∧
        HUE_THIRD_ARG_FUNCS.contains (toLowerCase node.value) = true ∧
        findHue node = (node.nodes.enum.filter (fun p => isArg p.2))[2]?)) := by
  have hdisj : ∀ name, ¬ (name ∈ HUE_FIRST_ARG_FUNCS ∧ name ∈ HUE_THIRD_ARG_FUNCS) := by
    rintro name ⟨h1, h2⟩
    simp only [HUE_FIRST_ARG_FUNCS, HUE_THIRD_ARG_FUNCS, List.mem_cons, List.mem_singleton,
      List.not_mem_nil, or_false] at h1 h2
    rcases h2 with h2 | h2 <;> rw [h2] at h1 <;> revert h1 <;> decide
  have hunion : ∀ name, name ∈ HUE_FUNCS ↔
      (name ∈ HUE_FIRST_ARG_FUNCS ∨ name ∈ HUE_THIRD_ARG_FUNCS) := by
    intro name
    simp [HUE_FUNCS]
  refine ⟨hdisj, hunion, rfl, ?_, ?_⟩
  · intro node h
    have hn : ¬ toLowerCase node.value ∈ HUE_FUNCS := by
      intro hm
      rw [contains_iff_mem.2 hm] at h
      cases h
    rw [hunion] at hn
    have h1 : HUE_FIRST_ARG_FUNCS.contains (toLowerCase node.value) = false := by
      cases hc : HUE_FIRST_ARG_FUNCS.contains (toLowerCase node.value) with
      | false => rfl
      | true => exact absurd (Or.inl (contains_iff_mem.1 hc)) hn
    have h2 : HUE_THIRD_ARG_FUNCS.contains (toLowerCase node.value) = false := by
      cases hc : HUE_THIRD_ARG_FUNCS.contains (toLowerCase node.value) with
      | false => rfl
      | true => exact absurd (Or.inr (contains_iff_mem.1 hc)) hn
    simp only [findHue, h1, h2, Bool.false_eq_true, if_false]
  · intro node h
    have hm := (hunion _).1 (contains_iff_mem.1 h)
    rcases hm with hm | hm
    · left
      have h1 : HUE_FIRST_ARG_FUNCS.contains (toLowerCase node.value) = true :=
        contains_iff_mem.2 hm
      have h2 : HUE_THIRD_ARG_FUNCS.contains (toLowerCase node.value) = false := by
        cases hc : HUE_THIRD_ARG_FUNCS.contains (toLowerCase node.value) with
        | false => rfl
        | true => exact absurd ⟨hm, contains_iff_mem.1 hc⟩ (hdisj _)
      exact ⟨h1, h2, by simp only [findHue, h1, if_true]⟩
    · right
      have h2 : HUE_THIRD_ARG_FUNCS.contains (toLowerCase node.value) = true :=
        contains_iff_mem.2 hm
      have h1 : HUE_FIRST_ARG_FUNCS.contains (toLowerCase node.value) = false := by
        cases hc : HUE_FIRST_ARG_FUNCS.contains (toLowerCase node.value) with
        | false => rfl
        | true => exact absurd ⟨contains_iff_mem.1 hc, hm⟩ (hdisj _)
      exact ⟨h1, h2, by simp only [findHue, h1, h2, Bool.false_eq_true, if_false, if_true]⟩

/-- C13, at concrete inputs: `rgb(0 0 0)` has no hue slot, `HSL(200 50% 50%)` has the
first. -/
theorem one_hue_slot_per_name_witness :
    findHue (call3 "rgb".toList "0".toList "0".toList "0".toList) = none ∧
    (HUE_FIRST_ARG_FUNCS.contains (toLowerCase "HSL".toList) = true ∧
      HUE_THIRD_ARG_FUNCS.contains (toLowerCase "HSL".toList) = false ∧
      findHue (call3 "HSL".toList "200".toList "50%".toList "50%".toList) =
        some (0, wordNode "200".toList 4)) := by
  refine ⟨one_hue_slot_per_name.2.2.2.1 _ (by decide), ?_⟩
  rcases one_hue_slot_per_name.2.2.2.2
    (call3 "HSL".toList "200".toList "50%".toList "50%".toList) (by decide) with h | h
  · exact ⟨h.1, h.2.1, rfl⟩
  · exact absurd h.1 (by decide)

theorem lowerChar_eq_letter {c p : Char} (hp : p = 'd' ∨ p = 'e' ∨ p = 'g')
    (h : lowerChar c = p) : c = p ∨ c = Char.ofNat (p.toNat - 32) := by
  unfold lowerChar at h
  split at h
  · next hc =>
    obtain ⟨h1, h2⟩ := hc
    have hc : c = Char.ofNat c.toNat := (Char.ofNat_toNat c).symm
    generalize c.toNat = n at h h1 h2 hc
    rcases hp with rfl | rfl | rfl <;> interval_cases n <;>
      first
        | (right; exact hc)
        | exact absurd h (by decide)
  · split at h
    · rcases hp with rfl | rfl | rfl <;> exact absurd h (by decide)
    · left; exact h

/-- A text is `deg` in lower case exactly when it is `deg` written with letters of either
case. -/
theorem toLowerCase_eq_deg_iff (u : Str) :
    toLowerCase u = "deg".toList ↔
      ∃ a b c, u = [a, b, c] ∧ (a = 'd' ∨ a = 'D') ∧ (b = 'e' ∨ b = 'E') ∧
        (c = 'g' ∨ c = 'G') := by
  constructor
  · intro h
    match u, h with
    | [a, b, c], h =>
      simp only [toLowerCase, List.map_cons, List.map_nil] at h
      have h1 : lowerChar a = 'd' := (List.cons.inj h).1
      have h2 : lowerChar b = 'e' := (List.cons.inj (List.cons.inj h).2).1
      have h3 : lowerChar c = 'g' := (List.cons.inj (List.cons.inj (List.cons.inj h).2).2).1
      exact ⟨a, b, c, rfl, lowerChar_eq_letter (Or.inl rfl) h1,
        lowerChar_eq_letter (Or.inr (Or.inl rfl)) h2,
        lowerChar_eq_letter (Or.inr (Or.inr rfl)) h3⟩
    | [], h => exact absurd h (by decide)
    | [_], h => simp [toLowerCase] at h
    | [_, _], h => simp [toLowerCase] at h
    | _ :: _ :: _ :: _ :: _, h => simp [toLowerCase] at h
  · rintro ⟨a, b, c, rfl, ha, hb, hc⟩
    rcases ha with rfl | rfl <;> rcases hb with rfl | rfl <;> rcases hc with rfl | rfl <;>
      decide

/-- C14: `isDegree` holds of a text exactly when `valueParser.unit` splits it into a numeric
prefix and a unit that is `deg` up to the case of its letters, `isNumber` exactly when it
splits it with the empty unit, and both are false when the text is no dimension.  So
`200deg`, `200DEG` and `200Deg` are degree values, `200` is a bare number, and `200grad`
and `abc` are neither. -/
theorem isDegree_isNumber_iff :
    (∀ v, isDegree v = true ↔
      ∃ n u, unit v = some { number := n, unit := u } ∧ n ++ u = v ∧
        ∃ a b c, u = [a, b, c] ∧ (a = 'd' ∨ a = 'D') ∧ (b = 'e' ∨ b = 'E') ∧
          (c = 'g' ∨ c = 'G')) ∧
    (∀ v, isNumber v = true ↔
      ∃ n, unit v = some { number := n, unit := [] } ∧ n = v) ∧
    (∀ v, unit v = none → isDegree v = false ∧ isNumber v = false) ∧
    (isDegree "200deg".toList = true ∧ isDegree "200DEG".toList = true ∧
      isDegree "200Deg".toList = true ∧ isNumber "200".toList = true) ∧
    (isDegree "200".toList = false ∧ isNumber "200deg".toList = false ∧
      isDegree "200grad".toList = false ∧ isNumber "200grad".toList = false ∧
      unit "abc".toList = none ∧ isDegree "abc".toList = false ∧
      isNumber "abc".toList = false) := by
  refine ⟨?_, ?_, ?_, by decide, by decide⟩
  · intro v
    rw [isDegree_iff]
    constructor
    · rintro ⟨n, u, hu, hl⟩
      exact ⟨n, u, hu, unit_split hu, (toLowerCase_eq_deg_iff u).1 hl⟩
    · rintro ⟨n, u, hu, _, hl⟩
      exact ⟨n, u, hu, (toLowerCase_eq_deg_iff u).2 hl⟩
  · intro v
    rw [isNumber_iff]
    constructor
    · intro h
      exact ⟨v, h, rfl⟩
    · rintro ⟨n, h, rfl⟩
      exact h
  · intro v h
    simp [isDegree, isNumber, h]

/-- C14, at concrete inputs: `200Deg` splits into `200` and `Deg`, and `200` into `200` and
the empty unit. -/
theorem isDegree_isNumber_iff_witness :
    isDegree "200Deg".toList = true ∧ isNumber "200".toList = true ∧
    (isDegree "$hue".toList = false ∧ isNumber "$hue".toList = false) :=
  ⟨(isDegree_isNumber_iff.1 "200Deg".toList).2
      ⟨"200".toList, "Deg".toList, by decide, by decide, 'D', 'e', 'g', rfl, Or.inr rfl,
        Or.inl rfl, Or.inl rfl⟩,
   (isDegree_isNumber_iff.2.1 "200".toList).2 ⟨"200".toList, by decide, rfl⟩,
   isDegree_isNumber_iff.2.2.1 "$hue".toList (by decide)⟩

/-! ## The rule -/

/-- C15: when the validation of the option fails, the rule returns before it visits any
declaration: the declarations are as they were, no value was handed to the parser or to
`setDeclarationValue`, and no diagnostic was reported, whatever the stylesheet and the
mode.  With the validation of the specification (the option must be one of the possible
values) this is so for every policy other than `angle` and `number`. -/
theorem invalid_options_abort {D : Type} (host : Host D) (primary : Str) (fix : Bool)
    (root : List D) :
    (host.validateOptions primary ["angle".toList, "number".toList] = false →
      rule host primary fix root =
        .ok { root := root, parsed := [], setCalls := [], reports := [] }) ∧
    (primary ≠ "angle".toList → primary ≠ "number".toList →
      specValidateOptions primary ["angle".toList, "number".toList] = false) ∧
    (host.validateOptions = specValidateOptions →
      primary ≠ "angle".toList → primary ≠ "number".toList →
      rule host primary fix root =
        .ok { root := root, parsed := [], setCalls := [], reports := [] }) := by
  have hspec : primary ≠ "angle".toList → primary ≠ "number".toList →
      specValidateOptions primary ["angle".toList, "number".toList] = false := by
    intro h1 h2
    cases hc : specValidateOptions primary ["angle".toList, "number".toList] with
    | false => rfl
    | true =>
      have hm := contains_iff_mem.1 hc
      simp only [List.mem_cons, List.mem_singleton, List.not_mem_nil, or_false] at hm
      rcases hm with hm | hm
      · exact absurd hm h1
      · exact absurd hm h2
  refine ⟨rule_invalid host primary fix root, hspec, ?_⟩
  intro hv h1 h2
  exact rule_invalid host primary fix root (by rw [hv]; exact hspec h1 h2)

/-- C15, at a concrete input: the policy `degrees` and a stylesheet with
`hsl(200 50% 50%)`, in fix mode. -/
theorem invalid_options_abort_witness :
    rule (simpleHost (parserOf "hsl(200 50% 50%)".toList
        [call3 "hsl".toList "200".toList "50%".toList "50%".toList]))
      "degrees".toList true [{ value := "hsl(200 50% 50%)".toList, valueIndex := 7 }] =
      .ok { root := [{ value := "hsl(200 50% 50%)".toList, valueIndex := 7 }],
            parsed := [], setCalls := [], reports := [] } :=
  (invalid_options_abort (simpleHost (parserOf "hsl(200 50% 50%)".toList
      [call3 "hsl".toList "200".toList "50%".toList "50%".toList]))
    "degrees".toList true [{ value := "hsl(200 50% 50%)".toList, valueIndex := 7 }]).2.2
    rfl (by decide) (by decide)

theorem nonConforming_iff_guards (cfg : Config) (v : Str) :
    nonConforming cfg v = true ↔
      cfg.isStandardSyntaxValue v = true ∧ (isDegree v = true ∨ isNumber v = true) ∧
        ¬ (cfg.primary = "angle".toList ∧ isDegree v = true) ∧
        ¬ (cfg.primary = "number".toList ∧ isNumber v = true) := by
  simp only [nonConforming, Bool.and_eq_true, Bool.or_eq_true, Bool.not_eq_true',
    Bool.and_eq_false_imp, decide_eq_true_eq, not_and, Bool.not_eq_true]
  constructor
  · rintro ⟨⟨⟨h1, h2⟩, h3⟩, h4⟩
    exact ⟨h1, h2, h3, h4⟩
  · rintro ⟨h1, h2, h3, h4⟩
    exact ⟨⟨⟨h1, h2⟩, h3⟩, h4⟩

theorem huesToChange_ne_nil_iff (cfg : Config) (nodes : List Node) :
    huesToChange cfg nodes ≠ [] ↔
      ∃ call ∈ visitedList nodes, ∃ i hue, hueChange cfg call = some (i, hue) := by
  constructor
  · intro h
    obtain ⟨hue, hh⟩ := List.exists_mem_of_ne_nil _ h
    obtain ⟨call, hc, i, hi⟩ := mem_huesToChange hh
    exact ⟨call, hc, i, hue, hi⟩
  · rintro ⟨call, hc, i, hue, hi⟩ hnil
    have : hue ∈ huesToChange cfg nodes := by
      simp only [huesToChange, List.mem_filterMap, Option.map_eq_some']
      exact ⟨call, hc, (i, hue), hi, rfl⟩
    rw [hnil] at this
    cases this

/-- C16: for one declaration, `setDeclarationValue` is called at most once, with the
serialization of the tree after the walk, and it is called if and only if the value passes
the test of `HAS_HUE_COLOR_FUNC`, fix mode is on, and the walk visits a call whose hue it
fixes: a function node with a recognized name whose located hue is standard syntax, a degree
value or a bare number, and not what the policy asks for.  A declaration that fails the test
is not even parsed, and a declaration for which `setDeclarationValue` is not called is left
as it was.  So over a stylesheet there are at most as many calls as declarations. -/
theorem value_rewritten_at_most_once {D : Type} (host : Host D) (primary : Str) (fix : Bool) :
    (∀ decl, ∃ out, visitDecl host primary fix decl = .ok out ∧
      out.setCalls.length ≤ 1 ∧
      (out.setCalls ≠ [] ↔
        (HAS_HUE_COLOR_FUNC (host.declValue decl) = true ∧ fix = true ∧
          ∃ call ∈ visitedList (host.valueParser (host.getDeclarationValue decl)), ∃ i hue,
            call.type = .function ∧ HUE_FUNCS.contains (toLowerCase call.value) = true ∧
            findHue call = some (i, hue) ∧
            host.isStandardSyntaxValue hue.value = true ∧
            (isDegree hue.value = true ∨ isNumber hue.value = true) ∧
            ¬ (primary = "angle".toList ∧ isDegree hue.value = true) ∧
            ¬ (primary = "number".toList ∧ isNumber hue.value = true))) ∧
      (∀ v ∈ out.setCalls, out.decl = host.setDeclarationValue decl v ∧
        ∃ nodes1 st1, walkNodes (host.config primary fix decl)
            (host.valueParser (host.getDeclarationValue decl))
            { needsFix := false, reports := [] } = .ok (nodes1, st1) ∧
          v = stringify nodes1) ∧
      (out.setCalls = [] → out.decl = decl) ∧
      (HAS_HUE_COLOR_FUNC (host.declValue decl) = false → out.parsed = [])) ∧
    (∀ root, ∃ r, rule host primary fix root = .ok r ∧ r.setCalls.length ≤ root.length) := by
  have hdecl : ∀ decl out, visitDecl host primary fix decl = .ok out →
      out.setCalls.length ≤ 1 := by
    intro decl out ho
    cases hp : HAS_HUE_COLOR_FUNC (host.declValue decl) with
    | false =>
      rw [visitDecl_skip host primary fix decl hp] at ho
      cases ho
      simp
    | true =>
      obtain ⟨nodes1, st1, hw, _⟩ := walkNodes_heads (host.config primary fix decl)
        (host.valueParser (host.getDeclarationValue decl)) { needsFix := false, reports := [] }
      rw [visitDecl_walk host primary fix decl hp nodes1 st1 hw] at ho
      split at ho <;> cases ho <;> simp
  constructor
  · intro decl
    cases hp : HAS_HUE_COLOR_FUNC (host.declValue decl) with
    | false =>
      refine ⟨_, visitDecl_skip host primary fix decl hp, by simp, ?_, by simp,
        fun _ => rfl, fun _ => rfl⟩
      constructor
      · intro h; exact absurd rfl h
      · rintro ⟨h, _⟩; cases h
    | true =>
      obtain ⟨nodes1, st1, hw, h1, _, _, _⟩ := walkNodes_full (host.config primary fix decl)
        (host.valueParser (host.getDeclarationValue decl)) { needsFix := false, reports := [] }
      have hfixcfg : (host.config primary fix decl).fix = fix := rfl
      rw [hfixcfg] at h1
      simp only [Bool.false_or] at h1
      have hiff : st1.needsFix = true ↔
          (fix = true ∧ ∃ call ∈ visitedList (host.valueParser (host.getDeclarationValue decl)),
            ∃ i hue, call.type = .function ∧
              HUE_FUNCS.contains (toLowerCase call.value) = true ∧
              findHue call = some (i, hue) ∧
              host.isStandardSyntaxValue hue.value = true ∧
              (isDegree hue.value = true ∨ isNumber hue.value = true) ∧
              ¬ (primary = "angle".toList ∧ isDegree hue.value = true) ∧
              ¬ (primary = "number".toList ∧ isNumber hue.value = true)) := by
        rw [h1, Bool.and_eq_true, Bool.not_eq_true', ← Bool.not_eq_true, List.isEmpty_iff,
          ← ne_eq, huesToChange_ne_nil_iff]
        constructor
        · rintro ⟨hf, call, hc, i, hue, hch⟩
          obtain ⟨ht, hr, hfh, hnc⟩ := (hueChange_eq_some_iff _ call i hue).1 hch
          exact ⟨hf, call, hc, i, hue, ht, hr, hfh, (nonConforming_iff_guards _ _).1 hnc⟩
        · rintro ⟨hf, call, hc, i, hue, ht, hr, hfh, hg⟩
          exact ⟨hf, call, hc, i, hue, (hueChange_eq_some_iff _ call i hue).2
            ⟨ht, hr, hfh, (nonConforming_iff_guards (host.config primary fix decl) _).2 hg⟩⟩
      by_cases hn : st1.needsFix = true
      · have hout := visitDecl_walk host primary fix decl hp nodes1 st1 hw
        rw [if_pos hn] at hout
        refine ⟨_, hout, by simp, ?_, ?_, ?_, ?_⟩
        · exact ⟨fun _ => ⟨rfl, hiff.1 hn⟩, fun _ => by simp⟩
        · intro v hv
          simp only [List.mem_singleton] at hv
          subst hv
          exact ⟨rfl, nodes1, st1, hw, rfl⟩
        · intro hs
          simp at hs
        · intro h
          cases h
      · have hout := visitDecl_walk host primary fix decl hp nodes1 st1 hw
        rw [if_neg hn] at hout
        refine ⟨_, hout, by simp, ?_, ?_, fun _ => rfl, ?_⟩
        · constructor
          · intro h
            exact absurd rfl h
          · rintro ⟨_, h⟩
            exact absurd (hiff.2 h) hn
        · intro v hv
          simp at hv
        · intro h
          cases h
  · intro root
    cases hv : host.validateOptions primary ["angle".toList, "number".toList] with
    | false => exact ⟨_, rule_invalid host primary fix root hv, by simp⟩
    | true =>
      rw [rule_valid host primary fix root hv]
      refine walkDecls_rel host primary fix (fun l r => r.setCalls.length ≤ l.length)
        (by simp) ?_ root
      intro decl rest out more ho _ hm
      have := hdecl decl out ho
      simp only [List.length_append, List.length_cons]
      omega

/-- C16, at a concrete input: the declaration `hsl(200 50% 50%)` under `angle` in fix mode is
rewritten once, to `hsl(200deg 50% 50%)`. -/
theorem value_rewritten_at_most_once_witness :
    ∃ out, visitDecl (simpleHost (parserOf "hsl(200 50% 50%)".toList
          [call3 "hsl".toList "200".toList "50%".toList "50%".toList]))
        "angle".toList true { value := "hsl(200 50% 50%)".toList, valueIndex := 7 } = .ok out ∧
      out.setCalls = ["hsl(200deg 50% 50%)".toList] ∧
      out.decl = { value := "hsl(200deg 50% 50%)".toList, valueIndex := 7 } := by
  obtain ⟨out, ho, hlen, hiff, hv, _, _⟩ := (value_rewritten_at_most_once
    (simpleHost (parserOf "hsl(200 50% 50%)".toList
      [call3 "hsl".toList "200".toList "50%".toList "50%".toList]))
    "angle".toList true).1 { value := "hsl(200 50% 50%)".toList, valueIndex := 7 }
  have hne : out.setCalls ≠ [] :=
    hiff.2 ⟨by decide, rfl, call3 "hsl".toList "200".toList "50%".toList "50%".toList,
      by simp [simpleHost, parserOf, visitedList_cons, visitedNode_eq], 0,
      wordNode "200".toList 4, rfl, by decide, rfl, rfl, Or.inr (by decide), by decide,
      by decide⟩
  refine ⟨out, ho, ?_⟩
  match hs : out.setCalls, hne, hlen with
  | [v], _, _ =>
    obtain ⟨hd, nodes1, st1, hw, hv1⟩ := hv v (by rw [hs]; simp)
    have hw2 : walkNodes (plainConfig "angle".toList true)
        [call3 "hsl".toList "200".toList "50%".toList "50%".toList] ⟨false, []⟩ =
          .ok (nodes1, st1) := hw
    rw [walkNodes_hsl200] at hw2
    simp only [Except.ok.injEq, Prod.mk.injEq] at hw2
    obtain ⟨rfl, _⟩ := hw2
    have hv2 : v = "hsl(200deg 50% 50%)".toList := by rw [hv1]; rfl
    subst hv2
    exact ⟨rfl, by rw [hd]; rfl⟩
  | [], h, _ => exact absurd rfl h
  | _ :: _ :: _, _, h => simp at h

/-! ## Every call is fixed -/

theorem walkedAt_nil (l : List Node) : walkedAt l [] = none := by
  cases l <;> rfl

theorem walkedAt_empty (path : List Nat) : walkedAt [] path = none := by
  cases path <;> simp [walkedAt]

theorem walkedAt_single (l : List Node) (i : Nat) : walkedAt l [i] = l[i]? := by
  simp only [walkedAt]
  cases l[i]? <;> rfl

theorem walkedAt_cons_cons (l : List Node) (i j : Nat) (q : List Nat) :
    walkedAt l (i :: j :: q) =
      (l[i]?).bind (fun n => if n.type = .function then walkedAt n.nodes (j :: q) else none) := by
  simp only [walkedAt]
  cases l[i]? <;> rfl

theorem walkedAt_succ (a : Node) (l : List Node) (k : Nat) (q : List Nat) :
    walkedAt (a :: l) ((k + 1) :: q) = walkedAt l (k :: q) := by
  cases q with
  | nil => simp [walkedAt_single]
  | cons j q => simp [walkedAt_cons_cons]

theorem walkedAt_zero (a : Node) (l : List Node) (j : Nat) (q : List Nat) :
    walkedAt (a :: l) (0 :: j :: q) =
      if a.type = .function then walkedAt a.nodes (j :: q) else none := by
  simp [walkedAt_cons_cons]

theorem walkedAt_modify (f : Str) (l : List Node) (i0 : Nat) (path : List Nat) :
    walkedAt (l.modify (Node.setValue f) i0) path =
      if path = [i0] then (walkedAt l path).map (Node.setValue f) else walkedAt l path := by
  cases path with
  | nil => simp [walkedAt_nil]
  | cons k q =>
    cases q with
    | nil =>
      simp only [walkedAt_single, List.getElem?_modify, List.cons.injEq, and_true]
      by_cases hk : i0 = k
      · subst hk; simp
      · have hk2 : ¬ k = i0 := fun h => hk h.symm
        simp [hk, hk2]
    | cons j q =>
      simp only [walkedAt_cons_cons, List.getElem?_modify, List.cons.injEq, and_false,
        if_false, reduceCtorEq]
      cases l[k]? with
      | none => rfl
      | some m =>
        by_cases hk : i0 = k <;> simp [hk]

/-- After the callback in fix mode, the hue of a recognized call that was standard syntax
and eligible conforms to the policy. -/
theorem stepNode_conforms (cfg : Config) (hfix : cfg.fix = true)
    (call : Node) (i : Nat) (hue : Node) (ht : call.type = .function)
    (hr : HUE_FUNCS.contains (toLowerCase call.value) = true)
    (hf : findHue call = some (i, hue))
    (hstd : cfg.isStandardSyntaxValue hue.value = true)
    (hel : isDegree hue.value = true ∨ isNumber hue.value = true) :
    ∃ hue1, findHue (stepNode cfg call) = some (i, hue1) ∧
      (cfg.primary = "angle".toList → isDegree hue1.value = true) ∧
      (cfg.primary = "number".toList → isNumber hue1.value = true) := by
  cases hc : hueChange cfg call with
  | none =>
    rw [(stepNode_none hc).1]
    have hn : nonConforming cfg hue.value = false := by
      cases hn : nonConforming cfg hue.value with
      | false => rfl
      | true =>
        rw [(hueChange_eq_some_iff cfg call i hue).2 ⟨ht, hr, hf, hn⟩] at hc
        cases hc
    refine ⟨hue, hf, ?_, ?_⟩
    · intro hpa
      cases hd : isDegree hue.value with
      | true => rfl
      | false =>
        have hnum : isNumber hue.value = true := by
          rcases hel with h | h
          · rw [hd] at h; cases h
          · exact h
        rw [nonConforming_angle hpa hstd hnum] at hn
        cases hn
    · intro hpn
      cases hnum : isNumber hue.value with
      | true => rfl
      | false =>
        have hd : isDegree hue.value = true := by
          rcases hel with h | h
          · exact h
          · rw [hnum] at h; cases h
        rw [nonConforming_number hpn hstd hd] at hn
        cases hn
  | some p =>
    obtain ⟨i2, hue2⟩ := p
    obtain ⟨_, _, hf2, hn⟩ := (hueChange_eq_some_iff cfg call i2 hue2).1 hc
    rw [hf] at hf2
    simp only [Option.some.injEq, Prod.mk.injEq] at hf2
    obtain ⟨rfl, rfl⟩ := hf2
    rw [(stepNode_fix hfix hc).1]
    refine ⟨_, findHue_setHueValue _ hf, ?_, ?_⟩
    · intro hpa
      have hnum := ((nonConforming_iff cfg _ (Or.inl hpa)).1 hn).2.2
      rcases hnum with ⟨_, h⟩ | ⟨h, _⟩
      · simp only [setValue_value, convertText, hpa, if_true]
        exact isDegree_asDegree h
      · rw [hpa] at h; exact absurd h (by decide)
    · intro hpn
      have hdeg := ((nonConforming_iff cfg _ (Or.inr hpn)).1 hn).2.2
      rcases hdeg with ⟨h, _⟩ | ⟨_, h⟩
      · rw [hpn] at h; exact absurd h (by decide)
      · have hne : cfg.primary ≠ "angle".toList := by rw [hpn]; decide
        obtain ⟨n, u, _, _, h3, h4⟩ := isNumber_asNumber h
        have h1 := asNumber_of_eligible (v := hue.value) (by simp [h])
        rw [h3] at h1
        simp only [setValue_value, convertText, hne, if_false, ← Except.ok.inj h1]
        exact h4

/-- The walk in fix mode: at every path the walk follows to a recognized
call whose hue is standard syntax and eligible, the tree it returns has the same call, and
its hue conforms to the policy. -/
theorem walkNodes_fixes (cfg : Config) (hfix : cfg.fix = true)
    (nodes : List Node) (st : WalkState) :
    ∃ nodes1 st1, walkNodes cfg nodes st = .ok (nodes1, st1) ∧
      (nodes1.map Node.head = nodes.map Node.head ∧
        ∀ path call i hue, walkedAt nodes path = some call → call.type = .function →
          HUE_FUNCS.contains (toLowerCase call.value) = true → findHue call = some (i, hue) →
          cfg.isStandardSyntaxValue hue.value = true →
          (isDegree hue.value = true ∨ isNumber hue.value = true) →
          ∃ call1 hue1, walkedAt nodes1 path = some call1 ∧ call1.head = call.head ∧
            findHue call1 = some (i, hue1) ∧
            (cfg.primary = "angle".toList → isDegree hue1.value = true) ∧
            (cfg.primary = "number".toList → isNumber hue1.value = true)) := by
  refine walkNodes_rel cfg
    (fun l _ l1 _ => l1.map Node.head = l.map Node.head ∧
      ∀ path call i hue, walkedAt l path = some call → call.type = .function →
        HUE_FUNCS.contains (toLowerCase call.value) = true → findHue call = some (i, hue) →
        cfg.isStandardSyntaxValue hue.value = true →
        (isDegree hue.value = true ∨ isNumber hue.value = true) →
        ∃ call1 hue1, walkedAt l1 path = some call1 ∧ call1.head = call.head ∧
          findHue call1 = some (i, hue1) ∧
          (cfg.primary = "angle".toList → isDegree hue1.value = true) ∧
          (cfg.primary = "number".toList → isNumber hue1.value = true))
    (fun _ => ⟨rfl, fun path call i hue h => by rw [walkedAt_empty] at h; cases h⟩) ?_ nodes st
  intro node rest st kids st2 rest1 st3 hfun hleaf _ hrest
  refine ⟨by simp [hrest.1, stepNode_head], ?_⟩
  intro path call i hue hat ht hr hf hstd hel
  cases path with
  | nil => rw [walkedAt_nil] at hat; cases hat
  | cons k q =>
    cases k with
    | succ k =>
      rw [walkedAt_succ] at hat
      obtain ⟨call1, hue1, h1, h2⟩ := hrest.2 (k :: q) call i hue hat ht hr hf hstd hel
      exact ⟨call1, hue1, by rw [walkedAt_succ]; exact h1, h2⟩
    | zero =>
      cases q with
      | nil =>
        simp only [walkedAt_single, List.getElem?_cons_zero, Option.some.injEq] at hat
        subst hat
        obtain ⟨hueN, hfN, hcN⟩ := stepNode_conforms cfg hfix node i hue ht hr hf hstd hel
        have hkids : kids.map Node.head = (stepNode cfg node).nodes.map Node.head :=
          (hfun ht).2.1
        have h3 := findHue_head (stepNode cfg node) ((stepNode cfg node).setNodes kids)
          (by simp) (by simpa using hkids)
        rw [hfN] at h3
        cases h4 : findHue ((stepNode cfg node).setNodes kids) with
        | none => rw [h4] at h3; cases h3
        | some p =>
          rw [h4] at h3
          simp only [Option.map_some', Option.some.injEq, Prod.mk.injEq] at h3
          have hval : p.2.value = hueN.value := value_eq_of_head h3.2
          refine ⟨(stepNode cfg node).setNodes kids, p.2,
            by rw [walkedAt_single, List.getElem?_cons_zero],
            by rw [head_setNodes, stepNode_head], by rw [h4, ← h3.1], ?_, ?_⟩
          · rw [hval]; exact hcN.1
          · rw [hval]; exact hcN.2
      | cons j q =>
        rw [walkedAt_zero] at hat
        by_cases htn : node.type = .function
        swap
        · rw [if_neg htn] at hat; cases hat
        rw [if_pos htn] at hat
        have hN : walkedAt (stepNode cfg node).nodes (j :: q) = some call := by
          rcases stepNode_nodes_cases cfg node with h | ⟨i0, hue0, _, hc, h⟩
          · rw [h]; exact hat
          · obtain ⟨_, _, hf0, hnc⟩ := (hueChange_eq_some_iff cfg node i0 hue0).1 hc
            rw [h, walkedAt_modify]
            by_cases hq : j :: q = [i0]
            · exfalso
              rw [hq, walkedAt_single, findHue_index hf0] at hat
              cases hat
              rw [not_recognized_of_likeNumber (likeNumber_of_nonConforming hnc)] at hr
              cases hr
            · rw [if_neg hq]; exact hat
        obtain ⟨call1, hue1, h1, h2⟩ :=
          (hfun htn).2.2 (j :: q) call i hue hN ht hr hf hstd hel
        refine ⟨call1, hue1, ?_, h2⟩
        rw [walkedAt_zero, setNodes_type, stepNode_type, if_pos htn, setNodes_nodes]
        exact h1

/-- C17: one walk deals with every call.  In fix mode the walk returns a tree in which, at
every path the walk follows to a recognized call whose hue was standard syntax and eligible
(at any depth, beside or inside other functions), the call is still there with its name,
and its hue conforms to the policy: a degree value under `angle`, a bare number under
`number`.  In check mode the walk returns the tree it was given and adds, in the order of
the walk, one diagnostic for each call it visits whose hue the callback acts on: a function
node with a recognized name whose located hue is standard syntax, a degree value or a bare
number, and not what the policy asks for. -/
theorem walk_fixes_every_call (cfg : Config) :
    (cfg.fix = true → ∀ nodes st, ∃ nodes1 st1, walkNodes cfg nodes st = .ok (nodes1, st1) ∧
      ∀ path call i hue, walkedAt nodes path = some call → call.type = .function →
        HUE_FUNCS.contains (toLowerCase call.value) = true → findHue call = some (i, hue) →
        cfg.isStandardSyntaxValue hue.value = true →
        (isDegree hue.value = true ∨ isNumber hue.value = true) →
        ∃ call1 hue1, walkedAt nodes1 path = some call1 ∧ call1.type = .function ∧
          call1.value = call.value ∧ findHue call1 = some (i, hue1) ∧
          (cfg.primary = "angle".toList → isDegree hue1.value = true) ∧
          (cfg.primary = "number".toList → isNumber hue1.value = true)) ∧
    (cfg.fix = false → ∀ nodes st, ∃ st1, walkNodes cfg nodes st = .ok (nodes, st1) ∧
      st1.reports = st.reports ++
        (visitedList nodes).filterMap
          (fun call => (hueChange cfg call).map (fun p => hueReport cfg p.2))) ∧
    (∀ call i hue, hueChange cfg call = some (i, hue) ↔
      (call.type = .function ∧ HUE_FUNCS.contains (toLowerCase call.value) = true ∧
        findHue call = some (i, hue) ∧ cfg.isStandardSyntaxValue hue.value = true ∧
        (isDegree hue.value = true ∨ isNumber hue.value = true) ∧
        ¬ (cfg.primary = "angle".toList ∧ isDegree hue.value = true) ∧
        ¬ (cfg.primary = "number".toList ∧ isNumber hue.value = true))) := by
  refine ⟨?_, ?_, ?_⟩
  · intro hfix nodes st
    obtain ⟨nodes1, st1, hw, _, h⟩ := walkNodes_fixes cfg hfix nodes st
    refine ⟨nodes1, st1, hw, ?_⟩
    intro path call i hue hat ht hr hf hstd hel
    obtain ⟨call1, hue1, h1, h2, h3, h4⟩ := h path call i hue hat ht hr hf hstd hel
    exact ⟨call1, hue1, h1, (type_eq_of_head h2).trans ht, value_eq_of_head h2, h3, h4⟩
  · intro hfix nodes st
    obtain ⟨nodes1, st1, hw, _, h2, h3, _⟩ := walkNodes_full cfg nodes st
    rw [h3 hfix] at hw
    refine ⟨st1, hw, ?_⟩
    rw [h2]
    simp only [hfix, Bool.false_eq_true, if_false, huesToChange, List.map_filterMap,
      Option.map_map]
    rfl
  · intro call i hue
    rw [hueChange_eq_some_iff, nonConforming_iff_guards]
    rfl

/-- C17, at a concrete input: in `linear-gradient(hsl(200 50% 50%), lch(50% 40 30))` under
`angle`, one walk in fix mode leaves both nested calls with a degree value for hue, and one
walk in check mode reports two diagnostics. -/
theorem walk_fixes_every_call_witness :
    (∃ nodes1 st1, walkNodes (plainConfig "angle".toList true)
        [callOfCalls "linear-gradient".toList
          (call3 "hsl".toList "200".toList "50%".toList "50%".toList)
          (call3 "lch".toList "50%".toList "40".toList "30".toList)] ⟨false, []⟩ =
          .ok (nodes1, st1) ∧
      (∃ call1 hue1, walkedAt nodes1 [0, 0] = some call1 ∧ call1.value = "hsl".toList ∧
        findHue call1 = some (0, hue1) ∧ isDegree hue1.value = true) ∧
      (∃ call1 hue1, walkedAt nodes1 [0, 2] = some call1 ∧ call1.value = "lch".toList ∧
        findHue call1 = some (4, hue1) ∧ isDegree hue1.value = true)) ∧
    (∃ st1, walkNodes (plainConfig "angle".toList false)
        [callOfCalls "linear-gradient".toList
          (call3 "hsl".toList "200".toList "50%".toList "50%".toList)
          (call3 "lch".toList "50%".toList "40".toList "30".toList)] ⟨false, []⟩ =
          .ok ([callOfCalls "linear-gradient".toList
            (call3 "hsl".toList "200".toList "50%".toList "50%".toList)
            (call3 "lch".toList "50%".toList "40".toList "30".toList)], st1) ∧
      st1.reports.map Report.message =
        ["Expected \"200\" to be \"200deg\"".toList,
         "Expected \"30\" to be \"30deg\"".toList]) := by
  constructor
  · obtain ⟨nodes1, st1, hw, h⟩ := (walk_fixes_every_call (plainConfig "angle".toList true)).1
      rfl [callOfCalls "linear-gradient".toList
        (call3 "hsl".toList "200".toList "50%".toList "50%".toList)
        (call3 "lch".toList "50%".toList "40".toList "30".toList)] ⟨false, []⟩
    refine ⟨nodes1, st1, hw, ?_, ?_⟩
    · obtain ⟨call1, hue1, h1, _, h3, h4, h5, _⟩ := h [0, 0]
        (call3 "hsl".toList "200".toList "50%".toList "50%".toList) 0
        (wordNode "200".toList 4) rfl rfl (by decide) rfl rfl (Or.inr (by decide))
      exact ⟨call1, hue1, h1, h3, h4, h5 rfl⟩
    · obtain ⟨call1, hue1, h1, _, h3, h4, h5, _⟩ := h [0, 2]
        (call3 "lch".toList "50%".toList "40".toList "30".toList) 4
        (wordNode "30".toList 11) rfl rfl (by decide) rfl rfl (Or.inr (by decide))
      exact ⟨call1, hue1, h1, h3, h4, h5 rfl⟩
  · obtain ⟨st1, hw, h⟩ := (walk_fixes_every_call (plainConfig "angle".toList false)).2.1
      rfl [callOfCalls "linear-gradient".toList
        (call3 "hsl".toList "200".toList "50%".toList "50%".toList)
        (call3 "lch".toList "50%".toList "40".toList "30".toList)] ⟨false, []⟩
    refine ⟨st1, hw, ?_⟩
    rw [h]
    rfl

/-! ## The converted text differs from the original -/

theorem stringifyNode_setValue_length (n : Node) (f : Str) :
    (stringifyNode (n.setValue f)).length + n.value.length =
      (stringifyNode n).length + f.length := by
  obtain ⟨type, value, si, se, before, after, quote, unclosed, nodes⟩ := n
  cases type <;> simp [stringifyNode, Node.setValue, Node.value] <;> omega

theorem stringify_modify_length (f : Str) (l : List Node) (k : Nat) (m : Node)
    (h : l[k]? = some m) :
    (stringify (l.modify (Node.setValue f) k)).length + m.value.length =
      (stringify l).length + f.length := by
  induction l generalizing k with
  | nil => simp at h
  | cons a as ih =>
    cases k with
    | zero =>
      simp only [List.getElem?_cons_zero, Option.some.injEq] at h
      subst h
      have := stringifyNode_setValue_length a f
      simp only [List.modify_zero_cons, stringify, List.length_append]
      omega
    | succ k =>
      have := ih k (by simpa using h)
      rw [List.modify_succ_cons]
      simp only [stringify, List.length_append]
      omega

theorem stringifyNode_setNodes_function (n : Node) (kids : List Node)
    (ht : n.type = .function) :
    (stringifyNode (n.setNodes kids)).length + (stringify n.nodes).length =
      (stringifyNode n).length + (stringify kids).length := by
  obtain ⟨type, value, si, se, before, after, quote, unclosed, nodes⟩ := n
  simp only [Node.type] at ht
  subst ht
  simp [stringifyNode, Node.setNodes, Node.nodes]
  omega

theorem stringifyNode_setNodes_leaf (n : Node) (kids : List Node)
    (ht : n.type ≠ .function) :
    stringifyNode (n.setNodes kids) = stringifyNode n := by
  obtain ⟨type, value, si, se, before, after, quote, unclosed, nodes⟩ := n
  simp only [Node.type] at ht
  cases type <;> simp_all [stringifyNode, Node.setNodes]

/-- The length of the converted text of a hue the callback acts on: three characters more
under `angle`, three fewer under `number`. -/
theorem convertText_length (cfg : Config) (v : Str)
    (hp : cfg.primary = "angle".toList ∨ cfg.primary = "number".toList)
    (h : nonConforming cfg v = true) :
    (convertText cfg.primary v).length + (if cfg.primary = "angle".toList then 0 else 3) =
      v.length + (if cfg.primary = "angle".toList then 3 else 0) := by
  obtain ⟨_, _, h3⟩ := (nonConforming_iff cfg v hp).1 h
  rcases h3 with ⟨hp, _⟩ | ⟨hp, hd⟩
  · simp [convertText, hp, asDegree]
  · have hne : cfg.primary ≠ "angle".toList := by rw [hp]; decide
    obtain ⟨n, u, h1, h2, h3, _⟩ := isNumber_asNumber hd
    have h4 := asNumber_of_eligible (v := v) (by simp [hd])
    rw [h3] at h4
    have hu : u.length = 3 := by
      have := congrArg List.length h2
      simpa [toLowerCase] using this
    rw [convertText, if_neg hne, if_neg hne, if_neg hne, ← Except.ok.inj h4]
    rw [h1, List.length_append, hu]

theorem convertText_ne (cfg : Config) (v : Str)
    (hp : cfg.primary = "angle".toList ∨ cfg.primary = "number".toList)
    (h : nonConforming cfg v = true) : convertText cfg.primary v ≠ v := by
  intro he
  have := convertText_length cfg v hp h
  rw [he] at this
  split at this <;> omega

/-- The length of the text of the tree after a walk in fix mode: three characters more
under `angle`, three fewer under `number`, for each hue the callback acts on. -/
theorem walkNodes_stringify_length (cfg : Config) (hfix : cfg.fix = true)
    (hp : cfg.primary = "angle".toList ∨ cfg.primary = "number".toList)
    (nodes : List Node) (st : WalkState) :
    ∃ nodes1 st1, walkNodes cfg nodes st = .ok (nodes1, st1) ∧
      (stringify nodes1).length +
          (if cfg.primary = "angle".toList then 0 else 3) * (huesToChange cfg nodes).length =
        (stringify nodes).length +
          (if cfg.primary = "angle".toList then 3 else 0) * (huesToChange cfg nodes).length := by
  have hconv := convertText_length cfg
  generalize (if cfg.primary = "angle".toList then 0 else 3) = b at hconv ⊢
  generalize (if cfg.primary = "angle".toList then 3 else 0) = a at hconv ⊢
  refine walkNodes_rel cfg
    (fun l _ l1 _ =>
      (stringify l1).length + b * (huesToChange cfg l).length =
        (stringify l).length + a * (huesToChange cfg l).length)
    (fun st => by simp [huesToChange_nil, stringify]) ?_ nodes st
  intro node rest st kids st2 rest1 st3 hfun hleaf _ hrest
  simp only [huesToChange_cons, stringify, List.length_append, Nat.mul_add]
  by_cases ht : node.type = .function
  · have hk := (hfun ht).2
    simp only [huesToChange_stepNode] at hk
    have h1 := stringifyNode_setNodes_function (stepNode cfg node) kids
      ((stepNode_type cfg node).trans ht)
    simp only [ht, if_true]
    cases hc : hueChange cfg node with
    | none =>
      rw [(stepNode_none hc).1] at h1 hk ⊢
      simp only [Option.map_none', Option.toList_none, List.length_nil, Nat.mul_zero]
      omega
    | some p =>
      obtain ⟨i0, hue⟩ := p
      obtain ⟨_, _, hf, hnc⟩ := (hueChange_eq_some_iff cfg node i0 hue).1 hc
      have hs := (stepNode_fix hfix hc).1
      rw [hs] at h1 hk ⊢
      have h2 := stringifyNode_setNodes_function node
        (node.nodes.modify (Node.setValue (convertText cfg.primary hue.value)) i0) ht
      have h3 := stringify_modify_length (convertText cfg.primary hue.value) node.nodes i0 hue
        (findHue_index hf)
      have h4 := hconv hue.value hp hnc
      simp only [setHueValue_nodes] at h1 hk
      simp only [setHueValue, setNodes_setNodes] at h1 ⊢
      simp only [Option.map_some', Option.toList_some, List.length_singleton, Nat.mul_one]
      omega
  · obtain ⟨hk, _⟩ := hleaf ht
    have hc : hueChange cfg node = none :=
      hueChange_eq_none cfg node (fun _ _ _ hcon => ht hcon.1)
    rw [hk, setNodes_self, (stepNode_none hc).1]
    simp only [hc, ht, if_false, Option.map_none', Option.toList_none, List.length_nil,
      Nat.mul_zero]
    omega

/-- Under a valid policy every diagnostic a walk adds has different `unfixed` and `fixed`
texts, and a walk that sets `needsFix` returns a tree whose text is not the text of the tree
it was given. -/
theorem walkNodes_differs (cfg : Config)
    (hp : cfg.primary = "angle".toList ∨ cfg.primary = "number".toList)
    (nodes : List Node) (st : WalkState) :
    ∃ nodes1 st1, walkNodes cfg nodes st = .ok (nodes1, st1) ∧
      (∃ new, st1.reports = st.reports ++ new ∧
        ∀ r ∈ new, r.messageArgs.1 ≠ r.messageArgs.2) ∧
      (st.needsFix = false → st1.needsFix = true → stringify nodes1 ≠ stringify nodes) := by
  obtain ⟨nodes1, st1, hw, h1, h2, _, _⟩ := walkNodes_full cfg nodes st
  refine ⟨nodes1, st1, hw, ⟨_, h2, ?_⟩, ?_⟩
  · intro r hr
    split at hr
    · cases hr
    · obtain ⟨hue, hmem, rfl⟩ := List.mem_map.1 hr
      obtain ⟨call, _, i, hc⟩ := mem_huesToChange hmem
      obtain ⟨_, _, _, hnc⟩ := (hueChange_eq_some_iff cfg call i hue).1 hc
      exact (convertText_ne cfg hue.value hp hnc).symm
  · intro hs0 hs1 heq
    rw [hs0, hs1] at h1
    simp only [Bool.false_or] at h1
    have hfix : cfg.fix = true := by
      cases hf : cfg.fix with
      | true => rfl
      | false => rw [hf] at h1; cases h1
    have hpos : 0 < (huesToChange cfg nodes).length := by
      cases hl : huesToChange cfg nodes with
      | nil => rw [hfix, hl] at h1; cases h1
      | cons a l => simp
    obtain ⟨nodes2, st2, hw2, hlen⟩ := walkNodes_stringify_length cfg hfix hp nodes st
    rw [hw] at hw2
    simp only [Except.ok.injEq, Prod.mk.injEq] at hw2
    obtain ⟨rfl, rfl⟩ := hw2
    rw [heq] at hlen
    rcases hp with hp | hp
    · rw [if_pos hp, if_pos hp] at hlen
      omega
    · have hne : cfg.primary ≠ "angle".toList := by rw [hp]; decide
      rw [if_neg hne, if_neg hne] at hlen
      omega

/-- Under a valid policy every diagnostic of the callback of `walkDecls` has different
`unfixed` and `fixed` texts, and a text it passes to `setDeclarationValue` is not the text of
the parsed tree. -/
theorem visitDecl_differs {D : Type} (host : Host D) (primary : Str) (fix : Bool)
    (hp : primary = "angle".toList ∨ primary = "number".toList) (decl : D) :
    ∃ out, visitDecl host primary fix decl = .ok out ∧
      (∀ r ∈ out.reports, r.messageArgs.1 ≠ r.messageArgs.2) ∧
      (∀ v ∈ out.setCalls,
        v ≠ stringify (host.valueParser (host.getDeclarationValue decl))) := by
  cases hpre : HAS_HUE_COLOR_FUNC (host.declValue decl) with
  | false =>
    refine ⟨_, visitDecl_skip host primary fix decl hpre, ?_, ?_⟩ <;> intro r hr <;> cases hr
  | true =>
    obtain ⟨nodes1, st1, hw, ⟨new, h1, h2⟩, h3⟩ := walkNodes_differs
      (host.config primary fix decl) hp
      (host.valueParser (host.getDeclarationValue decl)) { needsFix := false, reports := [] }
    have hout := visitDecl_walk host primary fix decl hpre nodes1 st1 hw
    simp only [List.nil_append] at h1
    by_cases hn : st1.needsFix = true
    · rw [if_pos hn] at hout
      refine ⟨_, hout, ?_, ?_⟩
      · intro r hr
        exact h2 r (by rw [← h1]; exact hr)
      · intro v hv
        simp only [List.mem_singleton] at hv
        rw [hv]
        exact h3 rfl hn
    · rw [if_neg hn] at hout
      refine ⟨_, hout, ?_, ?_⟩
      · intro r hr
        exact h2 r (by rw [← h1]; exact hr)
      · intro v hv
        cases hv

/-- C18: the converted text differs from the original.  For every bare number `v`,
`asDegree v` is not `v`; for every degree value `v`, `asNumber` returns a proper prefix of
`v`.  Under a policy `angle` or `number`: a callback that sets `needsFix` leaves the located
hue with a different text; every diagnostic a walk adds has different `unfixed` and `fixed`
texts, and a walk that sets `needsFix` returns a tree whose text is not the text of the tree
it was given; so every diagnostic of a declaration has different texts, and a text passed
to `setDeclarationValue` is not the text of the parsed value.  The rule, which runs the walk
only after the options are validated, reports no diagnostic with identical texts when the
validation accepts only `angle` and `number`. -/
theorem converted_text_differs :
    (∀ v, isNumber v = true → asDegree v ≠ v) ∧
    (∀ v, isDegree v = true → ∃ n u, asNumber v = .ok n ∧ v = n ++ u ∧ u ≠ []) ∧
    (∀ cfg : Config, (cfg.primary = "angle".toList ∨ cfg.primary = "number".toList) →
      (∀ node st node1 st1, callback cfg node st = .ok (node1, st1) →
        st.needsFix = false → st1.needsFix = true →
        ∃ i hue hue1, findHue node = some (i, hue) ∧ findHue node1 = some (i, hue1) ∧
          hue1.value ≠ hue.value) ∧
      (∀ nodes st, ∃ nodes1 st1, walkNodes cfg nodes st = .ok (nodes1, st1) ∧
        (∃ new, st1.reports = st.reports ++ new ∧
          ∀ r ∈ new, r.messageArgs.1 ≠ r.messageArgs.2) ∧
        (st.needsFix = false → st1.needsFix = true →
          stringify nodes1 ≠ stringify nodes))) ∧
    (∀ (D : Type) (host : Host D) (primary : Str) (fix : Bool),
      (primary = "angle".toList ∨ primary = "number".toList) →
      ∀ decl, ∃ out, visitDecl host primary fix decl = .ok out ∧
        (∀ r ∈ out.reports, r.messageArgs.1 ≠ r.messageArgs.2) ∧
        (∀ v ∈ out.setCalls,
          v ≠ stringify (host.valueParser (host.getDeclarationValue decl)))) ∧
    (∀ (D : Type) (host : Host D) (primary : Str) (fix : Bool) (root : List D),
      (host.validateOptions primary ["angle".toList, "number".toList] = true →
        primary = "angle".toList ∨ primary = "number".toList) →
      ∃ r, rule host primary fix root = .ok r ∧
        ∀ rep ∈ r.reports, rep.messageArgs.1 ≠ rep.messageArgs.2) := by
  refine ⟨?_, ?_, ?_, ?_, ?_⟩
  · intro v _ h
    have := congrArg List.length h
    simp [asDegree] at this
  · intro v h
    obtain ⟨n, u, h1, h2, h3, _⟩ := isNumber_asNumber h
    refine ⟨n, u, h3, h1, ?_⟩
    intro hu
    rw [hu] at h2
    cases h2
  · intro cfg hp
    refine ⟨?_, walkNodes_differs cfg hp⟩
    intro node st node1 st1 hcb hs0 hs1
    rw [callback_eq_step] at hcb
    simp only [Except.ok.injEq, Prod.mk.injEq] at hcb
    obtain ⟨rfl, rfl⟩ := hcb
    cases hc : hueChange cfg node with
    | none =>
      rw [(stepNode_none hc).2, hs0] at hs1
      cases hs1
    | some p =>
      obtain ⟨i, hue⟩ := p
      obtain ⟨_, _, hf, hnc⟩ := (hueChange_eq_some_iff cfg node i hue).1 hc
      have hfix : cfg.fix = true := by
        cases hfx : cfg.fix with
        | true => rfl
        | false =>
          simp only [stepState, hc, hfx, Bool.false_eq_true, if_false] at hs1
          rw [hs0] at hs1
          cases hs1
      rw [(stepNode_fix hfix hc).1]
      refine ⟨i, hue, _, hf, findHue_setHueValue _ hf, ?_⟩
      rw [setValue_value]
      exact convertText_ne cfg hue.value hp hnc
  · intro D host primary fix hp decl
    exact visitDecl_differs host primary fix hp decl
  · intro D host primary fix root hv
    cases hval : host.validateOptions primary ["angle".toList, "number".toList] with
    | false =>
      refine ⟨_, rule_invalid host primary fix root hval, ?_⟩
      intro rep hr
      cases hr
    | true =>
      rw [rule_valid host primary fix root hval]
      refine walkDecls_rel host primary fix
        (fun _ r => ∀ rep ∈ r.reports, rep.messageArgs.1 ≠ rep.messageArgs.2)
        (fun rep hr => by cases hr) ?_ root
      intro decl rest out more ho _ ih rep hr
      simp only [List.mem_append] at hr
      rcases hr with hr | hr
      · obtain ⟨out2, ho2, h1, _⟩ := visitDecl_differs host primary fix (hv hval) decl
        rw [ho] at ho2
        cases ho2
        exact h1 rep hr
      · exact ih rep hr

/-- C18, at concrete inputs: `asDegree` of `200` is not `200`; `asNumber` of `200deg` returns
a proper prefix of it; the text the declaration `hsl(200 50% 50%)` is rewritten to under
`angle` is not `hsl(200 50% 50%)`; and the diagnostics of the rule on that declaration have
different `unfixed` and `fixed` texts. -/
theorem converted_text_differs_witness :
    asDegree "200".toList ≠ "200".toList ∧
    (∃ n u, asNumber "200deg".toList = .ok n ∧ "200deg".toList = n ++ u ∧ u ≠ []) ∧
    (∃ out, visitDecl (simpleHost (parserOf "hsl(200 50% 50%)".toList
          [call3 "hsl".toList "200".toList "50%".toList "50%".toList]))
        "angle".toList true { value := "hsl(200 50% 50%)".toList, valueIndex := 7 } = .ok out ∧
      ∀ v ∈ out.setCalls, v ≠ "hsl(200 50% 50%)".toList) ∧
    (∃ r, rule (simpleHost (parserOf "hsl(200 50% 50%)".toList
          [call3 "hsl".toList "200".toList "50%".toList "50%".toList]))
        "angle".toList false [{ value := "hsl(200 50% 50%)".toList, valueIndex := 7 }] = .ok r ∧
      ∀ rep ∈ r.reports, rep.messageArgs.1 ≠ rep.messageArgs.2) := by
  refine ⟨converted_text_differs.1 _ (by decide), converted_text_differs.2.1 _ (by decide),
    ?_, ?_⟩
  · obtain ⟨out, ho, _, hs⟩ := converted_text_differs.2.2.2.1 SimpleDecl
      (simpleHost (parserOf "hsl(200 50% 50%)".toList
        [call3 "hsl".toList "200".toList "50%".toList "50%".toList]))
      "angle".toList true (Or.inl rfl) { value := "hsl(200 50% 50%)".toList, valueIndex := 7 }
    exact ⟨out, ho, hs⟩
  · exact converted_text_differs.2.2.2.2 SimpleDecl
      (simpleHost (parserOf "hsl(200 50% 50%)".toList
        [call3 "hsl".toList "200".toList "50%".toList "50%".toList]))
      "angle".toList false [{ value := "hsl(200 50% 50%)".toList, valueIndex := 7 }]
      (fun _ => Or.inl rfl)

end HueDegreeNotation
